import Mathlib

/-!
Bottleneck localisation: a shallow embedding of `localiser/localizer.go`.

The Go program reduces tracing records to one "bottleneck" service.  This file
embeds its pure core (`getFloat`, `findBottlenecks`, `aggregateResults`,
`topsis`) and proves properties of it.

Modelling conventions.

* `float64` is `F64 K`: the exact numbers of an ordered field `K` together with
  the IEEE special values NaN, +Inf and -Inf.  Arithmetic on finite values is
  exact (no rounding, no overflow); the special values follow IEEE 754.  Signed
  zeros are not distinguished: every divisor of the source that can be zero is
  a square root or a sum of square roots (or `frequency + 1`), hence `+0`.
* `math.Sqrt` on finite non-negative values is a parameter `sqrt : K → K`, so
  that all definitions stay executable; theorems that depend on what the square
  root computes state it as a hypothesis, which `Real.sqrt` satisfies.
* A Go map is an association list with pairwise distinct keys (`mget`, `mset`).
  Go leaves the order of `range` over a map unspecified, and every `range`
  may use a different order, so each map loop takes the list of keys it visits
  as an explicit argument (`forRange`).
* A panic is `none`.
* Decoded JSON (`interface{}` values produced by `encoding/json`) is `JSON K`.
* The locals `spanNodes` and `messages` of `findBottlenecks` are only ever
  written (they reach no result and no branch), and logging has no effect on
  the results; both are left out.
-/

/-! ## float64 -/

/-- The values of a `float64`: NaN, -Inf, a finite number, +Inf. -/
inductive F64 (K : Type) where
  | nan : F64 K
  | ninf : F64 K
  | fin (x : K) : F64 K
  | pinf : F64 K
deriving DecidableEq, Repr

namespace F64

variable {K : Type} [LinearOrderedField K]

/-- Addition `a + b`. -/
def add : F64 K → F64 K → F64 K
  | nan, _ => nan
  | _, nan => nan
  | fin a, fin b => fin (a + b)
  | pinf, ninf => nan
  | ninf, pinf => nan
  | pinf, _ => pinf
  | _, pinf => pinf
  | ninf, _ => ninf
  | _, ninf => ninf

/-- Unary minus. -/
def neg : F64 K → F64 K
  | nan => nan
  | ninf => pinf
  | fin a => fin (-a)
  | pinf => ninf

/-- Subtraction `a - b`. -/
def sub (a b : F64 K) : F64 K := add a (neg b)

/-- The infinity with the sign of `a`, for `a ≠ 0`. -/
def infOfSign (a : K) : F64 K := if 0 < a then pinf else ninf

/-- Multiplication `a * b`; `0 * Inf` is NaN. -/
def mul : F64 K → F64 K → F64 K
  | nan, _ => nan
  | _, nan => nan
  | fin a, fin b => fin (a * b)
  | fin a, pinf => if a = 0 then nan else infOfSign a
  | fin a, ninf => if a = 0 then nan else infOfSign (-a)
  | pinf, fin b => if b = 0 then nan else infOfSign b
  | ninf, fin b => if b = 0 then nan else infOfSign (-b)
  | pinf, pinf => pinf
  | ninf, ninf => pinf
  | pinf, ninf => ninf
  | ninf, pinf => ninf

/-- Division `a / b`, a zero divisor being `+0`: `0 / 0` and `Inf / Inf` are
NaN, `x / 0` is the infinity with the sign of `x`, `x / Inf` is zero. -/
def div : F64 K → F64 K → F64 K
  | nan, _ => nan
  | _, nan => nan
  | fin a, fin b => if b = 0 then (if a = 0 then nan else infOfSign a) else fin (a / b)
  | fin _, pinf => fin 0
  | fin _, ninf => fin 0
  | pinf, fin b => if 0 ≤ b then pinf else ninf
  | ninf, fin b => if 0 ≤ b then ninf else pinf
  | pinf, pinf => nan
  | pinf, ninf => nan
  | ninf, pinf => nan
  | ninf, ninf => nan

/-- The function `math.Sqrt`, given the square root `sqrt` of the finite non-negative
numbers: NaN for NaN and for negative arguments, +Inf for +Inf. -/
def sqrtWith (sqrt : K → K) : F64 K → F64 K
  | nan => nan
  | ninf => nan
  | fin a => if a < 0 then nan else fin (sqrt a)
  | pinf => pinf

/-- The comparison `a < b`: false as soon as one side is NaN. -/
def lt : F64 K → F64 K → Prop
  | fin a, fin b => a < b
  | ninf, fin _ => True
  | ninf, pinf => True
  | fin _, pinf => True
  | _, _ => False

/-- The comparison `a <= b`: false as soon as one side is NaN. -/
def le : F64 K → F64 K → Prop
  | fin a, fin b => a ≤ b
  | ninf, ninf => True
  | ninf, fin _ => True
  | ninf, pinf => True
  | fin _, pinf => True
  | pinf, pinf => True
  | _, _ => False

instance : Add (F64 K) := ⟨add⟩
instance : Neg (F64 K) := ⟨neg⟩
instance : Sub (F64 K) := ⟨sub⟩
instance : Mul (F64 K) := ⟨mul⟩
instance : Div (F64 K) := ⟨div⟩
instance : LT (F64 K) := ⟨lt⟩
instance : LE (F64 K) := ⟨le⟩
instance : Zero (F64 K) := ⟨fin 0⟩
instance : One (F64 K) := ⟨fin 1⟩
instance : Inhabited (F64 K) := ⟨fin 0⟩

instance decLt : (a b : F64 K) → Decidable (a < b)
  | fin a, fin b => inferInstanceAs (Decidable (a < b))
  | ninf, fin _ => isTrue trivial
  | ninf, pinf => isTrue trivial
  | fin _, pinf => isTrue trivial
  | nan, _ => isFalse (fun h => by cases h)
  | ninf, nan => isFalse (fun h => by cases h)
  | ninf, ninf => isFalse (fun h => by cases h)
  | fin _, nan => isFalse (fun h => by cases h)
  | fin _, ninf => isFalse (fun h => by cases h)
  | pinf, _ => isFalse (fun h => by cases h)

/-- Membership of the closed interval from 0 to 1, as the test `0 <= x && x <= 1`. -/
def inUnitInterval (x : F64 K) : Prop := fin 0 ≤ x ∧ x ≤ fin 1

/-- The values that a square root, and the terms built from square roots in `topsis`,
can take: NaN, +Inf or a finite number that is not negative. -/
def NonNegOrNaN : F64 K → Prop
  | nan => True
  | ninf => False
  | fin a => 0 ≤ a
  | pinf => True

end F64

/-! ## Go maps and `range` -/

/-- A Go `map[string]V`: an association list whose keys are pairwise distinct. -/
abbrev GoMap (V : Type) := List (String × V)

/-- The keys of a map. -/
def mkeys {V : Type} (m : GoMap V) : List String := m.map Prod.fst

/-- The lookup `v, ok := m[k]`. -/
def mget {V : Type} : GoMap V → String → Option V
  | [], _ => none
  | (k, v) :: m, x => if k = x then some v else mget m x

/-- The assignment `m[k] = v`: overwrite the entry of `k`, or add one. -/
def mset {V : Type} : GoMap V → String → V → GoMap V
  | [], x, v => [(x, v)]
  | (k, w) :: m, x, v => if k = x then (k, v) :: m else (k, w) :: mset m x v

/-- The loop `for key, value := range m { st = body st key value }` visiting the keys
in the order `ord`.  The map is read through `get` from the current state, so
a body that assigns to the map it ranges over sees its own writes; a key that
is not in the map when it is reached is skipped. -/
def forRange {σ V : Type} (ord : List String) (get : σ → String → Option V)
    (body : σ → String → V → σ) (init : σ) : σ :=
  ord.foldl (fun st key =>
    match get st key with
    | some value => body st key value
    | none => st) init

/-- The pattern `if x > tempMax { tempMax = x; best = p }` of the three selection loops. -/
def maxStep {K β : Type} [LinearOrderedField K] (acc : F64 K × β) (x : F64 K) (p : β) :
    F64 K × β :=
  if acc.1 < x then (x, p) else acc

/-! ## Data model -/

/-- One bottleneck observation: the service and the delay of a trace's dominant span. -/
structure bottleneckInfo (K : Type) where
  bottleneck : String
  delay : F64 K
deriving DecidableEq, Repr

/-- A TOPSIS candidate: frequency and mean delay of one service. -/
structure topsisArgs (K : Type) where
  frequency : F64 K
  delay : F64 K
deriving DecidableEq, Repr

/-- A span of a trace. -/
structure node (K : Type) where
  spanID : String
  duration : F64 K
  parents : List String
  processID : String
  processingTime : F64 K
deriving DecidableEq, Repr

/-- The zero value of `node`, which Go returns for a key that is not in `spanMap`. -/
def node.zero {K : Type} [LinearOrderedField K] : node K :=
  { spanID := "", duration := 0, parents := [], processID := "", processingTime := 0 }

/-- A decoded JSON document, as `encoding/json` stores it in an `interface{}`. -/
inductive JSON (K : Type) where
  | null : JSON K
  | bool (b : Bool) : JSON K
  | num (x : F64 K) : JSON K
  | str (s : String) : JSON K
  | arr (xs : List (JSON K)) : JSON K
  | obj (kv : List (String × JSON K)) : JSON K

namespace JSON

variable {K : Type}

/-- The type assertion `j.(map[string]interface{})`. -/
def asObj : JSON K → Option (GoMap (JSON K))
  | obj kv => some kv
  | _ => none

/-- The type assertion `j.([]interface{})`. -/
def asArr : JSON K → Option (List (JSON K))
  | arr xs => some xs
  | _ => none

/-- The type assertion `j.(string)`. -/
def asStr : JSON K → Option String
  | str s => some s
  | _ => none

/-- The comparison `j == s` of an interface value with a string constant. -/
def isStr : JSON K → String → Bool
  | str t, s => decide (t = s)
  | _, _ => false

end JSON

/-- The index expression `m[k]` on a `map[string]interface{}`: `nil` for a missing key. -/
def field {K : Type} (m : GoMap (JSON K)) (k : String) : JSON K :=
  (mget m k).getD JSON.null

/-! ## `getFloat` -/

/-- The function `getFloat` on a decoded JSON value.  The result pairs the number with
whether the error is `nil`.  `parseFloat` is `strconv.ParseFloat(_, 64)`.  A
`float64` is returned as is and a string is parsed; `nil` reaches
`reflect.Value.Type` on the zero `Value`, which panics; booleans, slices and
maps convert neither to `float64` nor to `string` and give NaN with an error. -/
def getFloat {K : Type} (parseFloat : String → F64 K × Bool) : JSON K → Option (F64 K × Bool)
  | JSON.num x => some (x, true)
  | JSON.str s => some (parseFloat s)
  | JSON.null => none
  | JSON.bool _ => some (F64.nan, false)
  | JSON.arr _ => some (F64.nan, false)
  | JSON.obj _ => some (F64.nan, false)

/-! ## `topsis` -/

section Topsis

variable {K : Type} [LinearOrderedField K]

/-- The visiting orders of the six map loops of `topsis`, in source order. -/
structure TopsisOrd where
  single : List String
  norm : List String
  best : List String
  worst : List String
  score : List String
  pick : List String

/-- The weights `freqWeight` and `delayWeight`, both `0.5`. -/
def freqWeight : F64 K := F64.fin (1 / 2)

/-- See `freqWeight`. -/
def delayWeight : F64 K := F64.fin (1 / 2)

/-- Step 1, first loop with the two `math.Sqrt` calls: `(freqNorm, delayNorm)`. -/
def topsisNorms (sqrt : K → K) (data : GoMap (topsisArgs K)) (ord : List String) :
    F64 K × F64 K :=
  let s := forRange ord (fun _ => mget data)
    (fun st _ value =>
      (st.1 + value.frequency * value.frequency, st.2 + value.delay * value.delay))
    ((0 : F64 K), (0 : F64 K))
  (F64.sqrtWith sqrt s.1, F64.sqrtWith sqrt s.2)

/-- Step 1, second loop: every entry of `tempCopy` (an alias of `data`) is replaced
by its weighted normalised value while `freqBest` and `delayBest` are raised.
The result is `(tempCopy, freqBest, delayBest)`. -/
def topsisWeighted (data : GoMap (topsisArgs K)) (norms : F64 K × F64 K)
    (ord : List String) : GoMap (topsisArgs K) × F64 K × F64 K :=
  forRange ord (fun st => mget st.1)
    (fun st key value =>
      let freq := (value.frequency / norms.1) * freqWeight
      let delay := (value.delay / norms.2) * delayWeight
      (mset st.1 key { frequency := freq, delay := delay },
        (if st.2.1 < freq then freq else st.2.1),
        (if st.2.2 < delay then delay else st.2.2)))
    (data, (0 : F64 K), (0 : F64 K))

/-- Step 1, third loop: `(freqWorst, delayWorst)`, starting from the best point. -/
def topsisWorst (tempCopy : GoMap (topsisArgs K)) (best : F64 K × F64 K)
    (ord : List String) : F64 K × F64 K :=
  forRange ord (fun _ => mget tempCopy)
    (fun st _ value =>
      ((if value.frequency < st.1 then value.frequency else st.1),
        (if value.delay < st.2 then value.delay else st.2)))
    best

/-- The closeness score of one weighted normalised candidate. -/
def closeness (sqrt : K → K) (best worst : F64 K × F64 K) (value : topsisArgs K) : F64 K :=
  let positiveED := F64.sqrtWith sqrt
    ((value.frequency - best.1) * (value.frequency - best.1)
      + (value.delay - best.2) * (value.delay - best.2))
  let negetiveED := F64.sqrtWith sqrt
    ((value.frequency - worst.1) * (value.frequency - worst.1)
      + (value.delay - worst.2) * (value.delay - worst.2))
  negetiveED / (positiveED + negetiveED)

/-- Step 2: the loop that fills `finalScore`. -/
def topsisScores (sqrt : K → K) (tempCopy : GoMap (topsisArgs K)) (best worst : F64 K × F64 K)
    (ord : List String) : GoMap (F64 K) :=
  forRange ord (fun _ => mget tempCopy)
    (fun fs key value => mset fs key (closeness sqrt best worst value))
    []

/-- The map `finalScore` when the last loop of `topsis` is reached: empty for a single
candidate, the closeness scores otherwise. -/
def finalScore (sqrt : K → K) (data : GoMap (topsisArgs K)) (o : TopsisOrd) : GoMap (F64 K) :=
  if data.length = 1 then []
  else
    let norms := topsisNorms sqrt data o.norm
    let w := topsisWeighted data norms o.best
    let worst := topsisWorst w.1 w.2 o.worst
    topsisScores sqrt w.1 w.2 worst o.score

/-- The function `topsis`; `none` is the panic on an empty map. -/
def topsis (sqrt : K → K) (data : GoMap (topsisArgs K)) (o : TopsisOrd) : Option String :=
  if data.length = 0 then none
  else
    let bottleneck :=
      if data.length = 1 then
        forRange o.single (fun _ => mget data) (fun _ key _ => key) ""
      else ""
    let fs := finalScore sqrt data o
    some (forRange o.pick (fun _ => mget fs)
      (fun st key value => maxStep st value key) ((0 : F64 K), bottleneck)).2

end Topsis

/-! ## `aggregateResults` -/

section Aggregate

variable {K : Type} [LinearOrderedField K]

/-- Lines 90-98: the candidate map `tempMap` of one URL, built from its observations
with the online-mean update. -/
def aggregateUrl (value2 : List (bottleneckInfo K)) : GoMap (topsisArgs K) :=
  value2.foldl (fun tempMap element =>
    match mget tempMap element.bottleneck with
    | some value =>
      let tempDelay := ((value.delay * value.frequency) + element.delay) / (value.frequency + 1)
      mset tempMap element.bottleneck { frequency := value.frequency + 1, delay := tempDelay }
    | none =>
      mset tempMap element.bottleneck { frequency := 1, delay := element.delay }) []

/-- Specification: the delays of the observations of service `s`, in list order. -/
def delaysOf (obs : List (bottleneckInfo K)) (s : String) : List (F64 K) :=
  (obs.filter (fun e => e.bottleneck = s)).map (fun e => e.delay)

/-- Specification: the sum of a list of `float64` values, from the left. -/
def F64.sum (l : List (F64 K)) : F64 K := l.foldl (fun a b => a + b) 0

/-- Specification: the arithmetic mean of a list of delays, their sum divided by their
number. -/
def meanDelay (l : List (F64 K)) : F64 K := F64.sum l / F64.fin (l.length : K)

/-- Lines 99-102: the total call count of one URL. -/
def urlCount (tempMap : GoMap (topsisArgs K)) (ord : List String) : F64 K :=
  forRange ord (fun _ => mget tempMap) (fun counter _ value => counter + value.frequency)
    (0 : F64 K)

/-- The visiting orders of the map loops of `aggregateResults`: the loop over
`urlServiceMap`, per URL the counter loop and the loops of its `topsis` call,
and the loop over `urlCounter`. -/
structure AggOrd where
  outer : List String
  counter : String → List String
  topsis : String → TopsisOrd
  final : List String

/-- Lines 90-105: the body of the loop over `urlServiceMap`, on
`(urlCounter, urlServiceMapFinal)`; `none` when `topsis` panics. -/
def aggregateStep (sqrt : K → K) (o : AggOrd) (st : Option (GoMap (F64 K) × GoMap String))
    (key : String) (value2 : List (bottleneckInfo K)) :
    Option (GoMap (F64 K) × GoMap String) :=
  match st with
  | none => none
  | some (urlCounter, urlServiceMapFinal) =>
    let tempMap := aggregateUrl value2
    let counter := urlCount tempMap (o.counter key)
    match topsis sqrt tempMap (o.topsis key) with
    | none => none
    | some b => some (mset urlCounter key counter, mset urlServiceMapFinal key b)

/-- Lines 89-106: the maps `(urlCounter, urlServiceMapFinal)`; `none` when a `topsis`
call panics. -/
def aggregateUrls (sqrt : K → K) (urlServiceMap : GoMap (List (bottleneckInfo K)))
    (o : AggOrd) : Option (GoMap (F64 K) × GoMap String) :=
  forRange o.outer (fun _ => mget urlServiceMap) (aggregateStep sqrt o) (some ([], []))

/-- Lines 111-118: the selection of `finalBottleneck`. -/
def selectUrl (urlCounter : GoMap (F64 K)) (urlServiceMapFinal : GoMap String)
    (ord : List String) : String :=
  (forRange ord (fun _ => mget urlCounter)
    (fun st key value => maxStep st value ((mget urlServiceMapFinal key).getD ""))
    ((0 : F64 K), "")).2

/-- The function `aggregateResults`: the value of `finalBottleneck` when the response
is written (`none` when `topsis` panics). -/
def aggregateResults (sqrt : K → K) (urlServiceMap : GoMap (List (bottleneckInfo K)))
    (o : AggOrd) : Option String :=
  match aggregateUrls sqrt urlServiceMap o with
  | none => none
  | some (urlCounter, urlServiceMapFinal) =>
    some (selectUrl urlCounter urlServiceMapFinal o.final)

end Aggregate

/-! ## `findBottlenecks` -/

section FindBottlenecks

variable {K : Type} [LinearOrderedField K]

/-- The visiting orders of the three map loops of the body of `findBottlenecks`: over
`processes`, over `spanMap` in the reduction loop, and over `spanMap` in the
selection loop. -/
structure TraceOrd where
  procs : List String
  reduce : List String
  pick : List String

/-- Lines 142-144: `serviceMap`; `none` when a process is not an object with a string
`serviceName`. -/
def parseProcesses (processes : GoMap (JSON K)) (ord : List String) : Option (GoMap String) :=
  forRange ord (fun _ => mget processes)
    (fun st key value => do
      let serviceMap ← st
      let p ← value.asObj
      let name ← (field p "serviceName").asStr
      pure (mset serviceMap key name))
    (some [])

/-- Lines 152-157: the `CHILD_OF` references of a span, in order. -/
def parseParents (references : List (JSON K)) : Option (List String) :=
  references.foldlM (fun parents r => do
    let reference ← r.asObj
    if (field reference "refType").isStr "CHILD_OF" then do
      let id ← (field reference "spanID").asStr
      pure (parents ++ [id])
    else pure parents) []

/-- Lines 160-165: every `http.url` tag of a root span overwrites `primaryUrl`. -/
def scanTags (tags : List (JSON K)) (primaryUrl : String) : Option String :=
  tags.foldlM (fun url t => do
    let tag ← t.asObj
    if (field tag "key").isStr "http.url" then (field tag "value").asStr
    else pure url) primaryUrl

/-- Lines 147-174: one iteration of the loop over `spans`, on `(spanMap, primaryUrl)`.
The error of `getFloat` is dropped, as in the source. -/
def parseSpan (parseFloat : String → F64 K × Bool) (st : GoMap (node K) × String)
    (s : JSON K) : Option (GoMap (node K) × String) := do
  let span ← s.asObj
  let references ← (field span "references").asArr
  let tags ← (field span "tags").asArr
  let parents ← parseParents references
  let primaryUrl ← (if parents.length = 0 then scanTags tags st.2 else some st.2)
  let d ← getFloat parseFloat (field span "duration")
  let duration := d.1
  let spanID ← (field span "spanID").asStr
  let processID ← (field span "processID").asStr
  let spanNode : node K :=
    { spanID := spanID, processID := processID, parents := parents,
      duration := duration, processingTime := duration }
  pure (mset st.1 spanID spanNode, primaryUrl)

/-- Lines 177-195, one iteration of the reduction loop: a span with a parent rewrites
the parent's entry, its processing time being the parent's duration minus the
span's duration. -/
def reduceStep (spanMap : GoMap (node K)) (value : node K) : GoMap (node K) :=
  match value.parents with
  | [] => spanMap
  | p :: _ =>
    let parent := (mget spanMap p).getD node.zero
    let tempProcessingTime := parent.duration - value.duration
    let tempSpanNode : node K :=
      { spanID := parent.spanID, duration := parent.duration, parents := parent.parents,
        processID := parent.processID, processingTime := tempProcessingTime }
    mset spanMap p tempSpanNode

/-- Lines 177-195: the span-reduction loop. -/
def reduceSpans (spanMap : GoMap (node K)) (ord : List String) : GoMap (node K) :=
  forRange ord (fun sm => mget sm) (fun sm _ value => reduceStep sm value) spanMap

/-- Lines 197-205: `(tempMax, bottleneckServiceID)`. -/
def pickSpan (spanMap : GoMap (node K)) (ord : List String) : F64 K × String :=
  forRange ord (fun _ => mget spanMap)
    (fun st _ value => maxStep st value.processingTime value.processID)
    ((0 : F64 K), "")

/-- Lines 132-175: the type assertions on the trace record and the two parsing loops.
The result is `(serviceMap, spanMap, primaryUrl)`; `none` when a type assertion
(or `getFloat`) panics. -/
def parseTrace (parseFloat : String → F64 K × Bool) (t : JSON K) (ord : List String) :
    Option (GoMap String × GoMap (node K) × String) := do
  let trace ← t.asObj
  let spans ← (field trace "spans").asArr
  let processes ← (field trace "processes").asObj
  let serviceMap ← parseProcesses processes ord
  let parsed ← spans.foldlM (parseSpan parseFloat) (([] : GoMap (node K)), "")
  pure (serviceMap, parsed.1, parsed.2)

/-- Lines 132-205 and 209/213: the URL and the observation of one trace. -/
def traceObservation (parseFloat : String → F64 K × Bool) (t : JSON K) (o : TraceOrd) :
    Option (String × bottleneckInfo K) := do
  let p ← parseTrace parseFloat t o.procs
  let spanMap := reduceSpans p.2.1 o.reduce
  let sel := pickSpan spanMap o.pick
  pure (p.2.2, { bottleneck := (mget p.1 sel.2).getD "", delay := sel.1 })

/-- Lines 208-215: append the observation to the list of its URL. -/
def recordObservation (urlServiceMap : GoMap (List (bottleneckInfo K))) (primaryUrl : String)
    (info : bottleneckInfo K) : GoMap (List (bottleneckInfo K)) :=
  match mget urlServiceMap primaryUrl with
  | some value => mset urlServiceMap primaryUrl (value ++ [info])
  | none => mset urlServiceMap primaryUrl [info]

/-- The loop over `data` of `findBottlenecks`, from trace number `i` on; `ords i` holds
the visiting orders of the map loops for trace `i`. -/
def findBottlenecksFrom (parseFloat : String → F64 K × Bool) (ords : Nat → TraceOrd) :
    Nat → List (JSON K) → GoMap (List (bottleneckInfo K)) →
      Option (GoMap (List (bottleneckInfo K)))
  | _, [], urlServiceMap => some urlServiceMap
  | i, t :: ts, urlServiceMap =>
    match traceObservation parseFloat t (ords i) with
    | none => none
    | some (primaryUrl, info) =>
      findBottlenecksFrom parseFloat ords (i + 1) ts
        (recordObservation urlServiceMap primaryUrl info)

/-- The function `findBottlenecks`. -/
def findBottlenecks (parseFloat : String → F64 K × Bool) (data : List (JSON K))
    (ords : Nat → TraceOrd) : Option (GoMap (List (bottleneckInfo K))) :=
  findBottlenecksFrom parseFloat ords 0 data []

end FindBottlenecks

/-! ## Notions used to state the properties -/

section Notions

variable {K : Type}

/-- The number that a finite `float64` holds (0 for NaN and the infinities). -/
def F64.toK [Zero K] : F64 K → K
  | F64.fin x => x
  | _ => 0

/-- The frequency of the candidate `k` as a number. -/
def freqK [Zero K] (data : GoMap (topsisArgs K)) (k : String) : K :=
  match mget data k with
  | some v => v.frequency.toK
  | none => 0

/-- The mean delay of the candidate `k` as a number. -/
def delayK [Zero K] (data : GoMap (topsisArgs K)) (k : String) : K :=
  match mget data k with
  | some v => v.delay.toK
  | none => 0

/-- The number of observations held by a URL-to-observations map. -/
def totalObservations {α : Type} (m : GoMap (List α)) : Nat :=
  (m.map (fun e => e.2.length)).sum

/-- The span list of a trace record (empty when the record has none). -/
def traceSpans (t : JSON K) : List (JSON K) :=
  match t with
  | JSON.obj trace =>
    (match field trace "spans" with
      | JSON.arr spans => spans
      | _ => [])
  | _ => []

/-- The tag list of a span record (empty when the record has none). -/
def spanTags (s : JSON K) : List (JSON K) :=
  match s with
  | JSON.obj span =>
    (match field span "tags" with
      | JSON.arr tags => tags
      | _ => [])
  | _ => []

/-- A root span: a span record whose references hold no `CHILD_OF` reference. -/
def isRootSpan (s : JSON K) : Bool :=
  match s with
  | JSON.obj span =>
    (match field span "references" with
      | JSON.arr references =>
        (match parseParents references with
          | some [] => true
          | _ => false)
      | _ => false)
  | _ => false

/-- The value of a tag whose key is `http.url`. -/
def urlTagValue (t : JSON K) : Option String :=
  match t with
  | JSON.obj tag => if (field tag "key").isStr "http.url" then (field tag "value").asStr else none
  | _ => none

/-- The values of the `http.url` tags of a tag list, in order. -/
def urlTagValues (tags : List (JSON K)) : List String := tags.filterMap urlTagValue

/-- The URL that a span contributes: the value of the last `http.url` tag of a root
span, nothing for other spans and for root spans without such a tag. -/
def rootUrl (s : JSON K) : Option String :=
  if isRootSpan s then (urlTagValues (spanTags s)).getLast? else none

/-- The URL of the last root span of a span list that carries an `http.url` tag, the
empty string when there is none. -/
def lastRootUrl (spans : List (JSON K)) : String :=
  ((spans.filterMap rootUrl).getLast?).getD ""

end Notions

/-! ## The closeness score as the specification states it -/

section SpecScore

variable {K : Type} [LinearOrderedField K]

/-- Specification: the greater of two values, NaN when one of them is NaN. -/
def F64.maximum : F64 K → F64 K → F64 K
  | F64.nan, _ => F64.nan
  | _, F64.nan => F64.nan
  | a, b => if a < b then b else a

/-- Specification: the smaller of two values, NaN when one of them is NaN. -/
def F64.minimum : F64 K → F64 K → F64 K
  | F64.nan, _ => F64.nan
  | _, F64.nan => F64.nan
  | a, b => if b < a then b else a

/-- Specification: the maximum of the values of a list (NaN for the empty list). -/
def specMaximum : List (F64 K) → F64 K
  | [] => F64.nan
  | x :: xs => xs.foldl F64.maximum x

/-- Specification: the minimum of the values of a list (NaN for the empty list). -/
def specMinimum : List (F64 K) → F64 K
  | [] => F64.nan
  | x :: xs => xs.foldl F64.minimum x

/-- Specification: the Euclidean norm of a vector, the square root of the sum of the
squares of its components. -/
def specNorm (sqrt : K → K) (l : List (F64 K)) : F64 K :=
  F64.sqrtWith sqrt (F64.sum (l.map (fun x => x * x)))

/-- Specification: a component of the vector `l` normalised by the Euclidean norm of
`l` and multiplied by the weight 0.5. -/
def specWeighted (sqrt : K → K) (l : List (F64 K)) (x : F64 K) : F64 K :=
  x / specNorm sqrt l * F64.fin (1 / 2)

/-- Specification: the closeness score of the candidate `k`, written from the words of
the specification.  Frequency and delay are normalised by the Euclidean norm of
their vector and weighted by 0.5; the best point is the component-wise maximum
and the worst point the component-wise minimum of the weighted normalised
values of all candidates; `positiveED` and `negativeED` are the Euclidean
distances to the best and to the worst point; the score is
`negativeED / (positiveED + negativeED)`. -/
def specScore (sqrt : K → K) (data : GoMap (topsisArgs K)) (k : String) : Option (F64 K) :=
  let freqs := data.map (fun e => e.2.frequency)
  let delays := data.map (fun e => e.2.delay)
  let freqBest := specMaximum (freqs.map (specWeighted sqrt freqs))
  let delayBest := specMaximum (delays.map (specWeighted sqrt delays))
  let freqWorst := specMinimum (freqs.map (specWeighted sqrt freqs))
  let delayWorst := specMinimum (delays.map (specWeighted sqrt delays))
  match mget data k with
  | none => none
  | some v =>
    let x := specWeighted sqrt freqs v.frequency
    let y := specWeighted sqrt delays v.delay
    let positiveED := F64.sqrtWith sqrt
      ((x - freqBest) * (x - freqBest) + (y - delayBest) * (y - delayBest))
    let negativeED := F64.sqrtWith sqrt
      ((x - freqWorst) * (x - freqWorst) + (y - delayWorst) * (y - delayWorst))
    some (negativeED / (positiveED + negativeED))

end SpecScore

/-! ## Concrete inputs -/

section Examples

open JSON F64

/-- A span record. -/
def exSpan (id pid : String) (d : ℚ) (parent : Option String) (url : Option String) : JSON ℚ :=
  obj [("spanID", str id), ("processID", str pid), ("duration", num (fin d)),
    ("references",
      arr (match parent with
        | some p => [obj [("refType", str "CHILD_OF"), ("spanID", str p)]]
        | none => [])),
    ("tags",
      arr (match url with
        | some u => [obj [("key", str "http.url"), ("value", str u)]]
        | none => []))]

/-- The `processes` of the example traces: `p1` is service `front`, `p2` is `db`. -/
def exProcesses : JSON ℚ :=
  obj [("p1", obj [("serviceName", str "front")]), ("p2", obj [("serviceName", str "db")])]

/-- A trace with root `R` (duration 100, URL `/a`, service `front`) and one child `C`
(duration 30, service `db`). -/
def exTraceOneChild : JSON ℚ :=
  obj [("traceID", str "t1"),
    ("spans", arr [exSpan "R" "p1" 100 none (some "/a"), exSpan "C" "p2" 30 (some "R") none]),
    ("processes", exProcesses)]

/-- A trace with root `P` (duration 100) and two children `C1` (30) and `C2` (20). -/
def exTraceTwoChildren : JSON ℚ :=
  obj [("traceID", str "t2"),
    ("spans", arr [exSpan "P" "p1" 100 none (some "/a"), exSpan "C1" "p2" 30 (some "P") none,
      exSpan "C2" "p2" 20 (some "P") none]),
    ("processes", exProcesses)]

/-- The function `strconv.ParseFloat` on strings that are not numbers: the value 0 and
an error.  The example inputs hold no string that is a number. -/
def exParseFloat : String → F64 ℚ × Bool := fun _ => (fin 0, false)

/-- Visiting orders for `exTraceOneChild`. -/
def exOrdOneChild : TraceOrd := { procs := ["p1", "p2"], reduce := ["R", "C"], pick := ["C", "R"] }

/-- Visiting orders for `exTraceTwoChildren`. -/
def exOrdTwoChildren : TraceOrd :=
  { procs := ["p1", "p2"], reduce := ["P", "C1", "C2"], pick := ["P", "C1", "C2"] }

/-- Two candidates `A = (3, 3)` and `B = (4, 4)`. -/
def exCandidatesAB (K : Type) [LinearOrderedField K] : GoMap (topsisArgs K) :=
  [("A", { frequency := fin 3, delay := fin 3 }), ("B", { frequency := fin 4, delay := fin 4 })]

/-- Visiting orders for the candidates `A` and `B`; the last loop visits `B` first. -/
def exOrdAB : TopsisOrd :=
  { single := ["A", "B"], norm := ["A", "B"], best := ["B", "A"], worst := ["A", "B"],
    score := ["B", "A"], pick := ["A", "B"] }

/-- Two observations of service `A`, with delays 10 and 20. -/
def exObsA : List (bottleneckInfo ℚ) :=
  [{ bottleneck := "A", delay := fin 10 }, { bottleneck := "A", delay := fin 20 }]

/-- Observations of `A` with delays 5, 5, 10 around one observation of `B`. -/
def exObsPerm1 : List (bottleneckInfo ℚ) :=
  [{ bottleneck := "A", delay := fin 5 }, { bottleneck := "B", delay := fin 7 },
    { bottleneck := "A", delay := fin 5 }, { bottleneck := "A", delay := fin 10 }]

/-- The observations of `exObsPerm1` in another order: `A` has delays 5, 10, 5. -/
def exObsPerm2 : List (bottleneckInfo ℚ) :=
  [{ bottleneck := "A", delay := fin 5 }, { bottleneck := "A", delay := fin 10 },
    { bottleneck := "A", delay := fin 5 }, { bottleneck := "B", delay := fin 7 }]

/-- Two candidates with the same frequency 1 and the same mean delay 5. -/
def exCandidatesTie (K : Type) [LinearOrderedField K] : GoMap (topsisArgs K) :=
  [("A", { frequency := fin 1, delay := fin 5 }), ("B", { frequency := fin 1, delay := fin 5 })]

/-- Two candidates with frequencies 3 and 4 and mean delay 0. -/
def exCandidatesZeroDelay (K : Type) [LinearOrderedField K] : GoMap (topsisArgs K) :=
  [("A", { frequency := fin 3, delay := fin 0 }), ("B", { frequency := fin 4, delay := fin 0 })]

/-- Candidate `A = (3, 3)` and candidate `B` with frequency 4 and mean delay +Inf. -/
def exCandidatesInfDelay (K : Type) [LinearOrderedField K] : GoMap (topsisArgs K) :=
  [("A", { frequency := fin 3, delay := fin 3 }), ("B", { frequency := fin 4, delay := pinf })]

/-- Every loop visits `A`, then `B`. -/
def exOrdInOrder : TopsisOrd :=
  { single := ["A", "B"], norm := ["A", "B"], best := ["A", "B"], worst := ["A", "B"],
    score := ["A", "B"], pick := ["A", "B"] }

/-- URLs `u` and `v` with one observation each, of services `A` and `B`. -/
def exUrlsTie (K : Type) [LinearOrderedField K] : GoMap (List (bottleneckInfo K)) :=
  [("u", [{ bottleneck := "A", delay := fin 1 }]), ("v", [{ bottleneck := "B", delay := fin 1 }])]

/-- URL `u` with two observations of `A` and URL `v` with one observation of `B`. -/
def exUrlsStrict (K : Type) [LinearOrderedField K] : GoMap (List (bottleneckInfo K)) :=
  [("u", [{ bottleneck := "A", delay := fin 1 }, { bottleneck := "A", delay := fin 3 }]),
    ("v", [{ bottleneck := "B", delay := fin 1 }])]

/-- Visiting orders for the URL examples: the loops over `urlServiceMap` and over
`urlCounter` visit `outer` and `final`; the per-URL loops visit the only
service of the URL (`A` for `u`, `B` for `v`). -/
def exAggOrd (outer final : List String) : AggOrd :=
  { outer := outer
    counter := fun k => if k = "u" then ["A"] else ["B"]
    topsis := fun k =>
      if k = "u" then
        { single := ["A"], norm := ["A"], best := ["A"], worst := ["A"], score := ["A"],
          pick := ["A"] }
      else
        { single := ["B"], norm := ["B"], best := ["B"], worst := ["B"], score := ["B"],
          pick := ["B"] }
    final := final }

/-- The same visiting orders for every trace of a list. -/
def exTraceOrds (o : TraceOrd) : Nat → TraceOrd := fun _ => o

/-- Visiting orders for `aggregateResults` on the map with the one URL `/a` and the one
service `front`. -/
def exAggOrdFront : AggOrd :=
  { outer := ["/a"]
    counter := fun _ => ["front"]
    topsis := fun _ =>
      { single := ["front"], norm := ["front"], best := ["front"], worst := ["front"],
        score := ["front"], pick := ["front"] }
    final := ["/a"] }

/-- A span record with a given `duration` value and one `http.url` tag per URL. -/
def exSpanWith (id pid : String) (duration : JSON ℚ) (parent : Option String)
    (urls : List String) : JSON ℚ :=
  obj [("spanID", str id), ("processID", str pid), ("duration", duration),
    ("references",
      arr (match parent with
        | some p => [obj [("refType", str "CHILD_OF"), ("spanID", str p)]]
        | none => [])),
    ("tags", arr (urls.map (fun u => obj [("key", str "http.url"), ("value", str u)])))]

/-- A trace with two root spans: `R1` (duration 100, URL `/a`) and `R2` (duration 50,
URL `/b`). -/
def exTraceTwoRoots : JSON ℚ :=
  obj [("traceID", str "t3"),
    ("spans", arr [exSpanWith "R1" "p1" (num (fin 100)) none ["/a"],
      exSpanWith "R2" "p2" (num (fin 50)) none ["/b"]]),
    ("processes", exProcesses)]

/-- A trace with one root span `R` that carries two `http.url` tags, `/a` then `/b`. -/
def exTraceTwoUrlTags : JSON ℚ :=
  obj [("traceID", str "t4"),
    ("spans", arr [exSpanWith "R" "p1" (num (fin 100)) none ["/a", "/b"]]),
    ("processes", exProcesses)]

/-- A trace whose root `R` has the duration string `abc` and whose child `C` has the
duration 30. -/
def exTraceBadDuration : JSON ℚ :=
  obj [("traceID", str "t5"),
    ("spans", arr [exSpanWith "R" "p1" (str "abc") none ["/a"],
      exSpanWith "C" "p2" (num (fin 30)) (some "R") []]),
    ("processes", exProcesses)]

/-- The trace `exTraceBadDuration` with the number 0 as duration of `R`. -/
def exTraceZeroDuration : JSON ℚ :=
  obj [("traceID", str "t5"),
    ("spans", arr [exSpanWith "R" "p1" (num (fin 0)) none ["/a"],
      exSpanWith "C" "p2" (num (fin 30)) (some "R") []]),
    ("processes", exProcesses)]

/-- Visiting orders for `exTraceTwoRoots`. -/
def exOrdTwoRoots : TraceOrd :=
  { procs := ["p1", "p2"], reduce := ["R1", "R2"], pick := ["R1", "R2"] }

/-- Visiting orders for `exTraceTwoUrlTags`. -/
def exOrdOneSpan : TraceOrd := { procs := ["p1", "p2"], reduce := ["R"], pick := ["R"] }

/-- A trace with the one span `R` (duration 40, URL `/b`, service `db`). -/
def exTraceDb : JSON ℚ :=
  obj [("traceID", str "t6"),
    ("spans", arr [exSpanWith "R" "p2" (num (fin 40)) none ["/b"]]),
    ("processes", exProcesses)]

/-- Visiting orders for the list `exTraceOneChild`, `exTraceOneChild`, `exTraceDb`. -/
def exOrdsThree : Nat → TraceOrd := fun i => if i < 2 then exOrdOneChild else exOrdOneSpan

/-- Visiting orders for `aggregateResults` on a map with the URLs `/a` (service `front`)
and `/b` (service `db`); the loop over `urlCounter` visits `/b` first. -/
def exAggOrdTwoUrls : AggOrd :=
  { outer := ["/a", "/b"]
    counter := fun k => if k = "/a" then ["front"] else ["db"]
    topsis := fun k =>
      if k = "/a" then
        { single := ["front"], norm := ["front"], best := ["front"], worst := ["front"],
          score := ["front"], pick := ["front"] }
      else
        { single := ["db"], norm := ["db"], best := ["db"], worst := ["db"], score := ["db"],
          pick := ["db"] }
    final := ["/b", "/a"] }

/-- The function `strconv.ParseFloat` on the strings of the example traces: the string
`Inf` is +Inf, without an error; the other strings are not numbers. -/
def exParseFloatInf (K : Type) [LinearOrderedField K] : String → F64 K × Bool :=
  fun s => if s = "Inf" then (pinf, true) else (fin 0, false)

/-- A trace with the one span `R` of the process `pid`, with the URL `/a` and the given
`duration` value; the process `p1` is service `A`, the process `p2` is `B`. -/
def exTraceOneSpan (K : Type) [LinearOrderedField K] (pid : String) (duration : JSON K) :
    JSON K :=
  obj [("traceID", str "t7"),
    ("spans", arr [obj [("spanID", str "R"), ("processID", str pid), ("duration", duration),
      ("references", arr []),
      ("tags", arr [obj [("key", str "http.url"), ("value", str "/a")]])]]),
    ("processes", obj [("p1", obj [("serviceName", str "A")]),
      ("p2", obj [("serviceName", str "B")])])]

/-- Seven traces of the URL `/a`: three of service `A` with the duration 3, three of
service `B` with the duration 4, and one of `B` whose duration is the string
`Inf`. -/
def exTracesInfDelay (K : Type) [LinearOrderedField K] : List (JSON K) :=
  [exTraceOneSpan K "p1" (num (fin 3)), exTraceOneSpan K "p1" (num (fin 3)),
    exTraceOneSpan K "p1" (num (fin 3)), exTraceOneSpan K "p2" (num (fin 4)),
    exTraceOneSpan K "p2" (num (fin 4)), exTraceOneSpan K "p2" (num (fin 4)),
    exTraceOneSpan K "p2" (str "Inf")]

/-- The observations of the traces `exTracesInfDelay`. -/
def exObsInfDelay (K : Type) [LinearOrderedField K] : List (bottleneckInfo K) :=
  [{ bottleneck := "A", delay := fin 3 }, { bottleneck := "A", delay := fin 3 },
    { bottleneck := "A", delay := fin 3 }, { bottleneck := "B", delay := fin 4 },
    { bottleneck := "B", delay := fin 4 }, { bottleneck := "B", delay := fin 4 },
    { bottleneck := "B", delay := pinf }]

end Examples

/-! ## Lemmas on `F64` -/

namespace F64

variable {K : Type} [LinearOrderedField K]

@[simp] theorem zero_def : (0 : F64 K) = fin 0 := rfl

@[simp] theorem one_def : (1 : F64 K) = fin 1 := rfl

@[simp] theorem fin_add_fin (a b : K) : (fin a + fin b : F64 K) = fin (a + b) := rfl

@[simp] theorem nan_add (x : F64 K) : nan + x = nan := by
  cases x <;> rfl

@[simp] theorem add_nan (x : F64 K) : x + nan = nan := by
  cases x <;> rfl

@[simp] theorem fin_sub_fin (a b : K) : (fin a - fin b : F64 K) = fin (a - b) := by
  show fin (a + -b) = fin (a - b)
  rw [sub_eq_add_neg]

@[simp] theorem nan_sub (x : F64 K) : nan - x = nan := by
  cases x <;> rfl

@[simp] theorem sub_nan (x : F64 K) : x - nan = nan := by
  cases x <;> rfl

@[simp] theorem fin_mul_fin (a b : K) : (fin a * fin b : F64 K) = fin (a * b) := rfl

@[simp] theorem nan_mul (x : F64 K) : nan * x = nan := by
  cases x <;> rfl

@[simp] theorem mul_nan (x : F64 K) : x * nan = nan := by
  cases x <;> rfl

theorem fin_div_fin (a b : K) :
    (fin a / fin b : F64 K)
      = if b = 0 then (if a = 0 then nan else infOfSign a) else fin (a / b) := rfl

@[simp] theorem fin_div_fin_of_ne (a : K) {b : K} (hb : b ≠ 0) :
    (fin a / fin b : F64 K) = fin (a / b) := by
  rw [fin_div_fin, if_neg hb]

@[simp] theorem fin_zero_div_fin_zero : (fin (0 : K) / fin 0 : F64 K) = nan := by
  simp [fin_div_fin]

@[simp] theorem nan_div (x : F64 K) : nan / x = nan := by
  cases x <;> rfl

@[simp] theorem div_nan (x : F64 K) : x / nan = nan := by
  cases x <;> rfl

@[simp] theorem sqrtWith_nan (sqrt : K → K) : sqrtWith sqrt (nan : F64 K) = nan := rfl

theorem sqrtWith_fin (sqrt : K → K) (a : K) :
    sqrtWith sqrt (fin a) = if a < 0 then nan else fin (sqrt a) := rfl

@[simp] theorem fin_lt_fin (a b : K) : (fin a < fin b) ↔ a < b := Iff.rfl

@[simp] theorem not_nan_lt (x : F64 K) : ¬ (nan < x) := fun h => by cases h

@[simp] theorem not_lt_nan (x : F64 K) : ¬ (x < nan) := fun h => by
  cases x <;> cases h

@[simp] theorem fin_add_pinf (a : K) : (fin a + pinf : F64 K) = pinf := rfl

@[simp] theorem pinf_mul_pinf : (pinf * pinf : F64 K) = pinf := rfl

@[simp] theorem fin_div_pinf (a : K) : (fin a / pinf : F64 K) = fin 0 := rfl

@[simp] theorem pinf_div_pinf : (pinf / pinf : F64 K) = nan := rfl

@[simp] theorem sqrtWith_pinf (sqrt : K → K) : sqrtWith sqrt (pinf : F64 K) = pinf := rfl

@[simp] theorem not_fin_lt_fin_self (a : K) : ¬ (fin a < fin a) := fun h => lt_irrefl a h

theorem not_inUnitInterval_nan : ¬ inUnitInterval (nan : F64 K) := fun h => by
  cases h.1

theorem lt_iff (a b : F64 K) : a < b ↔ lt a b := Iff.rfl

theorem lt_asymm {a b : F64 K} (h : a < b) : ¬ (b < a) := by
  rw [lt_iff] at *
  cases a <;> cases b <;> simp_all [lt]
  exact le_of_lt h

theorem lt_trans {a b c : F64 K} (h : a < b) (h' : b < c) : a < c := by
  rw [lt_iff] at *
  cases a <;> cases b <;> cases c <;> simp_all [lt]
  exact h.trans h'

theorem lt_of_not_lt_zero {a b : F64 K} (h : a < b) (ha : ¬ (a < 0)) : 0 < b := by
  rw [zero_def, lt_iff] at *
  cases a <;> cases b <;> simp_all [lt]
  exact lt_of_le_of_lt ha h

end F64

/-! ## Lemmas on maps and `range` loops -/

section MapLemmas

variable {V : Type}

@[simp] theorem mget_nil (x : String) : mget ([] : GoMap V) x = none := rfl

theorem mget_cons (k : String) (v : V) (m : GoMap V) (x : String) :
    mget ((k, v) :: m) x = if k = x then some v else mget m x := rfl

theorem mget_mset (m : GoMap V) (k : String) (v : V) (x : String) :
    mget (mset m k v) x = if k = x then some v else mget m x := by
  induction m with
  | nil => simp [mset, mget_cons]
  | cons e m ih =>
    obtain ⟨k', w⟩ := e
    by_cases h : k' = k
    · subst h
      by_cases hx : k' = x <;> simp [mset, mget_cons, hx]
    · by_cases hx : k' = x
      · subst hx
        simp [mset, mget_cons, h, Ne.symm h]
      · simp [mset, mget_cons, h, hx, ih]

theorem mget_mset_self (m : GoMap V) (k : String) (v : V) : mget (mset m k v) k = some v := by
  simp [mget_mset]

theorem mget_mset_of_ne (m : GoMap V) {k x : String} (v : V) (h : k ≠ x) :
    mget (mset m k v) x = mget m x := by
  simp [mget_mset, h]

theorem mget_eq_none_iff (m : GoMap V) (x : String) : mget m x = none ↔ x ∉ mkeys m := by
  induction m with
  | nil => simp [mkeys]
  | cons e m ih =>
    obtain ⟨k, w⟩ := e
    by_cases h : k = x
    · simp [mget_cons, mkeys, h]
    · simp only [mget_cons, h, if_false, ih, mkeys, List.map_cons, List.mem_cons]
      constructor
      · intro hx hc
        rcases hc with hc | hc
        · exact h hc.symm
        · exact hx hc
      · intro hx hc
        exact hx (Or.inr hc)

theorem mget_isSome_iff (m : GoMap V) (x : String) : (mget m x).isSome ↔ x ∈ mkeys m := by
  rw [← not_iff_not, ← mget_eq_none_iff]
  cases mget m x <;> simp

theorem mem_mkeys_of_mget {m : GoMap V} {x : String} {v : V} (h : mget m x = some v) :
    x ∈ mkeys m := by
  rw [← mget_isSome_iff, h]
  rfl

theorem mkeys_mset_of_mem (m : GoMap V) (k : String) (v : V) (h : k ∈ mkeys m) :
    mkeys (mset m k v) = mkeys m := by
  induction m with
  | nil => simp [mkeys] at h
  | cons e m ih =>
    obtain ⟨k', w⟩ := e
    by_cases hk : k' = k
    · simp [mset, hk, mkeys]
    · have hm : k ∈ mkeys m := by
        simp only [mkeys, List.map_cons, List.mem_cons] at h
        rcases h with h | h
        · exact absurd h.symm hk
        · exact h
      have := ih hm
      simp only [mkeys] at this
      simp [mset, hk, mkeys, this]

theorem mkeys_mset_of_not_mem (m : GoMap V) (k : String) (v : V) (h : k ∉ mkeys m) :
    mkeys (mset m k v) = mkeys m ++ [k] := by
  induction m with
  | nil => simp [mkeys, mset]
  | cons e m ih =>
    obtain ⟨k', w⟩ := e
    simp only [mkeys, List.map_cons, List.mem_cons, not_or] at h
    have hk : ¬ k' = k := fun hc => h.1 hc.symm
    have := ih h.2
    simp only [mkeys] at this
    simp [mset, hk, mkeys, this]

theorem mkeys_mset_nodup (m : GoMap V) (k : String) (v : V) (h : (mkeys m).Nodup) :
    (mkeys (mset m k v)).Nodup := by
  by_cases hk : k ∈ mkeys m
  · rw [mkeys_mset_of_mem m k v hk]
    exact h
  · rw [mkeys_mset_of_not_mem m k v hk]
    exact List.Nodup.append h (List.nodup_singleton k) (by simpa using hk)

theorem mem_mkeys_mset (m : GoMap V) (k : String) (v : V) (x : String) :
    x ∈ mkeys (mset m k v) ↔ x = k ∨ x ∈ mkeys m := by
  rw [← mget_isSome_iff, ← mget_isSome_iff, mget_mset]
  by_cases h : k = x
  · simp [h]
  · simp [h, Ne.symm h]

theorem mem_of_mget {m : GoMap V} {x : String} {v : V} (h : mget m x = some v) :
    (x, v) ∈ m := by
  induction m with
  | nil => cases h
  | cons e m ih =>
    obtain ⟨k, w⟩ := e
    rw [mget_cons] at h
    split at h
    · rename_i hk
      cases h
      rw [hk]
      exact List.mem_cons_self _ _
    · exact List.mem_cons_of_mem _ (ih h)

theorem forall_mget_of_forall_mem (m : GoMap V) (P : String → V → Prop)
    (h : ∀ e ∈ m, P e.1 e.2) : ∀ k v, mget m k = some v → P k v :=
  fun k v hg => h (k, v) (mem_of_mget hg)

theorem forRange_get_none {σ : Type} (ord : List String) (body : σ → String → V → σ)
    (init : σ) : forRange ord (fun _ _ => (none : Option V)) body init = init := by
  induction ord with
  | nil => rfl
  | cons k ord ih => exact ih

theorem forRange_nil {σ : Type} (get : σ → String → Option V) (body : σ → String → V → σ)
    (init : σ) : forRange [] get body init = init := rfl

theorem forRange_cons {σ : Type} (k : String) (ord : List String)
    (get : σ → String → Option V) (body : σ → String → V → σ) (init : σ) :
    forRange (k :: ord) get body init
      = forRange ord get body
          (match get init k with
            | some value => body init k value
            | none => init) := rfl

end MapLemmas

section MaxLoop

variable {K V β : Type} [LinearOrderedField K]

/-- A selection loop that has reached an entry greater than all entries still to come
keeps it. -/
theorem forRange_maxStep_keep (ord : List String) (get : String → Option V)
    (val : V → F64 K) (pay : String → V → β) (top : F64 K) (b : β)
    (h : ∀ x ∈ ord, ∀ v, get x = some v → ¬ (top < val v)) :
    forRange ord (fun _ => get) (fun st k v => maxStep st (val v) (pay k v)) (top, b)
      = (top, b) := by
  induction ord with
  | nil => rfl
  | cons k ord ih =>
    rw [forRange_cons]
    have hk := h k (List.mem_cons_self k ord)
    have ih' := ih (fun x hx => h x (List.mem_cons_of_mem k hx))
    cases hg : get k with
    | none => simpa using ih'
    | some v =>
      have hv := hk v hg
      simp only [maxStep, hv, if_false]
      exact ih'

/-- A selection loop returns the entry that is strictly greater than every other entry
and than the initial maximum, whatever the visiting order. -/
theorem forRange_maxStep_unique (ord : List String) (get : String → Option V)
    (val : V → F64 K) (pay : String → V → β) (u : String) (vu : V) (init : F64 K × β)
    (hnd : ord.Nodup) (hu : u ∈ ord) (hget : get u = some vu) (hinit : init.1 < val vu)
    (hmax : ∀ x ∈ ord, x ≠ u → ∀ v, get x = some v → val v < val vu) :
    forRange ord (fun _ => get) (fun st k v => maxStep st (val v) (pay k v)) init
      = (val vu, pay u vu) := by
  induction ord generalizing init with
  | nil => simp at hu
  | cons k ord ih =>
    rw [forRange_cons]
    rw [List.nodup_cons] at hnd
    by_cases hk : k = u
    · subst hk
      simp only [hget, maxStep, hinit, if_true]
      apply forRange_maxStep_keep
      intro x hx v hv
      have hne : x ≠ k := fun hc => hnd.1 (hc ▸ hx)
      exact F64.lt_asymm (hmax x (List.mem_cons_of_mem k hx) hne v hv)
    · have hu' : u ∈ ord := by
        rcases List.mem_cons.mp hu with h | h
        · exact absurd h.symm hk
        · exact h
      have hmax' : ∀ x ∈ ord, x ≠ u → ∀ v, get x = some v → val v < val vu :=
        fun x hx => hmax x (List.mem_cons_of_mem k hx)
      cases hg : get k with
      | none => exact ih init hnd.2 hu' hinit hmax'
      | some v =>
        have hv := hmax k (List.mem_cons_self k ord) hk v hg
        simp only [maxStep]
        split
        · exact ih _ hnd.2 hu' hv hmax'
        · exact ih _ hnd.2 hu' hinit hmax'

end MaxLoop

/-! ## Lemmas on `findBottlenecks` -/

section ParseLemmas

variable {K : Type}

theorem parseSpan_nodup (parseFloat : String → F64 K × Bool) (st st' : GoMap (node K) × String)
    (s : JSON K) (h : parseSpan parseFloat st s = some st') (hnd : (mkeys st.1).Nodup) :
    (mkeys st'.1).Nodup := by
  simp only [parseSpan, Option.bind_eq_bind, Option.bind_eq_some, Option.pure_def,
    Option.some.injEq] at h
  obtain ⟨_, _, _, _, _, _, _, _, _, _, _, _, _, _, _, _, h⟩ := h
  rw [← h]
  exact mkeys_mset_nodup _ _ _ hnd

theorem foldlM_parseSpan_nodup (parseFloat : String → F64 K × Bool) (spans : List (JSON K))
    (st st' : GoMap (node K) × String)
    (h : spans.foldlM (parseSpan parseFloat) st = some st') (hnd : (mkeys st.1).Nodup) :
    (mkeys st'.1).Nodup := by
  induction spans generalizing st with
  | nil =>
    simp only [List.foldlM_nil, Option.pure_def, Option.some.injEq] at h
    rw [← h]
    exact hnd
  | cons s spans ih =>
    simp only [List.foldlM_cons, Option.bind_eq_bind, Option.bind_eq_some] at h
    obtain ⟨st1, h1, h2⟩ := h
    exact ih st1 h2 (parseSpan_nodup parseFloat st st1 s h1 hnd)

theorem parseTrace_nodup (parseFloat : String → F64 K × Bool) (t : JSON K) (ord : List String)
    (serviceMap : GoMap String) (spanMap : GoMap (node K)) (url : String)
    (h : parseTrace parseFloat t ord = some (serviceMap, spanMap, url)) :
    (mkeys spanMap).Nodup := by
  simp only [parseTrace, Option.bind_eq_bind, Option.bind_eq_some, Option.pure_def,
    Option.some.injEq, Prod.mk.injEq] at h
  obtain ⟨_, _, _, _, _, _, _, _, parsed, hp, _, h, _⟩ := h
  rw [← h]
  exact foldlM_parseSpan_nodup parseFloat _ _ parsed hp List.nodup_nil

end ParseLemmas

section TraceLemmas

variable {K : Type} [LinearOrderedField K]

theorem reduceStep_nodup (spanMap : GoMap (node K)) (value : node K)
    (hnd : (mkeys spanMap).Nodup) : (mkeys (reduceStep spanMap value)).Nodup := by
  unfold reduceStep
  split
  · exact hnd
  · exact mkeys_mset_nodup _ _ _ hnd

theorem reduceSpans_nodup (spanMap : GoMap (node K)) (ord : List String)
    (hnd : (mkeys spanMap).Nodup) : (mkeys (reduceSpans spanMap ord)).Nodup := by
  unfold reduceSpans
  induction ord generalizing spanMap with
  | nil => exact hnd
  | cons k ord ih =>
    rw [forRange_cons]
    cases mget spanMap k with
    | none => exact ih spanMap hnd
    | some v => exact ih _ (reduceStep_nodup spanMap v hnd)

end TraceLemmas

/-! ## Lemmas on `topsis` -/

namespace F64

variable {K : Type} [LinearOrderedField K]

theorem NonNegOrNaN.not_lt_zero {r : F64 K} (h : NonNegOrNaN r) : ¬ (r < 0) := by
  rw [zero_def, lt_iff]
  cases r <;> simp_all [lt, NonNegOrNaN]

theorem nonNegOrNaN_sqrtWith (sqrt : K → K) (hs : ∀ x, 0 ≤ x → 0 ≤ sqrt x) (r : F64 K) :
    NonNegOrNaN (sqrtWith sqrt r) := by
  cases r with
  | nan => trivial
  | ninf => trivial
  | pinf => trivial
  | fin a =>
    rw [sqrtWith_fin]
    split
    · trivial
    · rename_i h
      exact hs a (not_lt.mp h)

theorem nonNegOrNaN_add {a b : F64 K} (ha : NonNegOrNaN a) (hb : NonNegOrNaN b) :
    NonNegOrNaN (a + b) := by
  cases a <;> cases b <;> first | trivial | exact ha.elim | exact hb.elim | skip
  exact add_nonneg ha hb

theorem nonNegOrNaN_div {a b : F64 K} (ha : NonNegOrNaN a) (hb : NonNegOrNaN b) :
    NonNegOrNaN (a / b) := by
  cases a <;> cases b <;> first | trivial | exact ha.elim | exact hb.elim | skip
  · rename_i x y
    rw [fin_div_fin]
    split
    · split
      · trivial
      · rename_i hx
        have hpos : 0 < x := lt_of_le_of_ne ha (Ne.symm hx)
        simp [infOfSign, hpos, NonNegOrNaN]
    · exact div_nonneg ha hb
  · show NonNegOrNaN (fin (0 : K))
    exact le_refl (0 : K)
  · rename_i y
    show NonNegOrNaN (if 0 ≤ y then pinf else ninf)
    have hy : 0 ≤ y := hb
    rw [if_pos hy]
    trivial

end F64

section TopsisLemmas

variable {K : Type} [LinearOrderedField K]

theorem topsis_singleton (sqrt : K → K) (k : String) (v : topsisArgs K) (o : TopsisOrd)
    (ho : o.single.Perm (mkeys [(k, v)])) : topsis sqrt [(k, v)] o = some k := by
  have hs : o.single = [k] := List.perm_singleton.mp ho
  have hfs : finalScore sqrt [(k, v)] o = [] := by simp [finalScore]
  simp only [topsis, hfs, hs]
  simp [forRange_cons, forRange_nil, mget_cons, forRange_get_none, mget]

theorem closeness_nonNegOrNaN (sqrt : K → K) (hs : ∀ x, 0 ≤ x → 0 ≤ sqrt x)
    (best worst : F64 K × F64 K) (value : topsisArgs K) :
    F64.NonNegOrNaN (closeness sqrt best worst value) := by
  unfold closeness
  exact F64.nonNegOrNaN_div (F64.nonNegOrNaN_sqrtWith sqrt hs _)
    (F64.nonNegOrNaN_add (F64.nonNegOrNaN_sqrtWith sqrt hs _)
      (F64.nonNegOrNaN_sqrtWith sqrt hs _))

/-- A loop that stores `f value` under every visited key: the entries of the result. -/
theorem mget_forRange_mset {V W : Type} (tc : GoMap V) (f : V → W) (ord : List String)
    (fs : GoMap W) (x : String) :
    mget (forRange ord (fun _ => mget tc) (fun fs key value => mset fs key (f value)) fs) x
      = if x ∈ ord then
          (match mget tc x with
            | some v => some (f v)
            | none => mget fs x)
        else mget fs x := by
  induction ord generalizing fs with
  | nil => simp [forRange_nil]
  | cons k ord ih =>
    rw [forRange_cons, ih]
    by_cases hx : x ∈ ord
    · simp only [hx, List.mem_cons, or_true, if_true]
      cases hg : mget tc x with
      | some v => rfl
      | none =>
        cases hk : mget tc k with
        | none => rfl
        | some w =>
          have hne : k ≠ x := fun hc => by rw [hc, hg] at hk; cases hk
          simp only [mget_mset_of_ne _ _ hne]
    · simp only [hx, if_false, List.mem_cons, or_false]
      by_cases hk : x = k
      · subst hk
        simp only [if_true]
        cases hg : mget tc x with
        | none => rfl
        | some v => simp only [mget_mset_self]
      · simp only [hk, if_false]
        cases mget tc k with
        | none => rfl
        | some w => simp only [mget_mset_of_ne _ _ (Ne.symm hk)]

theorem mget_topsisScores (sqrt : K → K) (tc : GoMap (topsisArgs K)) (best worst : F64 K × F64 K)
    (ord : List String) (x : String) :
    mget (topsisScores sqrt tc best worst ord) x
      = if x ∈ ord then (mget tc x).map (closeness sqrt best worst) else none := by
  unfold topsisScores
  rw [mget_forRange_mset tc (closeness sqrt best worst) ord [] x]
  cases mget tc x <;> simp

theorem mkeys_topsisWeighted (data : GoMap (topsisArgs K)) (norms : F64 K × F64 K)
    (ord : List String) : mkeys (topsisWeighted data norms ord).1 = mkeys data := by
  unfold topsisWeighted
  suffices h : ∀ (st : GoMap (topsisArgs K) × F64 K × F64 K), mkeys st.1 = mkeys data →
      mkeys (forRange ord (fun st => mget st.1)
        (fun st key value =>
          (mset st.1 key
              { frequency := (value.frequency / norms.1) * freqWeight,
                delay := (value.delay / norms.2) * delayWeight },
            (if st.2.1 < (value.frequency / norms.1) * freqWeight
              then (value.frequency / norms.1) * freqWeight else st.2.1),
            (if st.2.2 < (value.delay / norms.2) * delayWeight
              then (value.delay / norms.2) * delayWeight else st.2.2))) st).1 = mkeys data from
    h _ rfl
  induction ord with
  | nil => intro st h; exact h
  | cons k ord ih =>
    intro st h
    rw [forRange_cons]
    apply ih
    cases hg : mget st.1 k with
    | none => exact h
    | some v =>
      show mkeys (mset st.1 k _) = mkeys data
      rw [mkeys_mset_of_mem _ _ _ (mem_mkeys_of_mget hg)]
      exact h

/-- The entries of `finalScore` for two or more candidates: every key that the scoring
loop visits holds a closeness score, which is NaN, +Inf or not negative. -/
theorem mget_finalScore (sqrt : K → K) (hs : ∀ x, 0 ≤ x → 0 ≤ sqrt x)
    (data : GoMap (topsisArgs K)) (o : TopsisOrd) (hlen : 2 ≤ data.length)
    (hscore : o.score.Perm (mkeys data)) (x : String) :
    (x ∈ mkeys data → ∃ w, mget (finalScore sqrt data o) x = some w)
      ∧ (∀ w, mget (finalScore sqrt data o) x = some w → F64.NonNegOrNaN w) := by
  have h1 : data.length ≠ 1 := by omega
  simp only [finalScore, h1, if_false, mget_topsisScores]
  constructor
  · intro hx
    have hmem : x ∈ mkeys (topsisWeighted data (topsisNorms sqrt data o.norm) o.best).1 := by
      rw [mkeys_topsisWeighted]; exact hx
    rw [← mget_isSome_iff] at hmem
    rw [if_pos (hscore.mem_iff.mpr hx)]
    cases hg : mget (topsisWeighted data (topsisNorms sqrt data o.norm) o.best).1 x with
    | none => rw [hg] at hmem; cases hmem
    | some v => exact ⟨_, rfl⟩
  · intro w hw
    split at hw
    · cases hg : mget (topsisWeighted data (topsisNorms sqrt data o.norm) o.best).1 x with
      | none => rw [hg] at hw; cases hw
      | some v =>
        rw [hg] at hw
        simp only [Option.map_some', Option.some.injEq] at hw
        rw [← hw]
        exact closeness_nonNegOrNaN sqrt hs _ _ _
    · cases hw

theorem exists_other_key {V : Type} (data : GoMap V) (hnd : (mkeys data).Nodup)
    (hlen : 2 ≤ data.length) (s : String) : ∃ t ∈ mkeys data, t ≠ s := by
  match data, hnd, hlen with
  | (a, _) :: (b, _) :: rest, hnd, _ =>
    simp only [mkeys, List.map_cons, List.nodup_cons, List.mem_cons, not_or] at hnd
    by_cases ha : a = s
    · exact ⟨b, by simp [mkeys], fun hb => hnd.1.1 (ha.trans hb.symm)⟩
    · exact ⟨a, by simp [mkeys], ha⟩

/-- The last loop of `topsis` returns the candidate whose score is strictly greater than
every other score. -/
theorem topsis_of_strict_max (sqrt : K → K) (hsqrt : ∀ x, 0 ≤ x → 0 ≤ sqrt x)
    (data : GoMap (topsisArgs K)) (o : TopsisOrd) (hnd : (mkeys data).Nodup)
    (hlen : 2 ≤ data.length) (hscore : o.score.Perm (mkeys data))
    (hpick : o.pick.Perm (mkeys data)) (s : String) (v : F64 K)
    (hs : mget (finalScore sqrt data o) s = some v)
    (hmax : ∀ t w, t ≠ s → mget (finalScore sqrt data o) t = some w → w < v) :
    topsis sqrt data o = some s := by
  have hsmem : s ∈ mkeys data := by
    have h1 : data.length ≠ 1 := by omega
    simp only [finalScore, h1, if_false, mget_topsisScores] at hs
    split at hs
    · rename_i hmem
      exact hscore.mem_iff.mp hmem
    · cases hs
  obtain ⟨t, ht, hts⟩ := exists_other_key data hnd hlen s
  obtain ⟨w, hw⟩ := (mget_finalScore sqrt hsqrt data o hlen hscore t).1 ht
  have hwn := (mget_finalScore sqrt hsqrt data o hlen hscore t).2 w hw
  have hpos : (0 : F64 K) < v := F64.lt_of_not_lt_zero (hmax t w hts hw) hwn.not_lt_zero
  have hsel := forRange_maxStep_unique o.pick (mget (finalScore sqrt data o))
    (fun x => x) (fun k _ => k) s v ((0 : F64 K), "")
    (hpick.nodup_iff.mpr hnd) (hpick.mem_iff.mpr hsmem) hs hpos
    (fun x _ hx w hw => hmax x w hx hw)
  have h0 : data.length ≠ 0 := by omega
  have h1 : data.length ≠ 1 := by omega
  simp only [topsis, h0, h1, if_false]
  rw [hsel]

end TopsisLemmas

/-! ## Lemmas on the per-URL aggregation -/

namespace F64

variable {K : Type} [LinearOrderedField K]

theorem add_comm' (a b : F64 K) : a + b = b + a := by
  cases a <;> cases b <;> first | rfl | skip
  rw [fin_add_fin, fin_add_fin, add_comm]

theorem add_assoc' (a b c : F64 K) : a + b + c = a + (b + c) := by
  cases a <;> cases b <;> cases c <;> first | rfl | skip
  simp only [fin_add_fin, add_assoc]

theorem add_right_comm' (a b c : F64 K) : a + b + c = a + c + b := by
  rw [add_assoc', add_comm' b c, ← add_assoc']

@[simp] theorem fin_zero_add (a : F64 K) : fin 0 + a = a := by
  cases a <;> first | rfl | skip
  rw [fin_add_fin, zero_add]

@[simp] theorem div_fin_one (a : F64 K) : a / fin 1 = a := by
  cases a with
  | nan => rfl
  | ninf => show (if (0 : K) ≤ 1 then ninf else pinf) = ninf; simp
  | pinf => show (if (0 : K) ≤ 1 then pinf else ninf) = pinf; simp
  | fin x => simp

theorem div_mul_cancel_pos (a : F64 K) {c : K} (hc : 0 < c) : a / fin c * fin c = a := by
  have hne : c ≠ 0 := ne_of_gt hc
  cases a with
  | nan => rfl
  | ninf =>
    show mul (if 0 ≤ c then ninf else pinf) (fin c) = ninf
    simp [le_of_lt hc, mul, hne, infOfSign, not_lt_of_lt hc]
  | pinf =>
    show mul (if 0 ≤ c then pinf else ninf) (fin c) = pinf
    simp [le_of_lt hc, mul, hne, infOfSign, hc]
  | fin x =>
    rw [fin_div_fin_of_ne _ hne, fin_mul_fin, div_mul_cancel₀ _ hne]

theorem sum_nil : F64.sum ([] : List (F64 K)) = fin 0 := rfl

theorem sum_append_singleton (l : List (F64 K)) (d : F64 K) :
    F64.sum (l ++ [d]) = F64.sum l + d := by
  simp [F64.sum, List.foldl_append]

theorem sum_perm {l l' : List (F64 K)} (h : l.Perm l') : F64.sum l = F64.sum l' := by
  unfold F64.sum
  exact h.foldl_eq' (fun x _ y _ z => add_right_comm' z x y) _

end F64

section DelaysOfLemmas

variable {K : Type}

theorem delaysOf_append_singleton (obs : List (bottleneckInfo K)) (e : bottleneckInfo K)
    (s : String) :
    delaysOf (obs ++ [e]) s
      = if e.bottleneck = s then delaysOf obs s ++ [e.delay] else delaysOf obs s := by
  unfold delaysOf
  by_cases h : e.bottleneck = s <;> simp [List.filter_append, List.filter_cons, h]

theorem delaysOf_eq_nil_iff (obs : List (bottleneckInfo K)) (s : String) :
    delaysOf obs s = [] ↔ s ∉ obs.map (fun e => e.bottleneck) := by
  unfold delaysOf
  simp only [List.map_eq_nil_iff, List.filter_eq_nil_iff, decide_eq_true_eq, List.mem_map,
    not_exists, not_and]

theorem delaysOf_perm {obs obs' : List (bottleneckInfo K)} (h : obs.Perm obs') (s : String) :
    (delaysOf obs s).Perm (delaysOf obs' s) :=
  (h.filter _).map _

end DelaysOfLemmas

section AggregateLemmas

variable {K : Type} [LinearOrderedField K]

theorem aggregateUrl_append_singleton (obs : List (bottleneckInfo K)) (e : bottleneckInfo K) :
    aggregateUrl (obs ++ [e])
      = match mget (aggregateUrl obs) e.bottleneck with
        | some value =>
          mset (aggregateUrl obs) e.bottleneck
            { frequency := value.frequency + 1,
              delay := ((value.delay * value.frequency) + e.delay) / (value.frequency + 1) }
        | none => mset (aggregateUrl obs) e.bottleneck { frequency := 1, delay := e.delay } := by
  simp only [aggregateUrl, List.foldl_append, List.foldl_cons, List.foldl_nil]

/-- The candidate that `aggregateUrl` holds for a service: none when the service has no
observation, else the number of its observations and the mean of their delays. -/
theorem mget_aggregateUrl (obs : List (bottleneckInfo K)) (s : String) :
    mget (aggregateUrl obs) s
      = if delaysOf obs s = [] then none
        else some { frequency := F64.fin ((delaysOf obs s).length : K),
                    delay := meanDelay (delaysOf obs s) } := by
  induction obs using List.reverseRecOn generalizing s with
  | nil => simp [aggregateUrl, delaysOf]
  | append_singleton obs e ih =>
    rw [aggregateUrl_append_singleton, delaysOf_append_singleton]
    by_cases hs : e.bottleneck = s
    · subst hs
      simp only [if_true]
      rw [ih e.bottleneck]
      by_cases hnil : delaysOf obs e.bottleneck = []
      · simp [hnil, mget_mset_self, meanDelay, F64.sum]
      · have hpos : (0 : K) < ((delaysOf obs e.bottleneck).length : K) := by
          have := List.length_pos.mpr hnil
          exact_mod_cast this
        simp only [hnil, if_false, mget_mset_self, List.append_eq_nil, false_and,
          Option.some.injEq, meanDelay]
        rw [F64.div_mul_cancel_pos _ hpos, F64.sum_append_singleton]
        simp [List.length_append]
    · simp only [hs, if_false]
      rw [← ih s]
      cases mget (aggregateUrl obs) e.bottleneck with
      | none => exact mget_mset_of_ne _ _ hs
      | some v => exact mget_mset_of_ne _ _ hs

end AggregateLemmas

/-! ## Lemmas on `aggregateResults` -/

section CountLemmas

theorem sum_indicator_of_not_mem (ord : List String) (s : String) (h : s ∉ ord) :
    (ord.map (fun k => if s = k then 1 else 0)).sum = 0 := by
  induction ord with
  | nil => rfl
  | cons k ord ih =>
    simp only [List.mem_cons, not_or] at h
    simp [h.1, ih h.2]

theorem sum_indicator_of_mem (ord : List String) (s : String) (hnd : ord.Nodup) (h : s ∈ ord) :
    (ord.map (fun k => if s = k then 1 else 0)).sum = 1 := by
  induction ord with
  | nil => simp at h
  | cons k ord ih =>
    rw [List.nodup_cons] at hnd
    by_cases hk : s = k
    · subst hk
      simp [sum_indicator_of_not_mem ord s hnd.1]
    · have hmem : s ∈ ord := by
        rcases List.mem_cons.mp h with h | h
        · exact absurd h hk
        · exact h
      simp [hk, ih hnd.2 hmem]

variable {K : Type}

theorem length_delaysOf_cons (e : bottleneckInfo K) (obs : List (bottleneckInfo K)) (k : String) :
    (delaysOf (e :: obs) k).length
      = (if e.bottleneck = k then 1 else 0) + (delaysOf obs k).length := by
  unfold delaysOf
  by_cases h : e.bottleneck = k <;> simp [List.filter_cons, h, Nat.add_comm]

/-- The observations of a URL are the disjoint union of the observations of its
services. -/
theorem sum_length_delaysOf (obs : List (bottleneckInfo K)) (ord : List String)
    (hnd : ord.Nodup) (hall : ∀ e ∈ obs, e.bottleneck ∈ ord) :
    (ord.map (fun k => (delaysOf obs k).length)).sum = obs.length := by
  induction obs with
  | nil => simp [delaysOf]
  | cons e obs ih =>
    have h1 := sum_indicator_of_mem ord e.bottleneck hnd (hall e (List.mem_cons_self e obs))
    have h2 := ih (fun x hx => hall x (List.mem_cons_of_mem e hx))
    simp only [length_delaysOf_cons, List.length_cons]
    rw [List.sum_map_add, h1, h2, Nat.add_comm]

end CountLemmas

section UrlLemmas

variable {K : Type} [LinearOrderedField K]

theorem mem_mkeys_aggregateUrl (obs : List (bottleneckInfo K)) (s : String) :
    s ∈ mkeys (aggregateUrl obs) ↔ s ∈ obs.map (fun e => e.bottleneck) := by
  rw [← mget_isSome_iff, mget_aggregateUrl, ← not_iff_not, ← delaysOf_eq_nil_iff]
  by_cases h : delaysOf obs s = [] <;> simp [h]

theorem mkeys_aggregateUrl_nodup (obs : List (bottleneckInfo K)) :
    (mkeys (aggregateUrl obs)).Nodup := by
  induction obs using List.reverseRecOn with
  | nil => exact List.nodup_nil
  | append_singleton obs e ih =>
    rw [aggregateUrl_append_singleton]
    cases mget (aggregateUrl obs) e.bottleneck with
    | none => exact mkeys_mset_nodup _ _ _ ih
    | some v => exact mkeys_mset_nodup _ _ _ ih

theorem aggregateUrl_length_ne_zero (obs : List (bottleneckInfo K)) (h : obs ≠ []) :
    (aggregateUrl obs).length ≠ 0 := by
  obtain ⟨e, he⟩ := List.exists_mem_of_ne_nil obs h
  have hmem : e.bottleneck ∈ mkeys (aggregateUrl obs) :=
    (mem_mkeys_aggregateUrl obs e.bottleneck).mpr (List.mem_map_of_mem _ he)
  intro hc
  rw [List.length_eq_zero] at hc
  rw [hc] at hmem
  simp [mkeys] at hmem

theorem urlCount_fold (obs : List (bottleneckInfo K)) (ord : List String) (a : K)
    (h : ∀ k ∈ ord, k ∈ mkeys (aggregateUrl obs)) :
    forRange ord (fun _ => mget (aggregateUrl obs))
        (fun (counter : F64 K) _ value => counter + value.frequency) (F64.fin a)
      = F64.fin (a + ((ord.map (fun k => (delaysOf obs k).length)).sum : ℕ)) := by
  induction ord generalizing a with
  | nil => simp [forRange_nil]
  | cons k ord ih =>
    have hk := h k (List.mem_cons_self k ord)
    have hnil : ¬ delaysOf obs k = [] := by
      rw [delaysOf_eq_nil_iff, not_not, ← mem_mkeys_aggregateUrl]
      exact hk
    rw [forRange_cons, mget_aggregateUrl, if_neg hnil]
    simp only [F64.fin_add_fin]
    rw [ih _ (fun x hx => h x (List.mem_cons_of_mem k hx))]
    simp only [List.map_cons, List.sum_cons, Nat.cast_add, add_assoc]

/-- Lines 99-102 compute the number of observations of the URL. -/
theorem urlCount_eq_length (obs : List (bottleneckInfo K)) (ord : List String)
    (hord : ord.Perm (mkeys (aggregateUrl obs))) :
    urlCount (aggregateUrl obs) ord = F64.fin (obs.length : K) := by
  unfold urlCount
  rw [F64.zero_def, urlCount_fold obs ord 0 (fun k hk => hord.mem_iff.mp hk)]
  rw [sum_length_delaysOf obs ord (hord.nodup_iff.mpr (mkeys_aggregateUrl_nodup obs))
    (fun e he => hord.mem_iff.mpr
      ((mem_mkeys_aggregateUrl obs e.bottleneck).mpr (List.mem_map_of_mem _ he)))]
  rw [zero_add]

theorem topsis_isSome (sqrt : K → K) (data : GoMap (topsisArgs K)) (o : TopsisOrd)
    (h : data.length ≠ 0) : ∃ b, topsis sqrt data o = some b := by
  simp only [topsis, h, if_false]
  exact ⟨_, rfl⟩

theorem topsis_nil (sqrt : K → K) (o : TopsisOrd) :
    topsis sqrt ([] : GoMap (topsisArgs K)) o = none := rfl

theorem aggregateUrl_nil : aggregateUrl ([] : List (bottleneckInfo K)) = [] := rfl

theorem forRange_aggregateStep_none (sqrt : K → K) (m : GoMap (List (bottleneckInfo K)))
    (o : AggOrd) (ord : List String) :
    forRange ord (fun _ => mget m) (aggregateStep sqrt o) none = none := by
  induction ord with
  | nil => rfl
  | cons k ord ih =>
    rw [forRange_cons]
    cases mget m k with
    | none => exact ih
    | some v => exact ih

/-- The loop over `urlServiceMap` panics as soon as one URL has an empty list. -/
theorem forRange_aggregateStep_panic (sqrt : K → K) (m : GoMap (List (bottleneckInfo K)))
    (o : AggOrd) (ord : List String) (st : Option (GoMap (F64 K) × GoMap String))
    (k : String) (hk : k ∈ ord) (hm : mget m k = some []) :
    forRange ord (fun _ => mget m) (aggregateStep sqrt o) st = none := by
  induction ord generalizing st with
  | nil => simp at hk
  | cons x ord ih =>
    rw [forRange_cons]
    by_cases hx : x = k
    · subst hx
      rw [hm]
      cases st with
      | none => exact forRange_aggregateStep_none sqrt m o ord
      | some s =>
        obtain ⟨uc, usf⟩ := s
        simp only [aggregateStep, aggregateUrl_nil, topsis_nil]
        exact forRange_aggregateStep_none sqrt m o ord
    · have hk' : k ∈ ord := by
        rcases List.mem_cons.mp hk with h | h
        · exact absurd h.symm hx
        · exact h
      exact ih _ hk'

/-- The loop over `urlServiceMap` when no URL has an empty list: every visited URL gets
its call count and the result of its `topsis` call. -/
theorem forRange_aggregateStep_spec (sqrt : K → K) (m : GoMap (List (bottleneckInfo K)))
    (o : AggOrd) (ord : List String) (uc : GoMap (F64 K)) (usf : GoMap String)
    (hsub : ∀ k ∈ ord, k ∈ mkeys m)
    (hne : ∀ k v, mget m k = some v → v ≠ []) :
    ∃ uc' usf', forRange ord (fun _ => mget m) (aggregateStep sqrt o) (some (uc, usf))
        = some (uc', usf')
      ∧ (∀ x, mget uc' x
          = if x ∈ ord then
              (mget m x).map (fun v => urlCount (aggregateUrl v) (o.counter x))
            else mget uc x)
      ∧ (∀ x, mget usf' x
          = if x ∈ ord then
              (mget m x).bind (fun v => topsis sqrt (aggregateUrl v) (o.topsis x))
            else mget usf x) := by
  induction ord generalizing uc usf with
  | nil => exact ⟨uc, usf, rfl, fun x => by simp, fun x => by simp⟩
  | cons k ord ih =>
    rw [forRange_cons]
    have hk := hsub k (List.mem_cons_self k ord)
    rw [← mget_isSome_iff] at hk
    cases hg : mget m k with
    | none => rw [hg] at hk; cases hk
    | some v =>
      obtain ⟨b, hb⟩ := topsis_isSome sqrt (aggregateUrl v) (o.topsis k)
        (aggregateUrl_length_ne_zero v (hne k v hg))
      simp only [aggregateStep, hb]
      obtain ⟨uc', usf', hfold, huc, husf⟩ :=
        ih (mset uc k (urlCount (aggregateUrl v) (o.counter k))) (mset usf k b)
          (fun x hx => hsub x (List.mem_cons_of_mem k hx))
      refine ⟨uc', usf', hfold, ?_, ?_⟩
      · intro x
        rw [huc x]
        by_cases hx : x ∈ ord
        · simp [hx]
        · by_cases hxk : x = k
          · subst hxk
            simp [hx, hg, mget_mset_self]
          · simp [hx, hxk, mget_mset_of_ne _ _ (Ne.symm hxk)]
      · intro x
        rw [husf x]
        by_cases hx : x ∈ ord
        · simp [hx]
        · by_cases hxk : x = k
          · subst hxk
            simp [hx, hg, mget_mset_self, hb]
          · simp [hx, hxk, mget_mset_of_ne _ _ (Ne.symm hxk)]

/-- With no empty list and one URL with strictly more observations than every other
URL, `aggregateResults` selects the result of that URL's `topsis` call,
whatever the visiting orders. -/
theorem aggregateResults_of_strict_max (sqrt : K → K) (m : GoMap (List (bottleneckInfo K)))
    (o : AggOrd) (u : String) (vu : List (bottleneckInfo K))
    (hnd : (mkeys m).Nodup) (houter : o.outer.Perm (mkeys m)) (hfinal : o.final.Perm (mkeys m))
    (hcounter : ∀ k v, mget m k = some v → (o.counter k).Perm (mkeys (aggregateUrl v)))
    (hne : ∀ k v, mget m k = some v → v ≠ [])
    (hu : mget m u = some vu)
    (hmax : ∀ x v, x ≠ u → mget m x = some v → v.length < vu.length) :
    aggregateResults sqrt m o = topsis sqrt (aggregateUrl vu) (o.topsis u) := by
  obtain ⟨uc, usf, hfold, huc, husf⟩ := forRange_aggregateStep_spec sqrt m o o.outer [] []
    (fun k hk => houter.mem_iff.mp hk) hne
  have humem : u ∈ mkeys m := mem_mkeys_of_mget hu
  have hcount : ∀ x v, mget m x = some v → mget uc x = some (F64.fin (v.length : K)) := by
    intro x v hx
    rw [huc x, if_pos (houter.mem_iff.mpr (mem_mkeys_of_mget hx)), hx, Option.map_some',
      urlCount_eq_length v _ (hcounter x v hx)]
  obtain ⟨b, hb⟩ := topsis_isSome sqrt (aggregateUrl vu) (o.topsis u)
    (aggregateUrl_length_ne_zero vu (hne u vu hu))
  have hsvc : mget usf u = some b := by
    rw [husf u, if_pos (houter.mem_iff.mpr humem), hu, Option.some_bind, hb]
  have hpos : (0 : F64 K) < F64.fin (vu.length : K) := by
    rw [F64.zero_def, F64.fin_lt_fin]
    exact_mod_cast List.length_pos.mpr (hne u vu hu)
  have hsel := forRange_maxStep_unique o.final (mget uc) (fun c => c)
    (fun k _ => (mget usf k).getD "") u (F64.fin (vu.length : K)) ((0 : F64 K), "")
    (hfinal.nodup_iff.mpr hnd) (hfinal.mem_iff.mpr humem) (hcount u vu hu) hpos
    (by
      intro x hx hxu c hc
      have hxm : x ∈ mkeys m := hfinal.mem_iff.mp hx
      rw [← mget_isSome_iff] at hxm
      cases hg : mget m x with
      | none => rw [hg] at hxm; cases hxm
      | some v =>
        rw [hcount x v hg] at hc
        cases hc
        rw [F64.fin_lt_fin]
        exact_mod_cast hmax x v hxu hg)
  unfold aggregateResults aggregateUrls
  rw [hfold]
  simp only [selectUrl]
  rw [hsel, hb]
  simp [hsvc]

end UrlLemmas

/-! ## Lemmas on the loop over the traces -/

section RecordLemmas

variable {V : Type}

theorem mget_of_mem_nodup (m : GoMap V) (hnd : (mkeys m).Nodup) (k : String) (v : V)
    (h : (k, v) ∈ m) : mget m k = some v := by
  induction m with
  | nil => simp at h
  | cons e m ih =>
    obtain ⟨k', w⟩ := e
    simp only [mkeys, List.map_cons, List.nodup_cons] at hnd
    rw [mget_cons]
    rcases List.mem_cons.mp h with h | h
    · cases h
      simp
    · have hne : k' ≠ k := by
        intro hc
        subst hc
        exact hnd.1 (List.mem_map_of_mem Prod.fst h)
      rw [if_neg hne]
      exact ih hnd.2 h

theorem forRange_map_fst {σ : Type} (m : GoMap V) (l : GoMap V)
    (h : ∀ e ∈ l, mget m e.1 = some e.2) (body : σ → String → V → σ) (init : σ) :
    forRange (l.map Prod.fst) (fun _ => mget m) body init
      = l.foldl (fun st e => body st e.1 e.2) init := by
  induction l generalizing init with
  | nil => rfl
  | cons e l ih =>
    rw [List.map_cons, forRange_cons, h e (List.mem_cons_self e l), List.foldl_cons]
    exact ih (fun x hx => h x (List.mem_cons_of_mem e hx)) _

/-- Visiting the keys of a map in the stored order is a fold over its entries. -/
theorem forRange_mkeys {σ : Type} (m : GoMap V) (hnd : (mkeys m).Nodup)
    (body : σ → String → V → σ) (init : σ) :
    forRange (mkeys m) (fun _ => mget m) body init
      = m.foldl (fun st e => body st e.1 e.2) init :=
  forRange_map_fst m m (fun e he => mget_of_mem_nodup m hnd e.1 e.2 he) body init

theorem totalObservations_mset_append {α : Type} (m : GoMap (List α)) (k : String)
    (v : List α) (x : α) (h : mget m k = some v) :
    totalObservations (mset m k (v ++ [x])) = totalObservations m + 1 := by
  induction m with
  | nil => cases h
  | cons e m ih =>
    obtain ⟨k', w⟩ := e
    rw [mget_cons] at h
    by_cases hk : k' = k
    · rw [if_pos hk] at h
      cases h
      simp [mset, hk, totalObservations]
      omega
    · rw [if_neg hk] at h
      have := ih h
      simp only [totalObservations] at this
      simp [mset, hk, totalObservations, this]
      omega

theorem totalObservations_mset_new {α : Type} (m : GoMap (List α)) (k : String) (x : α)
    (h : mget m k = none) :
    totalObservations (mset m k [x]) = totalObservations m + 1 := by
  induction m with
  | nil => simp [mset, totalObservations]
  | cons e m ih =>
    obtain ⟨k', w⟩ := e
    rw [mget_cons] at h
    by_cases hk : k' = k
    · rw [if_pos hk] at h
      cases h
    · rw [if_neg hk] at h
      have := ih h
      simp only [totalObservations] at this
      simp [mset, hk, totalObservations, this]
      omega

variable {K : Type}

theorem totalObservations_recordObservation (m : GoMap (List (bottleneckInfo K)))
    (url : String) (info : bottleneckInfo K) :
    totalObservations (recordObservation m url info) = totalObservations m + 1 := by
  unfold recordObservation
  cases h : mget m url with
  | none => exact totalObservations_mset_new m url info h
  | some v => exact totalObservations_mset_append m url v info h

theorem mget_recordObservation (m : GoMap (List (bottleneckInfo K))) (url : String)
    (info : bottleneckInfo K) (x : String) :
    mget (recordObservation m url info) x
      = if url = x then some (((mget m url).getD []) ++ [info]) else mget m x := by
  unfold recordObservation
  cases h : mget m url with
  | none => rw [mget_mset]; simp
  | some v => rw [mget_mset]; simp

end RecordLemmas

section PipelineLemmas

variable {K : Type} [LinearOrderedField K]

theorem traceObservation_isSome (parseFloat : String → F64 K × Bool) (t : JSON K)
    (o : TraceOrd) (h : (parseTrace parseFloat t o.procs).isSome) :
    ∃ url info, traceObservation parseFloat t o = some (url, info) := by
  cases hp : parseTrace parseFloat t o.procs with
  | none => rw [hp] at h; cases h
  | some p =>
    simp only [traceObservation, hp, Option.bind_eq_bind, Option.some_bind, Option.pure_def]
    exact ⟨_, _, rfl⟩

/-- The loop over the traces returns a map when every record passes the type
assertions. -/
theorem findBottlenecksFrom_isSome (parseFloat : String → F64 K × Bool) (ords : Nat → TraceOrd)
    (ts : List (JSON K)) (i : Nat) (m0 : GoMap (List (bottleneckInfo K)))
    (h : ∀ j t, ts[j]? = some t → (parseTrace parseFloat t (ords (i + j)).procs).isSome) :
    ∃ m, findBottlenecksFrom parseFloat ords i ts m0 = some m := by
  induction ts generalizing i m0 with
  | nil => exact ⟨m0, rfl⟩
  | cons t ts ih =>
    obtain ⟨url, info, hobs⟩ := traceObservation_isSome parseFloat t (ords i)
      (by simpa using h 0 t (by simp))
    simp only [findBottlenecksFrom, hobs]
    apply ih
    intro j t' hj
    have := h (j + 1) t' (by simpa using hj)
    rw [show i + (j + 1) = i + 1 + j by omega] at this
    exact this

/-- A property of the URL-to-observations map that every recorded observation preserves
holds of the map that the loop over the traces returns. -/
theorem findBottlenecksFrom_invariant (parseFloat : String → F64 K × Bool)
    (ords : Nat → TraceOrd) (P : Nat → GoMap (List (bottleneckInfo K)) → Prop)
    (hstep : ∀ n m t o url info, traceObservation parseFloat t o = some (url, info) →
      P n m → P (n + 1) (recordObservation m url info))
    (ts : List (JSON K)) (i n : Nat) (m0 m : GoMap (List (bottleneckInfo K)))
    (h0 : P n m0) (h : findBottlenecksFrom parseFloat ords i ts m0 = some m) :
    P (n + ts.length) m := by
  induction ts generalizing i n m0 with
  | nil =>
    simp only [findBottlenecksFrom, Option.some.injEq] at h
    rw [← h]
    exact h0
  | cons t ts ih =>
    cases hobs : traceObservation parseFloat t (ords i) with
    | none => simp [findBottlenecksFrom, hobs] at h
    | some r =>
      obtain ⟨url, info⟩ := r
      simp only [findBottlenecksFrom, hobs] at h
      have := ih (i + 1) (n + 1) _ (hstep n m0 t (ords i) url info hobs h0) h
      rw [List.length_cons, show n + (ts.length + 1) = n + 1 + ts.length by omega]
      exact this

theorem findBottlenecks_total (parseFloat : String → F64 K × Bool) (ords : Nat → TraceOrd)
    (data : List (JSON K)) (m : GoMap (List (bottleneckInfo K)))
    (h : findBottlenecks parseFloat data ords = some m) :
    totalObservations m = data.length := by
  have := findBottlenecksFrom_invariant parseFloat ords (fun n m => totalObservations m = n)
    (fun n m _ _ url info _ hm => by
      show totalObservations (recordObservation m url info) = n + 1
      rw [totalObservations_recordObservation]
      exact congrArg (fun x => x + 1) hm)
    data 0 0 [] m rfl h
  simpa using this

theorem findBottlenecks_nonempty_lists (parseFloat : String → F64 K × Bool)
    (ords : Nat → TraceOrd) (data : List (JSON K)) (m : GoMap (List (bottleneckInfo K)))
    (h : findBottlenecks parseFloat data ords = some m) :
    ∀ url obs, mget m url = some obs → obs ≠ [] := by
  have := findBottlenecksFrom_invariant parseFloat ords
    (fun _ m => ∀ url obs, mget m url = some obs → obs ≠ [])
    (fun n m _ _ url info _ hm x obs hx => by
      have hm' : ∀ url obs, mget m url = some obs → obs ≠ [] := hm
      rw [mget_recordObservation] at hx
      split at hx
      · cases hx
        simp
      · exact hm' x obs hx)
    data 0 0 [] m (fun url obs hx => by simp at hx) h
  exact this

theorem findBottlenecks_nodup (parseFloat : String → F64 K × Bool)
    (ords : Nat → TraceOrd) (data : List (JSON K)) (m : GoMap (List (bottleneckInfo K)))
    (h : findBottlenecks parseFloat data ords = some m) : (mkeys m).Nodup := by
  have := findBottlenecksFrom_invariant parseFloat ords (fun _ m => (mkeys m).Nodup)
    (fun n m _ _ url info _ hm => by
      have hm' : (mkeys m).Nodup := hm
      show (mkeys (recordObservation m url info)).Nodup
      unfold recordObservation
      cases mget m url with
      | none => exact mkeys_mset_nodup _ _ _ hm'
      | some v => exact mkeys_mset_nodup _ _ _ hm')
    data 0 0 [] m List.nodup_nil h
  exact this

/-- The loop over `urlServiceMap` does not panic when no URL has an empty list,
whatever keys it visits. -/
theorem forRange_aggregateStep_isSome (sqrt : K → K) (m : GoMap (List (bottleneckInfo K)))
    (o : AggOrd) (hne : ∀ k v, mget m k = some v → v ≠ []) (ord : List String)
    (st : GoMap (F64 K) × GoMap String) :
    ∃ r, forRange ord (fun _ => mget m) (aggregateStep sqrt o) (some st) = some r := by
  induction ord generalizing st with
  | nil => exact ⟨st, rfl⟩
  | cons k ord ih =>
    rw [forRange_cons]
    cases hg : mget m k with
    | none => exact ih st
    | some v =>
      obtain ⟨b, hb⟩ := topsis_isSome sqrt (aggregateUrl v) (o.topsis k)
        (aggregateUrl_length_ne_zero v (hne k v hg))
      obtain ⟨uc, usf⟩ := st
      simp only [aggregateStep, hb]
      exact ih _

end PipelineLemmas

/-! ## The example trace with one child -/

section ExampleTrace

theorem exTraceOneChild_parse :
    parseTrace exParseFloat exTraceOneChild exOrdOneChild.procs
      = some ([("p1", "front"), ("p2", "db")],
          [("R", ⟨"R", F64.fin 100, [], "p1", F64.fin 100⟩),
            ("C", ⟨"C", F64.fin 30, ["R"], "p2", F64.fin 30⟩)], "/a") := by
  decide

theorem exTraceOneChild_observation :
    traceObservation exParseFloat exTraceOneChild exOrdOneChild
      = some ("/a", { bottleneck := "front", delay := F64.fin 70 }) := by
  have hred : reduceSpans
      [("R", (⟨"R", F64.fin 100, [], "p1", F64.fin 100⟩ : node ℚ)),
        ("C", ⟨"C", F64.fin 30, ["R"], "p2", F64.fin 30⟩)] exOrdOneChild.reduce
      = [("R", ⟨"R", F64.fin 100, [], "p1", F64.fin 70⟩),
          ("C", ⟨"C", F64.fin 30, ["R"], "p2", F64.fin 30⟩)] := by
    simp [reduceSpans, exOrdOneChild, forRange_cons, forRange_nil, mget_cons, reduceStep, mset]
    norm_num
  simp only [traceObservation, exTraceOneChild_parse, Option.bind_eq_bind, Option.some_bind,
    hred, Option.pure_def]
  simp [pickSpan, exOrdOneChild, forRange_cons, forRange_nil, mget_cons, maxStep]
  norm_num

theorem exTraceOneChild_findBottlenecks :
    findBottlenecks exParseFloat [exTraceOneChild] (exTraceOrds exOrdOneChild)
      = some [("/a", [{ bottleneck := "front", delay := F64.fin 70 }])] := by
  simp [findBottlenecks, findBottlenecksFrom, exTraceOrds, exTraceOneChild_observation,
    recordObservation, mget, mset]

theorem exTraceDb_observation :
    traceObservation exParseFloat exTraceDb exOrdOneSpan
      = some ("/b", { bottleneck := "db", delay := F64.fin 40 }) := by
  have hparse : parseTrace exParseFloat exTraceDb exOrdOneSpan.procs
      = some ([("p1", "front"), ("p2", "db")],
          [("R", ⟨"R", F64.fin 40, [], "p2", F64.fin 40⟩)], "/b") := by decide
  simp only [traceObservation, hparse, Option.bind_eq_bind, Option.some_bind, Option.pure_def]
  simp [reduceSpans, pickSpan, exOrdOneSpan, forRange_cons, forRange_nil, mget_cons,
    reduceStep, maxStep]

theorem exThreeTraces_findBottlenecks :
    findBottlenecks exParseFloat [exTraceOneChild, exTraceOneChild, exTraceDb] exOrdsThree
      = some [("/a", [{ bottleneck := "front", delay := F64.fin 70 },
                { bottleneck := "front", delay := F64.fin 70 }]),
          ("/b", [{ bottleneck := "db", delay := F64.fin 40 }])] := by
  simp [findBottlenecks, findBottlenecksFrom, exOrdsThree, exTraceOneChild_observation,
    exTraceDb_observation, recordObservation, mget, mset]

theorem exTraceOneSpan_parse (pid : String) (duration : JSON ℝ) (d : F64 ℝ × Bool)
    (hd : getFloat (exParseFloatInf ℝ) duration = some d) :
    parseTrace (exParseFloatInf ℝ) (exTraceOneSpan ℝ pid duration) exOrdOneSpan.procs
      = some ([("p1", "A"), ("p2", "B")], [("R", ⟨"R", d.1, [], pid, d.1⟩)], "/a") := by
  simp [parseTrace, exTraceOneSpan, JSON.asObj, JSON.asArr, JSON.asStr, JSON.isStr, field,
    mget_cons, parseProcesses, exOrdOneSpan, forRange_cons, forRange_nil, mset, parseSpan,
    parseParents, scanTags, hd]

theorem exTraceOneSpan_observation (pid : String) (duration : JSON ℝ) (d : F64 ℝ)
    (hd : getFloat (exParseFloatInf ℝ) duration = some (d, true)) (hpos : (0 : F64 ℝ) < d)
    (s : String) (hs : mget [("p1", "A"), ("p2", "B")] pid = some s) :
    traceObservation (exParseFloatInf ℝ) (exTraceOneSpan ℝ pid duration) exOrdOneSpan
      = some ("/a", { bottleneck := s, delay := d }) := by
  simp only [traceObservation, exTraceOneSpan_parse pid duration (d, true) hd,
    Option.bind_eq_bind, Option.some_bind, Option.pure_def]
  have hpos2 : (F64.fin 0 : F64 ℝ) < d := hpos
  simp only [mget_cons, mget_nil] at hs
  simp [reduceSpans, pickSpan, exOrdOneSpan, forRange_cons, forRange_nil, mget_cons,
    reduceStep, maxStep, hpos2, hs]

theorem exTracesInfDelay_findBottlenecks :
    findBottlenecks (exParseFloatInf ℝ) (exTracesInfDelay ℝ) (exTraceOrds exOrdOneSpan)
      = some [("/a", exObsInfDelay ℝ)] := by
  have h3 : (0 : F64 ℝ) < F64.fin 3 := (F64.fin_lt_fin 0 3).mpr (by norm_num)
  have h4 : (0 : F64 ℝ) < F64.fin 4 := (F64.fin_lt_fin 0 4).mpr (by norm_num)
  have hA := exTraceOneSpan_observation "p1" (JSON.num (F64.fin 3)) (F64.fin 3) rfl h3 "A" rfl
  have hB := exTraceOneSpan_observation "p2" (JSON.num (F64.fin 4)) (F64.fin 4) rfl h4 "B" rfl
  have hI := exTraceOneSpan_observation "p2" (JSON.str "Inf") F64.pinf rfl trivial "B" rfl
  simp [findBottlenecks, findBottlenecksFrom, exTracesInfDelay, exTraceOrds, hA, hB, hI,
    recordObservation, mget, mset, exObsInfDelay]

theorem exObsInfDelay_aggregateUrl :
    aggregateUrl (exObsInfDelay ℝ) = exCandidatesInfDelay ℝ := by
  simp [aggregateUrl, exObsInfDelay, exCandidatesInfDelay, mget_cons, mset]
  have h3 : (1 + 1 + 1 : ℝ) ≠ 0 := by norm_num
  have h4 : (0 : ℝ) ≤ 1 + 1 + 1 + 1 := by norm_num
  refine ⟨⟨by norm_num, ?_⟩, by norm_num, ?_⟩
  · rw [F64.fin_div_fin_of_ne _ h3]
    norm_num
  · rw [F64.fin_div_fin_of_ne _ h3, F64.fin_mul_fin, F64.fin_add_pinf]
    show (if (0 : ℝ) ≤ 1 + 1 + 1 + 1 then F64.pinf else F64.ninf) = F64.pinf
    rw [if_pos h4]

end ExampleTrace

/-! ## Lemmas on delays that are not negative -/

namespace F64

variable {K : Type} [LinearOrderedField K]

theorem le_iff (a b : F64 K) : a ≤ b ↔ le a b := Iff.rfl

@[simp] theorem fin_le_fin (a b : K) : (fin a ≤ fin b) ↔ a ≤ b := Iff.rfl

theorem zero_le_zero : (0 : F64 K) ≤ 0 := by
  rw [zero_def, fin_le_fin]

theorem zero_le_of_zero_le_of_lt {a b : F64 K} (ha : (0 : F64 K) ≤ a) (h : a < b) :
    (0 : F64 K) ≤ b := by
  rw [zero_def, le_iff] at *
  rw [lt_iff] at h
  cases a <;> cases b <;> simp_all [lt, le]
  exact le_of_lt (lt_of_le_of_lt ha h)

theorem not_lt_of_le {a b : F64 K} (h : a ≤ b) : ¬ (b < a) := by
  rw [le_iff] at h
  rw [lt_iff]
  cases a <;> cases b <;> simp_all [lt, le]

theorem zero_le_add {a b : F64 K} (ha : (0 : F64 K) ≤ a) (hb : (0 : F64 K) ≤ b) :
    (0 : F64 K) ≤ a + b := by
  rw [zero_def, le_iff] at *
  cases a <;> cases b <;> simp_all [le]
  all_goals first | exact add_nonneg ha hb | exact (trivial : le (fin (0 : K)) pinf)

theorem zero_le_div_pos {a : F64 K} (ha : (0 : F64 K) ≤ a) {c : K} (hc : 0 < c) :
    (0 : F64 K) ≤ a / fin c := by
  rw [zero_def, le_iff] at *
  cases a with
  | nan => cases ha
  | ninf => cases ha
  | pinf =>
    show le (fin 0) (if 0 ≤ c then pinf else ninf)
    rw [if_pos (le_of_lt hc)]
    trivial
  | fin x =>
    rw [fin_div_fin_of_ne _ (ne_of_gt hc)]
    exact div_nonneg ha (le_of_lt hc)

theorem zero_le_sum (l : List (F64 K)) (h : ∀ d ∈ l, (0 : F64 K) ≤ d) :
    (0 : F64 K) ≤ F64.sum l := by
  unfold F64.sum
  suffices hs : ∀ (a : F64 K), (0 : F64 K) ≤ a → (0 : F64 K) ≤ l.foldl (fun a b => a + b) a from
    hs 0 zero_le_zero
  induction l with
  | nil => intro a ha; exact ha
  | cons d l ih =>
    intro a ha
    rw [List.foldl_cons]
    exact ih (fun x hx => h x (List.mem_cons_of_mem d hx)) _
      (zero_le_add ha (h d (List.mem_cons_self d l)))

end F64

section MemDelaysOf

variable {K : Type}

theorem mem_delaysOf {obs : List (bottleneckInfo K)} {s : String} {d : F64 K}
    (h : d ∈ delaysOf obs s) : ∃ e ∈ obs, e.delay = d := by
  unfold delaysOf at h
  rw [List.mem_map] at h
  obtain ⟨e, he, hd⟩ := h
  exact ⟨e, (List.mem_filter.mp he).1, hd⟩

end MemDelaysOf

section NonNegLemmas

variable {K V β : Type} [LinearOrderedField K]

/-- A selection loop that starts from a maximum that is not negative ends with one. -/
theorem forRange_maxStep_zero_le (ord : List String) (get : String → Option V)
    (val : V → F64 K) (pay : String → V → β) (init : F64 K × β)
    (h : (0 : F64 K) ≤ init.1) :
    (0 : F64 K)
      ≤ (forRange ord (fun _ => get) (fun st k v => maxStep st (val v) (pay k v)) init).1 := by
  induction ord generalizing init with
  | nil => exact h
  | cons k ord ih =>
    rw [forRange_cons]
    apply ih
    cases get k with
    | none => exact h
    | some v =>
      simp only [maxStep]
      split
      · rename_i hlt
        exact F64.zero_le_of_zero_le_of_lt h hlt
      · exact h

theorem pickSpan_zero_le (spanMap : GoMap (node K)) (ord : List String) :
    (0 : F64 K) ≤ (pickSpan spanMap ord).1 :=
  forRange_maxStep_zero_le ord (mget spanMap) (fun v => v.processingTime)
    (fun _ v => v.processID) _ F64.zero_le_zero

theorem pickSpan_of_all_le_zero (spanMap : GoMap (node K)) (ord : List String)
    (h : ∀ id n, mget spanMap id = some n → n.processingTime ≤ 0) :
    pickSpan spanMap ord = ((0 : F64 K), "") :=
  forRange_maxStep_keep ord (mget spanMap) (fun v => v.processingTime)
    (fun _ v => v.processID) 0 "" (fun x _ v hv => F64.not_lt_of_le (h x v hv))

/-- The candidates built from observations whose delays are not negative have a
frequency of at least 1 and a mean delay that is not negative. -/
theorem aggregateUrl_candidate_bounds (obs : List (bottleneckInfo K))
    (h : ∀ e ∈ obs, (0 : F64 K) ≤ e.delay) (s : String) (c : topsisArgs K)
    (hc : mget (aggregateUrl obs) s = some c) :
    (1 : F64 K) ≤ c.frequency ∧ (0 : F64 K) ≤ c.delay := by
  rw [mget_aggregateUrl] at hc
  split at hc
  · cases hc
  · rename_i hnil
    cases hc
    have hpos : 0 < (delaysOf obs s).length := List.length_pos.mpr hnil
    constructor
    · rw [F64.one_def, F64.fin_le_fin]
      exact_mod_cast hpos
    · unfold meanDelay
      apply F64.zero_le_div_pos
      · apply F64.zero_le_sum
        intro d hd
        obtain ⟨e, he, hed⟩ := mem_delaysOf hd
        rw [← hed]
        exact h e he
      · exact_mod_cast hpos

theorem traceObservation_of_parse (parseFloat : String → F64 K × Bool) (t : JSON K)
    (o : TraceOrd) (serviceMap : GoMap String) (spanMap : GoMap (node K)) (url : String)
    (h : parseTrace parseFloat t o.procs = some (serviceMap, spanMap, url)) :
    traceObservation parseFloat t o
      = some (url,
          { bottleneck :=
              (mget serviceMap (pickSpan (reduceSpans spanMap o.reduce) o.pick).2).getD "",
            delay := (pickSpan (reduceSpans spanMap o.reduce) o.pick).1 }) := by
  simp only [traceObservation, h, Option.bind_eq_bind, Option.some_bind, Option.pure_def]

theorem traceObservation_delay_zero_le (parseFloat : String → F64 K × Bool) (t : JSON K)
    (o : TraceOrd) (url : String) (info : bottleneckInfo K)
    (h : traceObservation parseFloat t o = some (url, info)) : (0 : F64 K) ≤ info.delay := by
  cases hp : parseTrace parseFloat t o.procs with
  | none => simp [traceObservation, hp] at h
  | some p =>
    obtain ⟨svc, sm, u⟩ := p
    rw [traceObservation_of_parse parseFloat t o svc sm u hp] at h
    simp only [Option.some.injEq, Prod.mk.injEq] at h
    rw [← h.2]
    exact pickSpan_zero_le _ _

theorem findBottlenecks_delays_zero_le (parseFloat : String → F64 K × Bool)
    (ords : Nat → TraceOrd) (data : List (JSON K)) (m : GoMap (List (bottleneckInfo K)))
    (h : findBottlenecks parseFloat data ords = some m) :
    ∀ url obs, mget m url = some obs → ∀ e ∈ obs, (0 : F64 K) ≤ e.delay := by
  have := findBottlenecksFrom_invariant parseFloat ords
    (fun _ m => ∀ url obs, mget m url = some obs → ∀ e ∈ obs, (0 : F64 K) ≤ e.delay)
    (fun n m t o url info hobs hm x obs hx e he => by
      have hm' : ∀ url obs, mget m url = some obs → ∀ e ∈ obs, (0 : F64 K) ≤ e.delay := hm
      rw [mget_recordObservation] at hx
      split at hx
      · cases hx
        rcases List.mem_append.mp he with he | he
        · cases hg : mget m url with
          | none => rw [hg] at he; simp at he
          | some v =>
            rw [hg] at he
            exact hm' url v hg e he
        · rw [List.mem_singleton] at he
          rw [he]
          exact traceObservation_delay_zero_le parseFloat t o url info hobs
      · exact hm' x obs hx e he)
    data 0 0 [] m (fun url obs hx => by simp at hx) h
  exact this

end NonNegLemmas

/-! ## Lemmas on the URL of a trace -/

section UrlOfTrace

variable {K : Type}

theorem getLast?_getD_cons (a : String) (l : List String) (u : String) :
    ((a :: l).getLast?).getD u = (l.getLast?).getD a := by
  rw [List.getLast?_cons]
  rfl

/-- The tag loop leaves the value of the last `http.url` tag, or the URL it started
with when there is no such tag. -/
theorem scanTags_eq (tags : List (JSON K)) (u u' : String) (h : scanTags tags u = some u') :
    u' = ((urlTagValues tags).getLast?).getD u := by
  induction tags generalizing u with
  | nil =>
    simp only [scanTags, List.foldlM_nil, Option.pure_def, Option.some.injEq] at h
    simp [urlTagValues, h]
  | cons t tags ih =>
    simp only [scanTags, List.foldlM_cons, Option.bind_eq_bind, Option.bind_eq_some] at h
    obtain ⟨u1, h1, h2⟩ := h
    have ih' := ih u1 h2
    cases t with
    | obj tag =>
      simp only [JSON.asObj] at h1
      obtain ⟨a, ha, h1⟩ := h1
      cases ha
      by_cases hk : (field tag "key").isStr "http.url" = true
      · rw [if_pos hk] at h1
        have hv : urlTagValue (JSON.obj tag) = some u1 := by
          simp only [urlTagValue, hk, if_true]
          exact h1
        rw [ih']
        simp only [urlTagValues, List.filterMap_cons, hv]
        rw [getLast?_getD_cons]
      · rw [if_neg hk] at h1
        simp only [Option.pure_def, Option.some.injEq] at h1
        have hv : urlTagValue (JSON.obj tag) = none := by
          simp only [urlTagValue, hk]
          rfl
        rw [ih', ← h1]
        simp only [urlTagValues, List.filterMap_cons, hv]
    | null => simp [JSON.asObj] at h1
    | bool b => simp [JSON.asObj] at h1
    | num x => simp [JSON.asObj] at h1
    | str s => simp [JSON.asObj] at h1
    | arr xs => simp [JSON.asObj] at h1

/-- One iteration of the span loop: a root span with an `http.url` tag overwrites the
URL, every other span leaves it. -/
theorem parseSpan_url (parseFloat : String → F64 K × Bool) (st st' : GoMap (node K) × String)
    (s : JSON K) (h : parseSpan parseFloat st s = some st') :
    st'.2 = (rootUrl s).getD st.2 := by
  simp only [parseSpan, Option.bind_eq_bind, Option.bind_eq_some, Option.pure_def,
    Option.some.injEq] at h
  obtain ⟨span, hspan, refs, hrefs, tags, htags, parents, hpar, url, hurl, _, _, _, _, _, _, h⟩
    := h
  rw [← h]
  cases s with
  | obj kv =>
    simp only [JSON.asObj, Option.some.injEq] at hspan
    subst hspan
    cases hr : field kv "references" with
    | arr rs =>
      rw [hr] at hrefs
      simp only [JSON.asArr, Option.some.injEq] at hrefs
      subst hrefs
      cases ht : field kv "tags" with
      | arr ts =>
        rw [ht] at htags
        simp only [JSON.asArr, Option.some.injEq] at htags
        subst htags
        cases parents with
        | nil =>
          simp only [List.length_nil, if_true] at hurl
          have := scanTags_eq ts st.2 url hurl
          simp only [rootUrl, isRootSpan, hr, hpar, spanTags, ht, if_true]
          exact this
        | cons p ps =>
          simp only [List.length_cons, Nat.succ_ne_zero, if_false, Option.some.injEq] at hurl
          simp [rootUrl, isRootSpan, hr, hpar, hurl]
      | null => rw [ht] at htags; cases htags
      | bool b => rw [ht] at htags; cases htags
      | num x => rw [ht] at htags; cases htags
      | str x => rw [ht] at htags; cases htags
      | obj x => rw [ht] at htags; cases htags
    | null => rw [hr] at hrefs; cases hrefs
    | bool b => rw [hr] at hrefs; cases hrefs
    | num x => rw [hr] at hrefs; cases hrefs
    | str x => rw [hr] at hrefs; cases hrefs
    | obj x => rw [hr] at hrefs; cases hrefs
  | null => cases hspan
  | bool b => cases hspan
  | num x => cases hspan
  | str x => cases hspan
  | arr xs => cases hspan

theorem foldlM_parseSpan_url (parseFloat : String → F64 K × Bool) (spans : List (JSON K))
    (st st' : GoMap (node K) × String)
    (h : spans.foldlM (parseSpan parseFloat) st = some st') :
    st'.2 = ((spans.filterMap rootUrl).getLast?).getD st.2 := by
  induction spans generalizing st with
  | nil =>
    simp only [List.foldlM_nil, Option.pure_def, Option.some.injEq] at h
    simp [h]
  | cons s spans ih =>
    simp only [List.foldlM_cons, Option.bind_eq_bind, Option.bind_eq_some] at h
    obtain ⟨st1, h1, h2⟩ := h
    rw [ih st1 h2, parseSpan_url parseFloat st st1 s h1]
    cases hr : rootUrl s with
    | none => simp [List.filterMap_cons, hr]
    | some u =>
      simp only [List.filterMap_cons, hr, Option.getD_some]
      rw [getLast?_getD_cons]

/-- The URL of a trace is that of the last root span that carries an `http.url` tag. -/
theorem parseTrace_url (parseFloat : String → F64 K × Bool) (t : JSON K) (ord : List String)
    (serviceMap : GoMap String) (spanMap : GoMap (node K)) (url : String)
    (h : parseTrace parseFloat t ord = some (serviceMap, spanMap, url)) :
    url = lastRootUrl (traceSpans t) := by
  simp only [parseTrace, Option.bind_eq_bind, Option.bind_eq_some, Option.pure_def,
    Option.some.injEq, Prod.mk.injEq] at h
  obtain ⟨trace, htrace, spans, hspans, _, _, _, _, parsed, hp, _, _, hurl⟩ := h
  rw [← hurl, foldlM_parseSpan_url parseFloat spans _ parsed hp]
  cases t with
  | obj kv =>
    simp only [JSON.asObj, Option.some.injEq] at htrace
    subst htrace
    cases hs : field kv "spans" with
    | arr xs =>
      rw [hs] at hspans
      simp only [JSON.asArr, Option.some.injEq] at hspans
      subst hspans
      simp [lastRootUrl, traceSpans, hs]
    | null => rw [hs] at hspans; cases hspans
    | bool b => rw [hs] at hspans; cases hspans
    | num x => rw [hs] at hspans; cases hspans
    | str x => rw [hs] at hspans; cases hspans
    | obj x => rw [hs] at hspans; cases hspans
  | null => cases htrace
  | bool b => cases htrace
  | num x => cases htrace
  | str x => cases htrace
  | arr xs => cases htrace

/-- With exactly one root span in the list, the URL is the value of the last `http.url`
tag of that span. -/
theorem lastRootUrl_of_one_root (pre post : List (JSON K)) (r : JSON K)
    (hr : isRootSpan r = true) (hpre : ∀ x ∈ pre, isRootSpan x = false)
    (hpost : ∀ x ∈ post, isRootSpan x = false) :
    lastRootUrl (pre ++ r :: post) = ((urlTagValues (spanTags r)).getLast?).getD "" := by
  have hnone : ∀ l : List (JSON K), (∀ x ∈ l, isRootSpan x = false) →
      l.filterMap rootUrl = [] := by
    intro l hl
    rw [List.filterMap_eq_nil_iff]
    intro x hx
    simp [rootUrl, hl x hx]
  unfold lastRootUrl
  rw [List.filterMap_append, List.filterMap_cons, hnone pre hpre, hnone post hpost]
  simp only [rootUrl, hr, if_true, List.nil_append]
  cases (urlTagValues (spanTags r)).getLast? <;> simp

end UrlOfTrace

/-! ## Lemmas on `topsis` with finite values -/

section FoldMaxMin

variable {K : Type} [LinearOrderedField K]

theorem ite_lt_eq_max (b x : K) : (if b < x then x else b) = max b x := by
  rcases lt_trichotomy b x with h | h | h
  · rw [if_pos h, max_eq_right (le_of_lt h)]
  · rw [h, if_neg (lt_irrefl x), max_self]
  · rw [if_neg (not_lt_of_lt h), max_eq_left (le_of_lt h)]

theorem ite_lt_eq_min (w x : K) : (if x < w then x else w) = min w x := by
  rcases lt_trichotomy x w with h | h | h
  · rw [if_pos h, min_eq_right (le_of_lt h)]
  · rw [h, if_neg (lt_irrefl w), min_self]
  · rw [if_neg (not_lt_of_lt h), min_eq_left (le_of_lt h)]

theorem le_foldl_max (X : String → K) (ord : List String) (b : K) :
    b ≤ ord.foldl (fun b k => max b (X k)) b
      ∧ ∀ k ∈ ord, X k ≤ ord.foldl (fun b k => max b (X k)) b := by
  induction ord generalizing b with
  | nil => exact ⟨le_refl b, fun k hk => by simp at hk⟩
  | cons a ord ih =>
    rw [List.foldl_cons]
    obtain ⟨h1, h2⟩ := ih (max b (X a))
    refine ⟨le_trans (le_max_left _ _) h1, fun k hk => ?_⟩
    rcases List.mem_cons.mp hk with hk | hk
    · rw [hk]
      exact le_trans (le_max_right _ _) h1
    · exact h2 k hk

theorem foldl_max_le (X : String → K) (ord : List String) (b c : K) (hb : b ≤ c)
    (h : ∀ k ∈ ord, X k ≤ c) : ord.foldl (fun b k => max b (X k)) b ≤ c := by
  induction ord generalizing b with
  | nil => exact hb
  | cons a ord ih =>
    rw [List.foldl_cons]
    exact ih _ (max_le hb (h a (List.mem_cons_self a ord)))
      (fun k hk => h k (List.mem_cons_of_mem a hk))

theorem foldl_max_eq (X : String → K) (ord : List String) (s : String) (b : K)
    (hs : s ∈ ord) (hle : ∀ k ∈ ord, X k ≤ X s) (hb : b ≤ X s) :
    ord.foldl (fun b k => max b (X k)) b = X s :=
  le_antisymm (foldl_max_le X ord b (X s) hb hle) ((le_foldl_max X ord b).2 s hs)

theorem foldl_min_le (X : String → K) (ord : List String) (w : K) :
    ord.foldl (fun w k => min w (X k)) w ≤ w
      ∧ ∀ k ∈ ord, ord.foldl (fun w k => min w (X k)) w ≤ X k := by
  induction ord generalizing w with
  | nil => exact ⟨le_refl w, fun k hk => by simp at hk⟩
  | cons a ord ih =>
    rw [List.foldl_cons]
    obtain ⟨h1, h2⟩ := ih (min w (X a))
    refine ⟨le_trans h1 (min_le_left _ _), fun k hk => ?_⟩
    rcases List.mem_cons.mp hk with hk | hk
    · rw [hk]
      exact le_trans h1 (min_le_right _ _)
    · exact h2 k hk

end FoldMaxMin

section FiniteTopsis

variable {K : Type} [LinearOrderedField K]

theorem sqrt_zero_of_spec (sqrt : K → K)
    (hsqrt : ∀ x, 0 ≤ x → 0 ≤ sqrt x ∧ sqrt x * sqrt x = x) : sqrt 0 = 0 := by
  have h := (hsqrt 0 (le_refl 0)).2
  exact mul_self_eq_zero.mp h

theorem sqrt_pos_of_spec (sqrt : K → K)
    (hsqrt : ∀ x, 0 ≤ x → 0 ≤ sqrt x ∧ sqrt x * sqrt x = x) (x : K) (hx : 0 < x) :
    0 < sqrt x := by
  obtain ⟨h1, h2⟩ := hsqrt x (le_of_lt hx)
  rcases lt_or_eq_of_le h1 with h | h
  · exact h
  · rw [← h, mul_zero] at h2
    exact absurd h2 (ne_of_lt hx)

/-- The first loop of `topsis` on finite values: the sums of the squares. -/
theorem topsisNorms_fold (data : GoMap (topsisArgs K)) (F D : String → K) (ord : List String)
    (h : ∀ k ∈ ord, mget data k = some { frequency := F64.fin (F k), delay := F64.fin (D k) })
    (a b : K) :
    forRange ord (fun _ => mget data)
        (fun (st : F64 K × F64 K) _ value =>
          (st.1 + value.frequency * value.frequency, st.2 + value.delay * value.delay))
        (F64.fin a, F64.fin b)
      = (F64.fin (a + (ord.map (fun k => F k * F k)).sum),
          F64.fin (b + (ord.map (fun k => D k * D k)).sum)) := by
  induction ord generalizing a b with
  | nil => simp [forRange_nil]
  | cons k ord ih =>
    rw [forRange_cons, h k (List.mem_cons_self k ord)]
    simp only [F64.fin_mul_fin, F64.fin_add_fin]
    rw [ih (fun x hx => h x (List.mem_cons_of_mem k hx))]
    simp only [List.map_cons, List.sum_cons, add_assoc]

theorem topsisNorms_fin (sqrt : K → K) (data : GoMap (topsisArgs K)) (F D : String → K)
    (ord : List String)
    (h : ∀ k ∈ ord, mget data k = some { frequency := F64.fin (F k), delay := F64.fin (D k) }) :
    topsisNorms sqrt data ord
      = (F64.fin (sqrt (ord.map (fun k => F k * F k)).sum),
          F64.fin (sqrt (ord.map (fun k => D k * D k)).sum)) := by
  have hF : 0 ≤ (ord.map (fun k => F k * F k)).sum :=
    List.sum_nonneg (fun x hx => by
      obtain ⟨k, _, hk⟩ := List.mem_map.mp hx
      rw [← hk]
      exact mul_self_nonneg _)
  have hD : 0 ≤ (ord.map (fun k => D k * D k)).sum :=
    List.sum_nonneg (fun x hx => by
      obtain ⟨k, _, hk⟩ := List.mem_map.mp hx
      rw [← hk]
      exact mul_self_nonneg _)
  unfold topsisNorms
  rw [F64.zero_def, topsisNorms_fold data F D ord h 0 0]
  simp only [zero_add, F64.sqrtWith_fin, not_lt.mpr hF, not_lt.mpr hD, if_false]

/-- The second loop of `topsis` on finite values with norms that are not zero. -/
theorem topsisWeighted_fold (fn dn : K) (hfn : fn ≠ 0) (hdn : dn ≠ 0) (F D : String → K)
    (ord : List String) (hnd : ord.Nodup) (tc : GoMap (topsisArgs K)) (bx bd : K)
    (h : ∀ k ∈ ord, mget tc k = some { frequency := F64.fin (F k), delay := F64.fin (D k) }) :
    ∃ tc', forRange ord (fun (st : GoMap (topsisArgs K) × F64 K × F64 K) => mget st.1)
        (fun st key value =>
          (mset st.1 key
              { frequency := (value.frequency / F64.fin fn) * freqWeight,
                delay := (value.delay / F64.fin dn) * delayWeight },
            (if st.2.1 < (value.frequency / F64.fin fn) * freqWeight
              then (value.frequency / F64.fin fn) * freqWeight else st.2.1),
            (if st.2.2 < (value.delay / F64.fin dn) * delayWeight
              then (value.delay / F64.fin dn) * delayWeight else st.2.2)))
        (tc, F64.fin bx, F64.fin bd)
      = (tc', F64.fin (ord.foldl (fun b k => max b (F k / fn * (1 / 2))) bx),
          F64.fin (ord.foldl (fun b k => max b (D k / dn * (1 / 2))) bd))
      ∧ ∀ x, mget tc' x
          = if x ∈ ord then
              some { frequency := F64.fin (F x / fn * (1 / 2)),
                     delay := F64.fin (D x / dn * (1 / 2)) }
            else mget tc x := by
  induction ord generalizing tc bx bd with
  | nil => exact ⟨tc, rfl, fun x => by simp⟩
  | cons k ord ih =>
    rw [List.nodup_cons] at hnd
    rw [forRange_cons]
    simp only [h k (List.mem_cons_self k ord)]
    simp only [F64.fin_div_fin_of_ne _ hfn, F64.fin_div_fin_of_ne _ hdn, freqWeight,
      delayWeight, F64.fin_mul_fin, F64.fin_lt_fin]
    rw [← apply_ite F64.fin, ← apply_ite F64.fin, ite_lt_eq_max, ite_lt_eq_max]
    obtain ⟨tc', hfold, hget⟩ := ih hnd.2
      (mset tc k { frequency := F64.fin (F k / fn * (1 / 2)),
                   delay := F64.fin (D k / dn * (1 / 2)) })
      (max bx (F k / fn * (1 / 2))) (max bd (D k / dn * (1 / 2)))
      (fun x hx => by
        have hne : k ≠ x := fun hc => hnd.1 (hc ▸ hx)
        rw [mget_mset_of_ne _ _ hne]
        exact h x (List.mem_cons_of_mem k hx))
    refine ⟨tc', hfold, fun x => ?_⟩
    rw [hget x]
    by_cases hx : x ∈ ord
    · simp [hx]
    · by_cases hxk : x = k
      · subst hxk
        simp [hx, mget_mset_self]
      · simp [hx, hxk, mget_mset_of_ne _ _ (Ne.symm hxk)]

/-- The third loop of `topsis` on finite values. -/
theorem topsisWorst_fold (tc : GoMap (topsisArgs K)) (X Y : String → K) (ord : List String)
    (h : ∀ k ∈ ord, mget tc k = some { frequency := F64.fin (X k), delay := F64.fin (Y k) })
    (wx wy : K) :
    topsisWorst tc (F64.fin wx, F64.fin wy) ord
      = (F64.fin (ord.foldl (fun w k => min w (X k)) wx),
          F64.fin (ord.foldl (fun w k => min w (Y k)) wy)) := by
  unfold topsisWorst
  induction ord generalizing wx wy with
  | nil => rfl
  | cons k ord ih =>
    rw [forRange_cons, h k (List.mem_cons_self k ord)]
    simp only [F64.fin_lt_fin]
    rw [← apply_ite F64.fin, ← apply_ite F64.fin, ite_lt_eq_min, ite_lt_eq_min]
    exact ih (fun x hx => h x (List.mem_cons_of_mem k hx)) _ _

/-- The closeness score of a finite candidate with respect to finite best and worst
points, when the two distances do not both vanish. -/
theorem closeness_fin (sqrt : K → K) (bx bd wx wd x y : K)
    (hne : sqrt ((x - bx) * (x - bx) + (y - bd) * (y - bd))
      + sqrt ((x - wx) * (x - wx) + (y - wd) * (y - wd)) ≠ 0) :
    closeness sqrt (F64.fin bx, F64.fin bd) (F64.fin wx, F64.fin wd)
        { frequency := F64.fin x, delay := F64.fin y }
      = F64.fin (sqrt ((x - wx) * (x - wx) + (y - wd) * (y - wd))
          / (sqrt ((x - bx) * (x - bx) + (y - bd) * (y - bd))
            + sqrt ((x - wx) * (x - wx) + (y - wd) * (y - wd)))) := by
  have hP : ¬ ((x - bx) * (x - bx) + (y - bd) * (y - bd) < 0) :=
    not_lt.mpr (add_nonneg (mul_self_nonneg _) (mul_self_nonneg _))
  have hN : ¬ ((x - wx) * (x - wx) + (y - wd) * (y - wd) < 0) :=
    not_lt.mpr (add_nonneg (mul_self_nonneg _) (mul_self_nonneg _))
  simp only [closeness, F64.fin_sub_fin, F64.fin_mul_fin, F64.fin_add_fin, F64.sqrtWith_fin,
    hP, hN, if_false]
  rw [F64.fin_div_fin_of_ne _ hne]

end FiniteTopsis

/-! ## The scores of a dominant candidate -/

section DominantScores

variable {K : Type} [LinearOrderedField K]

theorem mem_mkeys_of_mget_finalScore (sqrt : K → K) (data : GoMap (topsisArgs K))
    (o : TopsisOrd) (hlen : 2 ≤ data.length) (hscore : o.score.Perm (mkeys data))
    (t : String) (w : F64 K) (h : mget (finalScore sqrt data o) t = some w) :
    t ∈ mkeys data := by
  have h1 : data.length ≠ 1 := by omega
  simp only [finalScore, h1, if_false, mget_topsisScores] at h
  split at h
  · rename_i hmem
    exact hscore.mem_iff.mp hmem
  · cases h

theorem weighted_lt (fn : K) (hfn : 0 < fn) (a b : K) (h : a < b) :
    a / fn * (1 / 2) < b / fn * (1 / 2) :=
  mul_lt_mul_of_pos_right (div_lt_div_of_pos_right h hfn) (by norm_num)

/-- The scores that `topsis` computes when the candidate `s` has a positive frequency
and a positive delay, both strictly greater than those of every other
candidate, all values being finite: `s` has the score 1 and every other
candidate has a score from 0 up to, but not including, 1. -/
theorem finalScore_of_dominant (sqrt : K → K)
    (hsqrt : ∀ x, 0 ≤ x → 0 ≤ sqrt x ∧ sqrt x * sqrt x = x)
    (data : GoMap (topsisArgs K)) (o : TopsisOrd) (hnd : (mkeys data).Nodup)
    (hlen : 2 ≤ data.length)
    (hnorm : o.norm.Perm (mkeys data)) (hbest : o.best.Perm (mkeys data))
    (hworst : o.worst.Perm (mkeys data)) (hscore : o.score.Perm (mkeys data))
    (F D : String → K)
    (hF : ∀ k ∈ mkeys data,
      mget data k = some { frequency := F64.fin (F k), delay := F64.fin (D k) })
    (s : String) (hs : s ∈ mkeys data) (hFs : 0 < F s) (hDs : 0 < D s)
    (hdom : ∀ t ∈ mkeys data, t ≠ s → F t < F s ∧ D t < D s) :
    mget (finalScore sqrt data o) s = some (F64.fin 1)
      ∧ ∀ t ∈ mkeys data, t ≠ s →
          ∃ w, mget (finalScore sqrt data o) t = some (F64.fin w) ∧ 0 ≤ w ∧ w < 1 := by
  -- the norms
  have hsumF : F s * F s ≤ (o.norm.map (fun k => F k * F k)).sum :=
    List.single_le_sum (fun x hx => by
      obtain ⟨k, _, hk⟩ := List.mem_map.mp hx
      rw [← hk]
      exact mul_self_nonneg _) _ (List.mem_map_of_mem _ (hnorm.mem_iff.mpr hs))
  have hsumD : D s * D s ≤ (o.norm.map (fun k => D k * D k)).sum :=
    List.single_le_sum (fun x hx => by
      obtain ⟨k, _, hk⟩ := List.mem_map.mp hx
      rw [← hk]
      exact mul_self_nonneg _) _ (List.mem_map_of_mem _ (hnorm.mem_iff.mpr hs))
  have hfn : 0 < sqrt (o.norm.map (fun k => F k * F k)).sum :=
    sqrt_pos_of_spec sqrt hsqrt _ (lt_of_lt_of_le (mul_pos hFs hFs) hsumF)
  have hdn : 0 < sqrt (o.norm.map (fun k => D k * D k)).sum :=
    sqrt_pos_of_spec sqrt hsqrt _ (lt_of_lt_of_le (mul_pos hDs hDs) hsumD)
  have hn := topsisNorms_fin sqrt data F D o.norm (fun k hk => hF k (hnorm.mem_iff.mp hk))
  generalize sqrt (o.norm.map (fun k => F k * F k)).sum = fn at hfn hn
  generalize sqrt (o.norm.map (fun k => D k * D k)).sum = dn at hdn hn
  -- the weighted normalised values and the best point
  obtain ⟨tc, hfold, hget⟩ := topsisWeighted_fold fn dn (ne_of_gt hfn) (ne_of_gt hdn) F D
    o.best (hbest.nodup_iff.mpr hnd) data 0 0 (fun k hk => hF k (hbest.mem_iff.mp hk))
  have hbx : o.best.foldl (fun b k => max b (F k / fn * (1 / 2))) 0 = F s / fn * (1 / 2) :=
    foldl_max_eq (fun k => F k / fn * (1 / 2)) o.best s 0 (hbest.mem_iff.mpr hs)
      (fun k hk => by
        by_cases hks : k = s
        · rw [hks]
        · exact le_of_lt (weighted_lt fn hfn _ _ (hdom k (hbest.mem_iff.mp hk) hks).1))
      (le_of_lt (mul_pos (div_pos hFs hfn) (by norm_num)))
  have hbd : o.best.foldl (fun b k => max b (D k / dn * (1 / 2))) 0 = D s / dn * (1 / 2) :=
    foldl_max_eq (fun k => D k / dn * (1 / 2)) o.best s 0 (hbest.mem_iff.mpr hs)
      (fun k hk => by
        by_cases hks : k = s
        · rw [hks]
        · exact le_of_lt (weighted_lt dn hdn _ _ (hdom k (hbest.mem_iff.mp hk) hks).2))
      (le_of_lt (mul_pos (div_pos hDs hdn) (by norm_num)))
  rw [hbx, hbd] at hfold
  have hw : topsisWeighted data (F64.fin fn, F64.fin dn) o.best
      = (tc, F64.fin (F s / fn * (1 / 2)), F64.fin (D s / dn * (1 / 2))) := hfold
  have htc : ∀ k ∈ mkeys data, mget tc k
      = some { frequency := F64.fin (F k / fn * (1 / 2)),
               delay := F64.fin (D k / dn * (1 / 2)) } := by
    intro k hk
    rw [hget k, if_pos (hbest.mem_iff.mpr hk)]
  -- the worst point
  have hwo := topsisWorst_fold tc (fun k => F k / fn * (1 / 2)) (fun k => D k / dn * (1 / 2))
    o.worst (fun k hk => htc k (hworst.mem_iff.mp hk)) (F s / fn * (1 / 2))
    (D s / dn * (1 / 2))
  have hwx := foldl_min_le (fun k => F k / fn * (1 / 2)) o.worst (F s / fn * (1 / 2))
  have hwd := foldl_min_le (fun k => D k / dn * (1 / 2)) o.worst (D s / dn * (1 / 2))
  generalize o.worst.foldl (fun w k => min w (F k / fn * (1 / 2))) (F s / fn * (1 / 2)) = wx
    at hwo hwx
  generalize o.worst.foldl (fun w k => min w (D k / dn * (1 / 2))) (D s / dn * (1 / 2)) = wd
    at hwo hwd
  -- the scores
  have h1 : data.length ≠ 1 := by omega
  have hsc : ∀ k ∈ mkeys data, mget (finalScore sqrt data o) k
      = some (closeness sqrt (F64.fin (F s / fn * (1 / 2)), F64.fin (D s / dn * (1 / 2)))
          (F64.fin wx, F64.fin wd)
          { frequency := F64.fin (F k / fn * (1 / 2)),
            delay := F64.fin (D k / dn * (1 / 2)) }) := by
    intro k hk
    simp only [finalScore, h1, if_false, mget_topsisScores, hn, hw, hwo,
      if_pos (hscore.mem_iff.mpr hk), htc k hk, Option.map_some']
  obtain ⟨t0, ht0, ht0s⟩ := exists_other_key data hnd hlen s
  have hwxs : wx < F s / fn * (1 / 2) :=
    lt_of_le_of_lt (hwx.2 t0 (hworst.mem_iff.mpr ht0)) (weighted_lt fn hfn _ _ (hdom t0 ht0 ht0s).1)
  constructor
  · rw [hsc s hs]
    have hNpos : 0 < (F s / fn * (1 / 2) - wx) * (F s / fn * (1 / 2) - wx)
        + (D s / dn * (1 / 2) - wd) * (D s / dn * (1 / 2) - wd) :=
      add_pos_of_pos_of_nonneg (mul_pos (sub_pos.mpr hwxs) (sub_pos.mpr hwxs))
        (mul_self_nonneg _)
    have hN := sqrt_pos_of_spec sqrt hsqrt _ hNpos
    have hP : sqrt ((F s / fn * (1 / 2) - F s / fn * (1 / 2))
        * (F s / fn * (1 / 2) - F s / fn * (1 / 2))
        + (D s / dn * (1 / 2) - D s / dn * (1 / 2))
          * (D s / dn * (1 / 2) - D s / dn * (1 / 2))) = 0 := by
      rw [sub_self, sub_self, mul_zero, add_zero]
      exact sqrt_zero_of_spec sqrt hsqrt
    rw [closeness_fin sqrt _ _ _ _ _ _ (by rw [hP, zero_add]; exact ne_of_gt hN), hP, zero_add,
      div_self (ne_of_gt hN)]
  · intro t ht hts
    rw [hsc t ht]
    have hlt := weighted_lt fn hfn _ _ (hdom t ht hts).1
    have hPpos : 0 < (F t / fn * (1 / 2) - F s / fn * (1 / 2))
        * (F t / fn * (1 / 2) - F s / fn * (1 / 2))
        + (D t / dn * (1 / 2) - D s / dn * (1 / 2))
          * (D t / dn * (1 / 2) - D s / dn * (1 / 2)) :=
      add_pos_of_pos_of_nonneg (mul_pos_of_neg_of_neg (sub_neg.mpr hlt) (sub_neg.mpr hlt))
        (mul_self_nonneg _)
    have hP := sqrt_pos_of_spec sqrt hsqrt _ hPpos
    have hN := (hsqrt ((F t / fn * (1 / 2) - wx) * (F t / fn * (1 / 2) - wx)
        + (D t / dn * (1 / 2) - wd) * (D t / dn * (1 / 2) - wd))
      (add_nonneg (mul_self_nonneg _) (mul_self_nonneg _))).1
    have hsum := add_pos_of_pos_of_nonneg hP hN
    rw [closeness_fin sqrt _ _ _ _ _ _ (ne_of_gt hsum)]
    refine ⟨_, rfl, div_nonneg hN (le_of_lt hsum), ?_⟩
    rw [div_lt_one hsum]
    exact lt_add_of_pos_left _ hP

theorem finite_values_of_wellformed (data : GoMap (topsisArgs K))
    (hwf : ∀ k v, mget data k = some v →
      ∃ f d, v = { frequency := F64.fin f, delay := F64.fin d } ∧ 1 ≤ f ∧ 0 ≤ d) :
    ∀ k ∈ mkeys data,
      mget data k
        = some { frequency := F64.fin (freqK data k), delay := F64.fin (delayK data k) } := by
  intro k hk
  rw [← mget_isSome_iff] at hk
  cases hg : mget data k with
  | none => rw [hg] at hk; cases hk
  | some v =>
    obtain ⟨f, d, hv, _, _⟩ := hwf k v hg
    subst hv
    simp [freqK, delayK, hg, F64.toK]

end DominantScores

/-! ## Lemmas on the closeness score of the specification -/

namespace F64

variable {K : Type} [LinearOrderedField K]

theorem foldl_add (l : List (F64 K)) (a : F64 K) :
    l.foldl (fun a b => a + b) a = a + l.foldl (fun a b => a + b) (fin 0) := by
  induction l generalizing a with
  | nil =>
    simp only [List.foldl_nil]
    rw [add_comm', fin_zero_add]
  | cons x l ih =>
    simp only [List.foldl_cons]
    rw [ih (a + x), ih (fin 0 + x), fin_zero_add, add_assoc']

theorem sum_cons (x : F64 K) (l : List (F64 K)) : F64.sum (x :: l) = x + F64.sum l := by
  unfold F64.sum
  rw [List.foldl_cons, zero_def, fin_zero_add, foldl_add]

theorem zero_le_mul_self {x : F64 K} (h : (0 : F64 K) ≤ x) : (0 : F64 K) ≤ x * x := by
  rw [zero_def, le_iff] at *
  cases x with
  | nan => cases h
  | ninf => cases h
  | pinf => trivial
  | fin a => exact mul_self_nonneg a

theorem pinf_add_of_zero_le {x : F64 K} (h : (0 : F64 K) ≤ x) : pinf + x = pinf := by
  rw [zero_def, le_iff] at h
  cases x with
  | nan => cases h
  | ninf => cases h
  | pinf => rfl
  | fin a => rfl

theorem add_pinf_of_zero_le {x : F64 K} (h : (0 : F64 K) ≤ x) : x + pinf = pinf := by
  rw [add_comm', pinf_add_of_zero_le h]

theorem zero_le_sum_squares (l : List (F64 K)) (h : ∀ x ∈ l, (0 : F64 K) ≤ x) :
    (0 : F64 K) ≤ F64.sum (l.map (fun x => x * x)) :=
  zero_le_sum _ (fun d hd => by
    obtain ⟨x, hx, hxd⟩ := List.mem_map.mp hd
    rw [← hxd]
    exact zero_le_mul_self (h x hx))

/-- The sum of the squares of a vector without negative components is +Inf as soon as
one component is +Inf. -/
theorem sum_squares_pinf (l : List (F64 K)) (h : ∀ x ∈ l, (0 : F64 K) ≤ x)
    (hp : pinf ∈ l) : F64.sum (l.map (fun x => x * x)) = pinf := by
  induction l with
  | nil => simp at hp
  | cons x l ih =>
    rw [List.map_cons, sum_cons]
    have hl := zero_le_sum_squares l (fun y hy => h y (List.mem_cons_of_mem x hy))
    rcases List.mem_cons.mp hp with hx | hx
    · rw [← hx, pinf_mul_pinf, pinf_add_of_zero_le hl]
    · rw [ih (fun y hy => h y (List.mem_cons_of_mem x hy)) hx]
      exact add_pinf_of_zero_le (zero_le_mul_self (h x (List.mem_cons_self x l)))

/-- The sum of the squares of a vector of finite components. -/
theorem sum_squares_map_fin {α : Type} (f : α → K) (l : List α) :
    F64.sum ((l.map (fun a => fin (f a))).map (fun x => x * x))
      = fin ((l.map (fun a => f a * f a)).sum) := by
  induction l with
  | nil => rfl
  | cons a l ih =>
    rw [List.map_cons, List.map_cons, sum_cons, ih, fin_mul_fin, fin_add_fin]
    rfl

theorem ne_nan_of_div_ne_nan {a b : F64 K} (h : a / b ≠ nan) : a ≠ nan ∧ b ≠ nan := by
  constructor
  · intro hc
    rw [hc] at h
    exact h (nan_div b)
  · intro hc
    rw [hc] at h
    exact h (div_nan a)

theorem ne_nan_of_add_ne_nan {a b : F64 K} (h : a + b ≠ nan) : a ≠ nan ∧ b ≠ nan := by
  constructor
  · intro hc
    rw [hc] at h
    exact h (nan_add b)
  · intro hc
    rw [hc] at h
    exact h (add_nan a)

theorem ne_nan_of_sub_ne_nan {a b : F64 K} (h : a - b ≠ nan) : a ≠ nan ∧ b ≠ nan := by
  constructor
  · intro hc
    rw [hc] at h
    exact h (nan_sub b)
  · intro hc
    rw [hc] at h
    exact h (sub_nan a)

theorem ne_nan_of_mul_ne_nan {a b : F64 K} (h : a * b ≠ nan) : a ≠ nan ∧ b ≠ nan := by
  constructor
  · intro hc
    rw [hc] at h
    exact h (nan_mul b)
  · intro hc
    rw [hc] at h
    exact h (mul_nan a)

theorem ne_nan_of_sqrtWith_ne_nan (sqrt : K → K) {a : F64 K} (h : sqrtWith sqrt a ≠ nan) :
    a ≠ nan := by
  intro hc
  rw [hc] at h
  exact h rfl

theorem ne_nan_of_lt {a b : F64 K} (h : a < b) : b ≠ nan := by
  intro hc
  rw [hc] at h
  exact not_lt_nan a h

@[simp] theorem maximum_nan_left (b : F64 K) : maximum nan b = nan := by
  cases b <;> rfl

@[simp] theorem maximum_nan_right (a : F64 K) : maximum a nan = nan := by
  cases a <;> rfl

@[simp] theorem minimum_nan_left (b : F64 K) : minimum nan b = nan := by
  cases b <;> rfl

@[simp] theorem minimum_nan_right (a : F64 K) : minimum a nan = nan := by
  cases a <;> rfl

theorem maximum_fin (a b : K) : maximum (fin a) (fin b) = fin (max a b) := by
  have hdef : maximum (fin a) (fin b) = if fin a < fin b then fin b else fin a := rfl
  rw [hdef]
  by_cases h : a < b
  · rw [if_pos ((fin_lt_fin a b).mpr h), max_eq_right (le_of_lt h)]
  · rw [if_neg (fun hc => h ((fin_lt_fin a b).mp hc)), max_eq_left (not_lt.mp h)]

theorem minimum_fin (a b : K) : minimum (fin a) (fin b) = fin (min a b) := by
  have hdef : minimum (fin a) (fin b) = if fin b < fin a then fin b else fin a := rfl
  rw [hdef]
  by_cases h : b < a
  · rw [if_pos ((fin_lt_fin b a).mpr h), min_eq_right (le_of_lt h)]
  · rw [if_neg (fun hc => h ((fin_lt_fin b a).mp hc)), min_eq_left (not_lt.mp h)]

theorem foldl_maximum_nan (l : List (F64 K)) : l.foldl maximum nan = nan := by
  induction l with
  | nil => rfl
  | cons x l ih => rw [List.foldl_cons, maximum_nan_left, ih]

theorem foldl_minimum_nan (l : List (F64 K)) : l.foldl minimum nan = nan := by
  induction l with
  | nil => rfl
  | cons x l ih => rw [List.foldl_cons, minimum_nan_left, ih]

theorem ne_nan_of_foldl_maximum (l : List (F64 K)) (a : F64 K)
    (h : l.foldl maximum a ≠ nan) : a ≠ nan ∧ ∀ x ∈ l, x ≠ nan := by
  induction l generalizing a with
  | nil => exact ⟨h, fun x hx => by simp at hx⟩
  | cons y l ih =>
    rw [List.foldl_cons] at h
    obtain ⟨h1, h2⟩ := ih _ h
    have ha : a ≠ nan := fun hc => h1 (by rw [hc, maximum_nan_left])
    have hy : y ≠ nan := fun hc => h1 (by rw [hc, maximum_nan_right])
    refine ⟨ha, fun x hx => ?_⟩
    rcases List.mem_cons.mp hx with hx | hx
    · rw [hx]; exact hy
    · exact h2 x hx

end F64

section SpecLemmas

variable {K : Type} [LinearOrderedField K]

theorem ne_nan_of_specMaximum (l : List (F64 K)) (h : specMaximum l ≠ F64.nan) :
    ∀ x ∈ l, x ≠ F64.nan := by
  cases l with
  | nil => exact fun x hx => by simp at hx
  | cons a l =>
    obtain ⟨h1, h2⟩ := F64.ne_nan_of_foldl_maximum l a h
    intro x hx
    rcases List.mem_cons.mp hx with hx | hx
    · rw [hx]; exact h1
    · exact h2 x hx

theorem specMaximum_map_fin (X : String → K) (k : String) (ks : List String) :
    specMaximum ((k :: ks).map (fun k => F64.fin (X k)))
      = F64.fin (ks.foldl (fun b k => max b (X k)) (X k)) := by
  show (ks.map (fun k => F64.fin (X k))).foldl F64.maximum (F64.fin (X k)) = _
  generalize X k = b
  induction ks generalizing b with
  | nil => rfl
  | cons a ks ih =>
    rw [List.map_cons, List.foldl_cons, List.foldl_cons, F64.maximum_fin]
    exact ih _

theorem specMinimum_map_fin (X : String → K) (k : String) (ks : List String) :
    specMinimum ((k :: ks).map (fun k => F64.fin (X k)))
      = F64.fin (ks.foldl (fun b k => min b (X k)) (X k)) := by
  show (ks.map (fun k => F64.fin (X k))).foldl F64.minimum (F64.fin (X k)) = _
  generalize X k = b
  induction ks generalizing b with
  | nil => rfl
  | cons a ks ih =>
    rw [List.map_cons, List.foldl_cons, List.foldl_cons, F64.minimum_fin]
    exact ih _

end SpecLemmas

/-! ## The scores of `topsis` and the scores of the specification -/

section FiniteValues

variable {K : Type}

/-- The frequencies and the delays of a candidate map with finite values. -/
theorem values_of_finite (data : GoMap (topsisArgs K)) (hnd : (mkeys data).Nodup)
    (F D : String → K)
    (hF : ∀ k ∈ mkeys data,
      mget data k = some { frequency := F64.fin (F k), delay := F64.fin (D k) }) :
    data.map (fun e => e.2.frequency) = (mkeys data).map (fun k => F64.fin (F k))
      ∧ data.map (fun e => e.2.delay) = (mkeys data).map (fun k => F64.fin (D k)) := by
  have h : ∀ e ∈ data, e.2 = { frequency := F64.fin (F e.1), delay := F64.fin (D e.1) } := by
    intro e he
    have h1 := mget_of_mem_nodup data hnd e.1 e.2 he
    rw [hF e.1 (List.mem_map_of_mem Prod.fst he)] at h1
    injection h1 with h1
    exact h1.symm
  unfold mkeys
  rw [List.map_map, List.map_map]
  constructor
  · exact List.map_congr_left (fun e he => by rw [h e he]; rfl)
  · exact List.map_congr_left (fun e he => by rw [h e he]; rfl)

end FiniteValues

section SpecScoreFinite

variable {K : Type} [LinearOrderedField K]

theorem le_foldl_min (X : String → K) (ord : List String) (w c : K) (hw : c ≤ w)
    (h : ∀ k ∈ ord, c ≤ X k) : c ≤ ord.foldl (fun w k => min w (X k)) w := by
  induction ord generalizing w with
  | nil => exact hw
  | cons a ord ih =>
    rw [List.foldl_cons]
    exact ih _ (le_min hw (h a (List.mem_cons_self a ord)))
      (fun k hk => h k (List.mem_cons_of_mem a hk))

/-- The running maximum started at 0 is the maximum of the values when one of them is
not negative. -/
theorem foldl_max_zero_eq (X : String → K) (ord : List String) (k0 : String)
    (ks : List String) (hmem : ∀ k, k ∈ ord ↔ k ∈ k0 :: ks) (h0 : 0 ≤ X k0) :
    ord.foldl (fun b k => max b (X k)) 0 = ks.foldl (fun b k => max b (X k)) (X k0) := by
  have hs := le_foldl_max X ks (X k0)
  have hc := le_foldl_max X ord 0
  apply le_antisymm
  · refine foldl_max_le X ord 0 _ (le_trans h0 hs.1) (fun k hk => ?_)
    rcases List.mem_cons.mp ((hmem k).mp hk) with hk | hk
    · rw [hk]
      exact hs.1
    · exact hs.2 k hk
  · exact foldl_max_le X ks (X k0) _ (hc.2 k0 ((hmem k0).mpr (List.mem_cons_self k0 ks)))
      (fun k hk => hc.2 k ((hmem k).mpr (List.mem_cons_of_mem k0 hk)))

/-- The running minimum started at a value that is at least the minimum of the values
is the minimum of the values. -/
theorem foldl_min_seed_eq (X : String → K) (ord : List String) (k0 : String)
    (ks : List String) (hmem : ∀ k, k ∈ ord ↔ k ∈ k0 :: ks) (b : K)
    (hb : ks.foldl (fun w k => min w (X k)) (X k0) ≤ b) :
    ord.foldl (fun w k => min w (X k)) b = ks.foldl (fun w k => min w (X k)) (X k0) := by
  have hs := foldl_min_le X ks (X k0)
  have hc := foldl_min_le X ord b
  apply le_antisymm
  · exact le_foldl_min X ks (X k0) _ (hc.2 k0 ((hmem k0).mpr (List.mem_cons_self k0 ks)))
      (fun k hk => hc.2 k ((hmem k).mpr (List.mem_cons_of_mem k0 hk)))
  · refine le_foldl_min X ord b _ hb (fun k hk => ?_)
    rcases List.mem_cons.mp ((hmem k).mp hk) with hk | hk
    · rw [hk]
      exact hs.1
    · exact hs.2 k hk

theorem specNorm_map_fin (sqrt : K → K) (F : String → K) (ks : List String) :
    specNorm sqrt (ks.map (fun k => F64.fin (F k)))
      = F64.fin (sqrt (ks.map (fun k => F k * F k)).sum) := by
  have hF : 0 ≤ (ks.map (fun k => F k * F k)).sum :=
    List.sum_nonneg (fun x hx => by
      obtain ⟨k, _, hk⟩ := List.mem_map.mp hx
      rw [← hk]
      exact mul_self_nonneg _)
  unfold specNorm
  rw [F64.sum_squares_map_fin F ks, F64.sqrtWith_fin, if_neg (not_lt.mpr hF)]

theorem specWeighted_fin (sqrt : K → K) (l : List (F64 K)) (fn : K) (hfn : fn ≠ 0)
    (hn : specNorm sqrt l = F64.fin fn) (a : K) :
    specWeighted sqrt l (F64.fin a) = F64.fin (a / fn * (1 / 2)) := by
  unfold specWeighted
  rw [hn, F64.fin_div_fin_of_ne _ hfn, F64.fin_mul_fin]

/-- On a candidate map with finite values, none of them negative, and norms that are
not zero, the scores that `topsis` computes are the scores of the
specification, whatever the visiting orders. -/
theorem finalScore_eq_specScore (sqrt : K → K)
    (data : GoMap (topsisArgs K)) (o : TopsisOrd) (hnd : (mkeys data).Nodup)
    (hlen : 2 ≤ data.length)
    (hnorm : o.norm.Perm (mkeys data)) (hbest : o.best.Perm (mkeys data))
    (hworst : o.worst.Perm (mkeys data)) (hscore : o.score.Perm (mkeys data))
    (F D : String → K)
    (hF : ∀ k ∈ mkeys data,
      mget data k = some { frequency := F64.fin (F k), delay := F64.fin (D k) })
    (hF0 : ∀ k ∈ mkeys data, 0 ≤ F k ∧ 0 ≤ D k)
    (fn dn : K) (hfn : fn = sqrt ((mkeys data).map (fun k => F k * F k)).sum)
    (hdn : dn = sqrt ((mkeys data).map (fun k => D k * D k)).sum)
    (hfpos : 0 < fn) (hdpos : 0 < dn) :
    ∀ k ∈ mkeys data, mget (finalScore sqrt data o) k = specScore sqrt data k := by
  -- the keys
  obtain ⟨k0, ks, hks⟩ : ∃ k0 ks, mkeys data = k0 :: ks := by
    cases hd : mkeys data with
    | nil =>
      have : data.length = 0 := by
        have := congrArg List.length hd
        simpa [mkeys] using this
      omega
    | cons k0 ks => exact ⟨k0, ks, rfl⟩
  have hk0 : k0 ∈ mkeys data := by rw [hks]; exact List.mem_cons_self k0 ks
  -- the norms of the code
  have hn := topsisNorms_fin sqrt data F D o.norm (fun k hk => hF k (hnorm.mem_iff.mp hk))
  rw [(hnorm.map (fun k => F k * F k)).sum_eq, (hnorm.map (fun k => D k * D k)).sum_eq,
    ← hfn, ← hdn] at hn
  -- the weighted normalised values and the best point of the code
  obtain ⟨tc, hfold, hget⟩ := topsisWeighted_fold fn dn (ne_of_gt hfpos) (ne_of_gt hdpos) F D
    o.best (hbest.nodup_iff.mpr hnd) data 0 0 (fun k hk => hF k (hbest.mem_iff.mp hk))
  have hmemb : ∀ k, k ∈ o.best ↔ k ∈ k0 :: ks := fun k => by rw [← hks]; exact hbest.mem_iff
  have hmemw : ∀ k, k ∈ o.worst ↔ k ∈ k0 :: ks := fun k => by rw [← hks]; exact hworst.mem_iff
  have hhalf : (0 : K) ≤ 1 / 2 := by norm_num
  have hbx := foldl_max_zero_eq (fun k => F k / fn * (1 / 2)) o.best k0 ks hmemb
    (mul_nonneg (div_nonneg (hF0 k0 hk0).1 (le_of_lt hfpos)) hhalf)
  have hbd := foldl_max_zero_eq (fun k => D k / dn * (1 / 2)) o.best k0 ks hmemb
    (mul_nonneg (div_nonneg (hF0 k0 hk0).2 (le_of_lt hdpos)) hhalf)
  rw [hbx, hbd] at hfold
  have htc : ∀ k ∈ mkeys data, mget tc k
      = some { frequency := F64.fin (F k / fn * (1 / 2)),
               delay := F64.fin (D k / dn * (1 / 2)) } := by
    intro k hk
    rw [hget k, if_pos (hbest.mem_iff.mpr hk)]
  -- the worst point of the code
  have hwo := topsisWorst_fold tc (fun k => F k / fn * (1 / 2)) (fun k => D k / dn * (1 / 2))
    o.worst (fun k hk => htc k (hworst.mem_iff.mp hk))
    (ks.foldl (fun b k => max b (F k / fn * (1 / 2))) (F k0 / fn * (1 / 2)))
    (ks.foldl (fun b k => max b (D k / dn * (1 / 2))) (D k0 / dn * (1 / 2)))
  have hwx := foldl_min_seed_eq (fun k => F k / fn * (1 / 2)) o.worst k0 ks hmemw
    (ks.foldl (fun b k => max b (F k / fn * (1 / 2))) (F k0 / fn * (1 / 2)))
    (le_trans (foldl_min_le (fun k => F k / fn * (1 / 2)) ks (F k0 / fn * (1 / 2))).1
      (le_foldl_max (fun k => F k / fn * (1 / 2)) ks (F k0 / fn * (1 / 2))).1)
  have hwd := foldl_min_seed_eq (fun k => D k / dn * (1 / 2)) o.worst k0 ks hmemw
    (ks.foldl (fun b k => max b (D k / dn * (1 / 2))) (D k0 / dn * (1 / 2)))
    (le_trans (foldl_min_le (fun k => D k / dn * (1 / 2)) ks (D k0 / dn * (1 / 2))).1
      (le_foldl_max (fun k => D k / dn * (1 / 2)) ks (D k0 / dn * (1 / 2))).1)
  simp only [] at hwx hwd
  rw [hwx, hwd] at hwo
  have hw : topsisWeighted data (F64.fin fn, F64.fin dn) o.best
      = (tc, F64.fin (ks.foldl (fun b k => max b (F k / fn * (1 / 2))) (F k0 / fn * (1 / 2))),
          F64.fin (ks.foldl (fun b k => max b (D k / dn * (1 / 2))) (D k0 / dn * (1 / 2)))) :=
    hfold
  -- the values of the specification
  obtain ⟨hfs, hds⟩ := values_of_finite data hnd F D hF
  have hsnF : specNorm sqrt (data.map (fun e => e.2.frequency)) = F64.fin fn := by
    rw [hfs, specNorm_map_fin, ← hfn]
  have hsnD : specNorm sqrt (data.map (fun e => e.2.delay)) = F64.fin dn := by
    rw [hds, specNorm_map_fin, ← hdn]
  have hswF : (data.map (fun e => e.2.frequency)).map
        (specWeighted sqrt (data.map (fun e => e.2.frequency)))
      = (k0 :: ks).map (fun k => F64.fin (F k / fn * (1 / 2))) := by
    rw [← hks]
    conv_lhs => arg 2; rw [hfs]
    rw [List.map_map]
    exact List.map_congr_left (fun k _ =>
      specWeighted_fin sqrt _ fn (ne_of_gt hfpos) hsnF (F k))
  have hswD : (data.map (fun e => e.2.delay)).map
        (specWeighted sqrt (data.map (fun e => e.2.delay)))
      = (k0 :: ks).map (fun k => F64.fin (D k / dn * (1 / 2))) := by
    rw [← hks]
    conv_lhs => arg 2; rw [hds]
    rw [List.map_map]
    exact List.map_congr_left (fun k _ =>
      specWeighted_fin sqrt _ dn (ne_of_gt hdpos) hsnD (D k))
  have hMx := specMaximum_map_fin (fun k => F k / fn * (1 / 2)) k0 ks
  have hMd := specMaximum_map_fin (fun k => D k / dn * (1 / 2)) k0 ks
  have hmx := specMinimum_map_fin (fun k => F k / fn * (1 / 2)) k0 ks
  have hmd := specMinimum_map_fin (fun k => D k / dn * (1 / 2)) k0 ks
  simp only [] at hMx hMd hmx hmd
  -- the scores
  have h1 : data.length ≠ 1 := by omega
  intro k hk
  simp only [finalScore, h1, if_false, mget_topsisScores, hn, hw, hwo,
    if_pos (hscore.mem_iff.mpr hk), htc k hk, Option.map_some']
  simp only [specScore, hswF, hswD, hMx, hMd, hmx, hmd, hF k hk,
    specWeighted_fin sqrt _ fn (ne_of_gt hfpos) hsnF,
    specWeighted_fin sqrt _ dn (ne_of_gt hdpos) hsnD, closeness]

end SpecScoreFinite

/-! ## Candidate maps on which the specification defines a score -/

section SpecDomain

variable {K : Type} [LinearOrderedField K]

theorem F64.fin_of_zero_le_of_ne_pinf {x : F64 K} (h : (0 : F64 K) ≤ x) (hp : x ≠ F64.pinf) :
    ∃ a, x = F64.fin a ∧ 0 ≤ a := by
  rw [F64.zero_def, F64.le_iff] at h
  cases x with
  | nan => cases h
  | ninf => cases h
  | pinf => exact absurd rfl hp
  | fin a => exact ⟨a, rfl, h⟩

/-- A vector without negative components whose weighted normalised values are all
numbers has finite components and a positive norm. -/
theorem finite_of_specWeighted (sqrt : K → K)
    (hsqrt : ∀ x, 0 ≤ x → 0 ≤ sqrt x ∧ sqrt x * sqrt x = x) (l : List (F64 K))
    (hpos : ∀ x ∈ l, (0 : F64 K) ≤ x) (hne : l ≠ [])
    (hw : ∀ x ∈ l, specWeighted sqrt l x ≠ F64.nan) :
    (∀ x ∈ l, ∃ a, x = F64.fin a ∧ 0 ≤ a) ∧ ∃ c, specNorm sqrt l = F64.fin c ∧ 0 < c := by
  have hnp : F64.pinf ∉ l := by
    intro hp
    apply hw F64.pinf hp
    unfold specWeighted specNorm
    rw [F64.sum_squares_pinf l hpos hp, F64.sqrtWith_pinf, F64.pinf_div_pinf, F64.nan_mul]
  have hfin : ∀ x ∈ l, ∃ a, x = F64.fin a ∧ 0 ≤ a := fun x hx =>
    F64.fin_of_zero_le_of_ne_pinf (hpos x hx) (fun hc => hnp (hc ▸ hx))
  refine ⟨hfin, ?_⟩
  have hl : l.map (fun x => F64.fin (F64.toK x)) = l := by
    conv_rhs => rw [← List.map_id l]
    exact List.map_congr_left (fun x hx => by
      obtain ⟨a, ha, _⟩ := hfin x hx
      rw [ha]
      rfl)
  have hS : 0 ≤ (l.map (fun x => F64.toK x * F64.toK x)).sum :=
    List.sum_nonneg (fun y hy => by
      obtain ⟨x, _, hx⟩ := List.mem_map.mp hy
      rw [← hx]
      exact mul_self_nonneg _)
  have hn : specNorm sqrt l = F64.fin (sqrt (l.map (fun x => F64.toK x * F64.toK x)).sum) := by
    unfold specNorm
    conv_lhs => rw [← hl]
    rw [F64.sum_squares_map_fin F64.toK l, F64.sqrtWith_fin, if_neg (not_lt.mpr hS)]
  refine ⟨_, hn, ?_⟩
  obtain ⟨hs1, hs2⟩ := hsqrt _ hS
  rcases lt_or_eq_of_le hs1 with h | h
  · exact h
  · exfalso
    rw [← h, mul_zero] at hs2
    obtain ⟨x, hx⟩ := List.exists_mem_of_ne_nil l hne
    obtain ⟨a, ha, _⟩ := hfin x hx
    have hle : F64.toK x * F64.toK x ≤ (l.map (fun x => F64.toK x * F64.toK x)).sum :=
      List.single_le_sum (fun y hy => by
        obtain ⟨z, _, hz⟩ := List.mem_map.mp hy
        rw [← hz]
        exact mul_self_nonneg _) _ (List.mem_map_of_mem _ hx)
    rw [← hs2] at hle
    have ha0 : a = 0 := by
      have h2 : F64.toK x * F64.toK x = 0 := le_antisymm hle (mul_self_nonneg _)
      rw [ha] at h2
      exact mul_self_eq_zero.mp h2
    apply hw x hx
    unfold specWeighted
    rw [hn, ← h, ha, ha0, F64.fin_zero_div_fin_zero, F64.nan_mul]

/-- A score of the specification is the score of a candidate of the map. -/
theorem specScore_isSome (sqrt : K → K) (data : GoMap (topsisArgs K)) (k : String) :
    (∃ v, specScore sqrt data k = some v) ↔ k ∈ mkeys data := by
  rw [← mget_isSome_iff]
  unfold specScore
  cases mget data k with
  | none => simp
  | some c => simp

/-- A score of the specification that is a number is computed from a best point whose
components are numbers. -/
theorem specScore_ne_nan (sqrt : K → K) (data : GoMap (topsisArgs K)) (k : String)
    (v : F64 K) (h : specScore sqrt data k = some v) (hv : v ≠ F64.nan) :
    specMaximum ((data.map (fun e => e.2.frequency)).map
        (specWeighted sqrt (data.map (fun e => e.2.frequency)))) ≠ F64.nan
      ∧ specMaximum ((data.map (fun e => e.2.delay)).map
        (specWeighted sqrt (data.map (fun e => e.2.delay)))) ≠ F64.nan := by
  unfold specScore at h
  cases hg : mget data k with
  | none =>
    rw [hg] at h
    cases h
  | some c =>
    rw [hg] at h
    simp only [Option.some.injEq] at h
    rw [← h] at hv
    have h1 := (F64.ne_nan_of_add_ne_nan (F64.ne_nan_of_div_ne_nan hv).2).1
    have h2 := F64.ne_nan_of_add_ne_nan (F64.ne_nan_of_sqrtWith_ne_nan sqrt h1)
    exact ⟨(F64.ne_nan_of_sub_ne_nan (F64.ne_nan_of_mul_ne_nan h2.1).1).2,
      (F64.ne_nan_of_sub_ne_nan (F64.ne_nan_of_mul_ne_nan h2.2).1).2⟩

/-- When the specification gives one candidate a score that is a number, on a
candidate map without negative values, all values are finite and both norms are
positive. -/
theorem finite_of_specScore (sqrt : K → K)
    (hsqrt : ∀ x, 0 ≤ x → 0 ≤ sqrt x ∧ sqrt x * sqrt x = x)
    (data : GoMap (topsisArgs K)) (hnd : (mkeys data).Nodup)
    (hpos : ∀ k c, mget data k = some c → (0 : F64 K) ≤ c.frequency ∧ (0 : F64 K) ≤ c.delay)
    (k : String) (v : F64 K) (h : specScore sqrt data k = some v) (hv : v ≠ F64.nan) :
    (∀ k ∈ mkeys data,
        mget data k
          = some { frequency := F64.fin (freqK data k), delay := F64.fin (delayK data k) })
      ∧ (∀ k ∈ mkeys data, 0 ≤ freqK data k ∧ 0 ≤ delayK data k)
      ∧ 0 < sqrt ((mkeys data).map (fun k => freqK data k * freqK data k)).sum
      ∧ 0 < sqrt ((mkeys data).map (fun k => delayK data k * delayK data k)).sum := by
  obtain ⟨hMf, hMd⟩ := specScore_ne_nan sqrt data k v h hv
  have hdne : data ≠ [] := by
    intro hc
    rw [hc] at h
    cases h
  have hposF : ∀ x ∈ data.map (fun e => e.2.frequency), (0 : F64 K) ≤ x := by
    intro x hx
    obtain ⟨e, he, hex⟩ := List.mem_map.mp hx
    rw [← hex]
    exact (hpos e.1 e.2 (mget_of_mem_nodup data hnd e.1 e.2 he)).1
  have hposD : ∀ x ∈ data.map (fun e => e.2.delay), (0 : F64 K) ≤ x := by
    intro x hx
    obtain ⟨e, he, hex⟩ := List.mem_map.mp hx
    rw [← hex]
    exact (hpos e.1 e.2 (mget_of_mem_nodup data hnd e.1 e.2 he)).2
  obtain ⟨hfinF, cF, hnF, hcF⟩ := finite_of_specWeighted sqrt hsqrt _ hposF
    (fun hc => hdne (List.map_eq_nil_iff.mp hc))
    (fun x hx => ne_nan_of_specMaximum _ hMf _ (List.mem_map_of_mem _ hx))
  obtain ⟨hfinD, cD, hnD, hcD⟩ := finite_of_specWeighted sqrt hsqrt _ hposD
    (fun hc => hdne (List.map_eq_nil_iff.mp hc))
    (fun x hx => ne_nan_of_specMaximum _ hMd _ (List.mem_map_of_mem _ hx))
  have hF : ∀ k ∈ mkeys data,
      mget data k
        = some { frequency := F64.fin (freqK data k), delay := F64.fin (delayK data k) }
      ∧ 0 ≤ freqK data k ∧ 0 ≤ delayK data k := by
    intro x hx
    rw [← mget_isSome_iff] at hx
    cases hg : mget data x with
    | none => rw [hg] at hx; cases hx
    | some c =>
      have hmem := mem_of_mget hg
      obtain ⟨a, ha, ha0⟩ := hfinF c.frequency
        (List.mem_map_of_mem (fun e : String × topsisArgs K => e.2.frequency) hmem)
      obtain ⟨b, hb, hb0⟩ := hfinD c.delay
        (List.mem_map_of_mem (fun e : String × topsisArgs K => e.2.delay) hmem)
      obtain ⟨f, d⟩ := c
      simp only at ha hb
      subst ha
      subst hb
      simp [freqK, delayK, hg, F64.toK, ha0, hb0]
  obtain ⟨hfs, hds⟩ := values_of_finite data hnd (freqK data) (delayK data)
    (fun x hx => (hF x hx).1)
  rw [hfs, specNorm_map_fin] at hnF
  rw [hds, specNorm_map_fin] at hnD
  injection hnF with hnF
  injection hnD with hnD
  refine ⟨fun x hx => (hF x hx).1, fun x hx => (hF x hx).2, ?_, ?_⟩
  · rw [hnF]; exact hcF
  · rw [hnD]; exact hcD

end SpecDomain

/-! ## Single candidate and the observation of a trace -/

section SingleAndObservation

variable {K : Type} [LinearOrderedField K]

/-- C5: a candidate map with exactly one entry makes `topsis` return that entry's
service name, whatever the frequency and the delay of the entry are. -/
theorem topsis_single_candidate (sqrt : K → K) (k : String) (v : topsisArgs K) (o : TopsisOrd)
    (ho : o.single.Perm (mkeys [(k, v)])) : topsis sqrt [(k, v)] o = some k :=
  topsis_singleton sqrt k v o ho

theorem topsis_single_candidate_witness :
    ({ single := ["A"], norm := ["A"], best := ["A"], worst := ["A"], score := ["A"],
        pick := ["A"] } : TopsisOrd).single.Perm
        (mkeys [("A", ({ frequency := F64.fin 0, delay := F64.fin (-1) } : topsisArgs ℚ))])
      ∧ topsis (fun x : ℚ => x) [("A", { frequency := F64.fin 0, delay := F64.fin (-1) })]
          { single := ["A"], norm := ["A"], best := ["A"], worst := ["A"], score := ["A"],
            pick := ["A"] } = some "A" :=
  ⟨List.Perm.refl _, topsis_single_candidate _ _ _ _ (List.Perm.refl _)⟩

end SingleAndObservation

/-! ## The candidate with the strictly greatest score wins -/

section StrictMaxScore

variable {K : Type} [LinearOrderedField K]

theorem exCandidatesAB_specScore :
    specScore Real.sqrt (exCandidatesAB ℝ) "B" = some (F64.fin 1)
      ∧ specScore Real.sqrt (exCandidatesAB ℝ) "A" = some (F64.fin 0) := by
  have h25 : Real.sqrt 25 = 5 := by
    rw [show (25 : ℝ) = 5 * 5 by norm_num]
    exact Real.sqrt_mul_self (by norm_num)
  have hn : specNorm Real.sqrt [(F64.fin 3 : F64 ℝ), F64.fin 4] = F64.fin 5 := by
    have h := specNorm_map_fin Real.sqrt (fun k => if k = "A" then (3 : ℝ) else 4) ["A", "B"]
    simp only [List.map_cons, List.map_nil, List.sum_cons, List.sum_nil, if_true] at h
    rw [if_neg (by decide)] at h
    rw [h]
    norm_num [h25]
  have hw3 : specWeighted Real.sqrt [(F64.fin 3 : F64 ℝ), F64.fin 4] (F64.fin 3)
      = F64.fin (3 / 10) := by
    rw [specWeighted_fin Real.sqrt _ 5 (by norm_num) hn]
    norm_num
  have hw4 : specWeighted Real.sqrt [(F64.fin 3 : F64 ℝ), F64.fin 4] (F64.fin 4)
      = F64.fin (4 / 10) := by
    rw [specWeighted_fin Real.sqrt _ 5 (by norm_num) hn]
    norm_num
  have hM : specMaximum [(F64.fin (3 / 10) : F64 ℝ), F64.fin (4 / 10)] = F64.fin (4 / 10) := by
    have h : specMaximum [(F64.fin (3 / 10) : F64 ℝ), F64.fin (4 / 10)]
        = F64.maximum (F64.fin (3 / 10)) (F64.fin (4 / 10)) := rfl
    rw [h, F64.maximum_fin]
    norm_num
  have hm : specMinimum [(F64.fin (3 / 10) : F64 ℝ), F64.fin (4 / 10)] = F64.fin (3 / 10) := by
    have h : specMinimum [(F64.fin (3 / 10) : F64 ℝ), F64.fin (4 / 10)]
        = F64.minimum (F64.fin (3 / 10)) (F64.fin (4 / 10)) := rfl
    rw [h, F64.minimum_fin]
    norm_num
  have hpos : (0 : ℝ) < Real.sqrt ((4 / 10 - 3 / 10) * (4 / 10 - 3 / 10)
      + (4 / 10 - 3 / 10) * (4 / 10 - 3 / 10)) := Real.sqrt_pos.mpr (by norm_num)
  have hsq : ¬ ((4 / 10 - 3 / 10 : ℝ) * (4 / 10 - 3 / 10)
      + (4 / 10 - 3 / 10) * (4 / 10 - 3 / 10) < 0) := by norm_num
  have hsq2 : ¬ ((3 / 10 - 4 / 10 : ℝ) * (3 / 10 - 4 / 10)
      + (3 / 10 - 4 / 10) * (3 / 10 - 4 / 10) < 0) := by norm_num
  have hpos2 : (0 : ℝ) < Real.sqrt ((3 / 10 - 4 / 10) * (3 / 10 - 4 / 10)
      + (3 / 10 - 4 / 10) * (3 / 10 - 4 / 10)) := Real.sqrt_pos.mpr (by norm_num)
  constructor
  · simp only [specScore, exCandidatesAB, List.map_cons, List.map_nil, mget_cons, hw3, hw4, hM,
      hm]
    rw [if_neg (by decide), if_pos trivial]
    simp only [hw4, F64.fin_sub_fin, F64.fin_mul_fin, F64.fin_add_fin, F64.sqrtWith_fin,
      sub_self, mul_zero, add_zero, lt_irrefl, if_false, Real.sqrt_zero, hsq, zero_add]
    rw [F64.fin_div_fin_of_ne _ (ne_of_gt hpos), div_self (ne_of_gt hpos)]
  · simp only [specScore, exCandidatesAB, List.map_cons, List.map_nil, mget_cons, hw3, hw4, hM,
      hm]
    rw [if_pos trivial]
    simp only [hw3, F64.fin_sub_fin, F64.fin_mul_fin, F64.fin_add_fin, F64.sqrtWith_fin,
      sub_self, mul_zero, add_zero, lt_irrefl, if_false, Real.sqrt_zero, hsq2]
    rw [F64.fin_div_fin_of_ne _ (ne_of_gt hpos2), zero_div]

end StrictMaxScore

/-! ## Frequencies and mean delays of the candidates -/

section CandidateMap

variable {K : Type} [LinearOrderedField K]

/-- C2: in the candidate map that `aggregateResults` builds from the observations of
one URL, a service that occurs in the list has as frequency the number of its
observations and as delay the arithmetic mean of their delays, and a service
that does not occur has no entry. -/
theorem aggregateUrl_frequency_and_mean (obs : List (bottleneckInfo K)) (s : String) :
    (s ∈ obs.map (fun e => e.bottleneck) →
        mget (aggregateUrl obs) s
          = some { frequency := F64.fin ((delaysOf obs s).length : K),
                   delay := meanDelay (delaysOf obs s) })
      ∧ (s ∉ obs.map (fun e => e.bottleneck) → mget (aggregateUrl obs) s = none) := by
  rw [mget_aggregateUrl]
  constructor
  · intro h
    rw [if_neg (fun hc => (delaysOf_eq_nil_iff obs s).mp hc h)]
  · intro h
    rw [if_pos ((delaysOf_eq_nil_iff obs s).mpr h)]

theorem aggregateUrl_frequency_and_mean_witness :
    mget (aggregateUrl exObsA) "A" = some { frequency := F64.fin 2, delay := F64.fin 15 } := by
  have h := (aggregateUrl_frequency_and_mean exObsA "A").1 (by decide)
  rw [h]
  simp [delaysOf, exObsA, meanDelay, F64.sum]
  norm_num

/-- C10: the candidate map of a URL does not depend on the order of the URL's
observation list: permuting the list leaves every service's entry (frequency
and mean delay) unchanged. -/
theorem aggregateUrl_perm (obs obs' : List (bottleneckInfo K)) (h : obs.Perm obs')
    (s : String) : mget (aggregateUrl obs) s = mget (aggregateUrl obs') s := by
  have hp := delaysOf_perm h s
  rw [mget_aggregateUrl, mget_aggregateUrl, meanDelay, meanDelay, F64.sum_perm hp,
    hp.length_eq]
  by_cases hnil : delaysOf obs' s = []
  · have hnil' : delaysOf obs s = [] := List.Perm.eq_nil (hnil ▸ hp)
    rw [if_pos hnil, if_pos hnil']
  · have hnil' : ¬ delaysOf obs s = [] := by
      intro hc
      rw [hc] at hp
      exact hnil (List.Perm.eq_nil hp.symm)
    rw [if_neg hnil, if_neg hnil']

theorem aggregateUrl_perm_witness :
    exObsPerm1.Perm exObsPerm2
      ∧ mget (aggregateUrl exObsPerm1) "A" = mget (aggregateUrl exObsPerm2) "A"
      ∧ mget (aggregateUrl exObsPerm1) "A"
          = some { frequency := F64.fin 3, delay := F64.fin (20 / 3) } := by
  have hp : exObsPerm1.Perm exObsPerm2 := by decide
  refine ⟨hp, aggregateUrl_perm exObsPerm1 exObsPerm2 hp "A", ?_⟩
  rw [mget_aggregateUrl]
  simp [delaysOf, exObsPerm1, meanDelay, F64.sum]
  norm_num

end CandidateMap

/-! ## Evaluations: two children, tied candidates, zero delays -/

section Evaluations

/-- C1: for the trace with parent `P` (duration 100) and children `C1` (30) and `C2`
(20), visited in the order `P`, `C1`, `C2`, the reduction loop leaves `P` with
processing time `100 - 20 = 80`, so processing time plus the children's
durations is 130 and not the parent's duration 100; the recorded observation
carries the delay 80. -/
theorem reduceSpans_two_children :
    (parseTrace exParseFloat exTraceTwoChildren exOrdTwoChildren.procs).map
        (fun p => (mget (reduceSpans p.2.1 exOrdTwoChildren.reduce) "P").map
          (fun n => (n.duration, n.processingTime, n.processingTime + F64.fin 30 + F64.fin 20)))
      = some (some (F64.fin 100, F64.fin 80, F64.fin 130))
    ∧ traceObservation exParseFloat exTraceTwoChildren exOrdTwoChildren
      = some ("/a", { bottleneck := "front", delay := F64.fin 80 }) := by
  have hparse : parseTrace exParseFloat exTraceTwoChildren exOrdTwoChildren.procs
      = some ([("p1", "front"), ("p2", "db")],
          [("P", ⟨"P", F64.fin 100, [], "p1", F64.fin 100⟩),
            ("C1", ⟨"C1", F64.fin 30, ["P"], "p2", F64.fin 30⟩),
            ("C2", ⟨"C2", F64.fin 20, ["P"], "p2", F64.fin 20⟩)], "/a") := by decide
  have hred : reduceSpans
      [("P", (⟨"P", F64.fin 100, [], "p1", F64.fin 100⟩ : node ℚ)),
        ("C1", ⟨"C1", F64.fin 30, ["P"], "p2", F64.fin 30⟩),
        ("C2", ⟨"C2", F64.fin 20, ["P"], "p2", F64.fin 20⟩)] exOrdTwoChildren.reduce
      = [("P", ⟨"P", F64.fin 100, [], "p1", F64.fin 80⟩),
          ("C1", ⟨"C1", F64.fin 30, ["P"], "p2", F64.fin 30⟩),
          ("C2", ⟨"C2", F64.fin 20, ["P"], "p2", F64.fin 20⟩)] := by
    simp [reduceSpans, exOrdTwoChildren, forRange_cons, forRange_nil, mget_cons, reduceStep,
      mset]
    norm_num
  constructor
  · rw [hparse]
    simp only [Option.map_some', hred, mget_cons, if_true, F64.fin_add_fin]
    norm_num
  · simp only [traceObservation, hparse, Option.bind_eq_bind, Option.some_bind, hred,
      Option.pure_def]
    simp [pickSpan, exOrdTwoChildren, forRange_cons, forRange_nil, mget_cons, maxStep]
    norm_num

/-- C3: two candidates with the same frequency and the same mean delay get the score
NaN (zero divided by zero), no score is greater than zero, and `topsis` returns
the empty service name. -/
theorem topsis_tied_candidates :
    finalScore Real.sqrt (exCandidatesTie ℝ) exOrdInOrder = [("A", F64.nan), ("B", F64.nan)]
      ∧ topsis Real.sqrt (exCandidatesTie ℝ) exOrdInOrder = some "" := by
  have h2 : (0 : ℝ) < Real.sqrt 2 := Real.sqrt_pos.mpr (by norm_num)
  have h50 : (0 : ℝ) < Real.sqrt 50 := Real.sqrt_pos.mpr (by norm_num)
  have hn : topsisNorms Real.sqrt (exCandidatesTie ℝ) exOrdInOrder.norm
      = (F64.fin (Real.sqrt 2), F64.fin (Real.sqrt 50)) := by
    simp [topsisNorms, exCandidatesTie, exOrdInOrder, forRange_cons, forRange_nil, mget_cons,
      F64.sqrtWith_fin]
    norm_num
  have hw : topsisWeighted (exCandidatesTie ℝ) (F64.fin (Real.sqrt 2), F64.fin (Real.sqrt 50))
      exOrdInOrder.best
      = ([("A", ⟨F64.fin (1 / Real.sqrt 2 * (1 / 2)), F64.fin (5 / Real.sqrt 50 * (1 / 2))⟩),
          ("B", ⟨F64.fin (1 / Real.sqrt 2 * (1 / 2)), F64.fin (5 / Real.sqrt 50 * (1 / 2))⟩)],
          F64.fin (1 / Real.sqrt 2 * (1 / 2)), F64.fin (5 / Real.sqrt 50 * (1 / 2))) := by
    simp [topsisWeighted, exCandidatesTie, exOrdInOrder, forRange_cons, forRange_nil, mget_cons,
      mset, freqWeight, delayWeight, ne_of_gt h2, ne_of_gt h50, h2, h50]
  have hworst : topsisWorst
      [("A", (⟨F64.fin (1 / Real.sqrt 2 * (1 / 2)), F64.fin (5 / Real.sqrt 50 * (1 / 2))⟩ :
          topsisArgs ℝ)),
        ("B", ⟨F64.fin (1 / Real.sqrt 2 * (1 / 2)), F64.fin (5 / Real.sqrt 50 * (1 / 2))⟩)]
      (F64.fin (1 / Real.sqrt 2 * (1 / 2)), F64.fin (5 / Real.sqrt 50 * (1 / 2)))
      exOrdInOrder.worst
      = (F64.fin (1 / Real.sqrt 2 * (1 / 2)), F64.fin (5 / Real.sqrt 50 * (1 / 2))) := by
    simp [topsisWorst, exOrdInOrder, forRange_cons, forRange_nil, mget_cons]
  have hlen : (exCandidatesTie ℝ).length ≠ 1 := by simp [exCandidatesTie]
  have hlen0 : (exCandidatesTie ℝ).length ≠ 0 := by simp [exCandidatesTie]
  have hfs : finalScore Real.sqrt (exCandidatesTie ℝ) exOrdInOrder
      = [("A", F64.nan), ("B", F64.nan)] := by
    simp only [finalScore, hlen, if_false, hn, hw, hworst]
    simp [topsisScores, exOrdInOrder, forRange_cons, forRange_nil, mget_cons, mset, closeness,
      F64.sqrtWith_fin]
  refine ⟨hfs, ?_⟩
  simp only [topsis, hlen0, hlen, if_false, hfs]
  simp [exOrdInOrder, forRange_cons, forRange_nil, mget_cons, maxStep]

/-- C6: two candidates with frequencies 3 and 4 and mean delay 0 (frequency at least 1,
delay at least 0, values not all identical) get the score NaN, which is not in
the interval from 0 to 1, and `topsis` returns the empty service name. -/
theorem topsis_zero_delays :
    finalScore Real.sqrt (exCandidatesZeroDelay ℝ) exOrdInOrder
        = [("A", F64.nan), ("B", F64.nan)]
      ∧ ¬ F64.inUnitInterval (F64.nan : F64 ℝ)
      ∧ topsis Real.sqrt (exCandidatesZeroDelay ℝ) exOrdInOrder = some "" := by
  have h25 : Real.sqrt 25 = 5 := by
    rw [show (25 : ℝ) = 5 * 5 by norm_num]
    exact Real.sqrt_mul_self (by norm_num)
  have hn : topsisNorms Real.sqrt (exCandidatesZeroDelay ℝ) exOrdInOrder.norm
      = (F64.fin 5, F64.fin 0) := by
    simp [topsisNorms, exCandidatesZeroDelay, exOrdInOrder, forRange_cons, forRange_nil,
      mget_cons, F64.sqrtWith_fin]
    norm_num [h25]
  have hw : topsisWeighted (exCandidatesZeroDelay ℝ) (F64.fin 5, F64.fin 0) exOrdInOrder.best
      = ([("A", ⟨F64.fin (3 / 10), F64.nan⟩), ("B", ⟨F64.fin (4 / 10), F64.nan⟩)],
          F64.fin (4 / 10), F64.fin 0) := by
    simp [topsisWeighted, exCandidatesZeroDelay, exOrdInOrder, forRange_cons, forRange_nil,
      mget_cons, mset, freqWeight, delayWeight]
    norm_num
  have hlen : (exCandidatesZeroDelay ℝ).length ≠ 1 := by simp [exCandidatesZeroDelay]
  have hlen0 : (exCandidatesZeroDelay ℝ).length ≠ 0 := by simp [exCandidatesZeroDelay]
  have hfs : finalScore Real.sqrt (exCandidatesZeroDelay ℝ) exOrdInOrder
      = [("A", F64.nan), ("B", F64.nan)] := by
    simp only [finalScore, hlen, if_false, hn, hw]
    simp [topsisScores, exOrdInOrder, forRange_cons, forRange_nil, mget_cons, mset, closeness]
  refine ⟨hfs, F64.not_inUnitInterval_nan, ?_⟩
  simp only [topsis, hlen0, hlen, if_false, hfs]
  simp [exOrdInOrder, forRange_cons, forRange_nil, mget_cons, maxStep]

end Evaluations

/-! ## The global selection -/

section GlobalSelection

variable {K : Type} [LinearOrderedField K]

/-- C7: for every URL-to-observations map in which one URL has strictly more
observations than every other URL, the final bottleneck selected by
`aggregateResults` is the service that `topsis` returns for that URL's
aggregated candidates.  The map has no URL with an empty observation list, as
is every map that `findBottlenecks` returns and `processTraces` passes on. -/
theorem aggregateResults_selects_largest_url (sqrt : K → K)
    (m : GoMap (List (bottleneckInfo K))) (o : AggOrd) (u : String)
    (vu : List (bottleneckInfo K))
    (hnd : (mkeys m).Nodup) (houter : o.outer.Perm (mkeys m)) (hfinal : o.final.Perm (mkeys m))
    (hcounter : ∀ k v, mget m k = some v → (o.counter k).Perm (mkeys (aggregateUrl v)))
    (hne : ∀ k v, mget m k = some v → v ≠ [])
    (hu : mget m u = some vu)
    (hmax : ∀ x v, x ≠ u → mget m x = some v → v.length < vu.length) :
    ∃ b, topsis sqrt (aggregateUrl vu) (o.topsis u) = some b
      ∧ aggregateResults sqrt m o = some b := by
  obtain ⟨b, hb⟩ := topsis_isSome sqrt (aggregateUrl vu) (o.topsis u)
    (aggregateUrl_length_ne_zero vu (hne u vu hu))
  refine ⟨b, hb, ?_⟩
  rw [aggregateResults_of_strict_max sqrt m o u vu hnd houter hfinal hcounter hne hu hmax, hb]

theorem exUrlsStrict_hypotheses (outer final : List String)
    (houter : outer.Perm ["u", "v"]) (hfinal : final.Perm ["u", "v"]) :
    (mkeys (exUrlsStrict ℝ)).Nodup
      ∧ (exAggOrd outer final).outer.Perm (mkeys (exUrlsStrict ℝ))
      ∧ (exAggOrd outer final).final.Perm (mkeys (exUrlsStrict ℝ))
      ∧ (∀ k v, mget (exUrlsStrict ℝ) k = some v →
          ((exAggOrd outer final).counter k).Perm (mkeys (aggregateUrl v)))
      ∧ (∀ x v, x ≠ "u" → mget (exUrlsStrict ℝ) x = some v → v.length < 2) := by
  refine ⟨by decide, houter, hfinal, ?_, ?_⟩
  · apply forall_mget_of_forall_mem
    simp [exUrlsStrict, exAggOrd, aggregateUrl, mget, mset, mkeys]
  · intro x v hx hg
    exact forall_mget_of_forall_mem (exUrlsStrict ℝ) (fun x v => x ≠ "u" → v.length < 2)
      (by simp [exUrlsStrict]) x v hg hx

theorem aggregateResults_selects_largest_url_witness :
    findBottlenecks exParseFloat [exTraceOneChild, exTraceOneChild, exTraceDb] exOrdsThree
        = some [("/a", [{ bottleneck := "front", delay := F64.fin 70 },
                  { bottleneck := "front", delay := F64.fin 70 }]),
            ("/b", [{ bottleneck := "db", delay := F64.fin 40 }])]
      ∧ aggregateResults (fun x : ℚ => x)
          [("/a", [({ bottleneck := "front", delay := F64.fin 70 } : bottleneckInfo ℚ),
              { bottleneck := "front", delay := F64.fin 70 }]),
            ("/b", [{ bottleneck := "db", delay := F64.fin 40 }])]
          exAggOrdTwoUrls = some "front" := by
  have hm := exThreeTraces_findBottlenecks
  obtain ⟨b, hb, h⟩ := aggregateResults_selects_largest_url (fun x : ℚ => x) _ exAggOrdTwoUrls
    "/a" [{ bottleneck := "front", delay := F64.fin 70 },
      { bottleneck := "front", delay := F64.fin 70 }]
    (findBottlenecks_nodup exParseFloat exOrdsThree _ _ hm) (by decide) (by decide)
    (by
      apply forall_mget_of_forall_mem
      simp [exAggOrdTwoUrls, aggregateUrl, mget, mset, mkeys])
    (findBottlenecks_nonempty_lists exParseFloat exOrdsThree _ _ hm)
    (by decide)
    (by
      intro x v hx hg
      exact forall_mget_of_forall_mem _ (fun x v => x ≠ "/a" → v.length < 2)
        (by simp) x v hg hx)
  have hfront : topsis (fun x : ℚ => x)
      (aggregateUrl
        [({ bottleneck := "front", delay := F64.fin 70 } : bottleneckInfo ℚ),
          { bottleneck := "front", delay := F64.fin 70 }])
      (exAggOrdTwoUrls.topsis "/a") = some "front" := by
    simp [aggregateUrl, mset, mget, exAggOrdTwoUrls]
    exact topsis_singleton _ _ _ _ (List.Perm.refl _)
  rw [hfront] at hb
  cases hb
  exact ⟨hm, h⟩

/-- C8, counterexample: URLs `u` and `v` have one observation each, of services `A` and
`B`; when the loop over `urlCounter` visits `u` first the selected service is
`A`, when it visits `v` first the selected service is `B`. -/
theorem aggregateResults_tie_depends_on_order :
    aggregateResults Real.sqrt (exUrlsTie ℝ) (exAggOrd ["u", "v"] ["u", "v"]) = some "A"
      ∧ aggregateResults Real.sqrt (exUrlsTie ℝ) (exAggOrd ["u", "v"] ["v", "u"]) = some "B" := by
  have hA : topsis Real.sqrt
      [("A", ({ frequency := F64.fin 1, delay := F64.fin 1 } : topsisArgs ℝ))]
      { single := ["A"], norm := ["A"], best := ["A"], worst := ["A"], score := ["A"],
        pick := ["A"] } = some "A" := topsis_singleton _ _ _ _ (List.Perm.refl _)
  have hB : topsis Real.sqrt
      [("B", ({ frequency := F64.fin 1, delay := F64.fin 1 } : topsisArgs ℝ))]
      { single := ["B"], norm := ["B"], best := ["B"], worst := ["B"], score := ["B"],
        pick := ["B"] } = some "B" := topsis_singleton _ _ _ _ (List.Perm.refl _)
  have hurls : ∀ final, aggregateUrls Real.sqrt (exUrlsTie ℝ) (exAggOrd ["u", "v"] final)
      = some ([("u", F64.fin 1), ("v", F64.fin 1)], [("u", "A"), ("v", "B")]) := by
    intro final
    simp [aggregateUrls, exUrlsTie, exAggOrd, forRange_cons, forRange_nil, mget_cons,
      aggregateStep, aggregateUrl, mget, mset, urlCount, hA, hB]
  constructor
  · simp only [aggregateResults, hurls]
    simp [selectUrl, exAggOrd, forRange_cons, forRange_nil, mget_cons, maxStep]
  · simp only [aggregateResults, hurls]
    simp [selectUrl, exAggOrd, forRange_cons, forRange_nil, mget_cons, maxStep]

/-- C8, amended: for every URL-to-observations map in which one URL has strictly more
observations than every other URL, every order of iterating over the URLs (in
the loop over `urlServiceMap` and in the loop over `urlCounter`) yields the
same outcome of `aggregateResults`: the same selected service, or the `topsis`
panic in both. -/
theorem aggregateResults_url_order_independent (sqrt : K → K)
    (m : GoMap (List (bottleneckInfo K))) (o : AggOrd) (outer' final' : List String)
    (u : String) (vu : List (bottleneckInfo K))
    (hnd : (mkeys m).Nodup) (houter : o.outer.Perm (mkeys m)) (hfinal : o.final.Perm (mkeys m))
    (houter' : outer'.Perm (mkeys m)) (hfinal' : final'.Perm (mkeys m))
    (hcounter : ∀ k v, mget m k = some v → (o.counter k).Perm (mkeys (aggregateUrl v)))
    (hu : mget m u = some vu)
    (hmax : ∀ x v, x ≠ u → mget m x = some v → v.length < vu.length) :
    aggregateResults sqrt m { o with outer := outer', final := final' }
      = aggregateResults sqrt m o := by
  by_cases hne : ∀ k v, mget m k = some v → v ≠ []
  · rw [aggregateResults_of_strict_max sqrt m o u vu hnd houter hfinal hcounter hne hu hmax,
      aggregateResults_of_strict_max sqrt m { o with outer := outer', final := final' } u vu
        hnd houter' hfinal' hcounter hne hu hmax]
  · push_neg at hne
    obtain ⟨k, v, hk, hv⟩ := hne
    subst hv
    have hmem : k ∈ mkeys m := mem_mkeys_of_mget hk
    unfold aggregateResults aggregateUrls
    rw [forRange_aggregateStep_panic sqrt m _ _ _ k (houter.mem_iff.mpr hmem) hk,
      forRange_aggregateStep_panic sqrt m _ _ _ k (houter'.mem_iff.mpr hmem) hk]

theorem aggregateResults_url_order_independent_witness :
    aggregateResults Real.sqrt (exUrlsStrict ℝ) (exAggOrd ["v", "u"] ["v", "u"])
      = aggregateResults Real.sqrt (exUrlsStrict ℝ) (exAggOrd ["u", "v"] ["u", "v"]) := by
  obtain ⟨h1, h2, h3, h4, h5⟩ := exUrlsStrict_hypotheses ["u", "v"] ["u", "v"]
    (by decide) (by decide)
  exact aggregateResults_url_order_independent Real.sqrt (exUrlsStrict ℝ)
    (exAggOrd ["u", "v"] ["u", "v"]) ["v", "u"] ["v", "u"] "u"
    [{ bottleneck := "A", delay := F64.fin 1 }, { bottleneck := "A", delay := F64.fin 3 }]
    h1 h2 h3 (by decide) (by decide) h4 rfl h5

end GlobalSelection

/-! ## Call counts, one observation per trace, the empty candidate map -/

section CountsAndPanic

variable {K : Type} [LinearOrderedField K]

/-- C11: the total call count that `aggregateResults` computes for a URL is the sum of
the frequencies of the URL's candidates, and this sum is the number of
observations in the URL's list. -/
theorem urlCount_eq_sum_frequencies (obs : List (bottleneckInfo K)) (ord : List String)
    (hord : ord.Perm (mkeys (aggregateUrl obs))) :
    urlCount (aggregateUrl obs) ord
        = F64.sum ((aggregateUrl obs).map (fun e => e.2.frequency))
      ∧ F64.sum ((aggregateUrl obs).map (fun e => e.2.frequency)) = F64.fin (obs.length : K) := by
  have hsum : F64.sum ((aggregateUrl obs).map (fun e => e.2.frequency))
      = F64.fin (obs.length : K) := by
    rw [← urlCount_eq_length obs (mkeys (aggregateUrl obs)) (List.Perm.refl _)]
    unfold urlCount F64.sum
    rw [forRange_mkeys _ (mkeys_aggregateUrl_nodup obs), List.foldl_map]
  exact ⟨(urlCount_eq_length obs ord hord).trans hsum.symm, hsum⟩

theorem urlCount_eq_sum_frequencies_witness :
    urlCount (aggregateUrl exObsPerm1) ["B", "A"] = F64.fin 4 := by
  have h := urlCount_eq_sum_frequencies exObsPerm1 ["B", "A"] (by decide)
  rw [h.1, h.2]
  simp [exObsPerm1]

/-- C12: `findBottlenecks` records exactly one observation per trace: the lengths of the
observation lists of the returned map sum to the number of input traces, and
a map is returned whenever every record passes the type assertions. -/
theorem findBottlenecks_one_observation_per_trace (parseFloat : String → F64 K × Bool)
    (data : List (JSON K)) (ords : Nat → TraceOrd) :
    (∀ m, findBottlenecks parseFloat data ords = some m → totalObservations m = data.length)
      ∧ ((∀ j t, data[j]? = some t → (parseTrace parseFloat t (ords j).procs).isSome) →
          ∃ m, findBottlenecks parseFloat data ords = some m
            ∧ totalObservations m = data.length) := by
  refine ⟨fun m hm => findBottlenecks_total parseFloat ords data m hm, fun h => ?_⟩
  obtain ⟨m, hm⟩ := findBottlenecksFrom_isSome parseFloat ords data 0 []
    (fun j t hj => by simpa using h j t hj)
  exact ⟨m, hm, findBottlenecks_total parseFloat ords data m hm⟩

theorem findBottlenecks_one_observation_per_trace_witness :
    (findBottlenecks exParseFloat [exTraceOneChild] (exTraceOrds exOrdOneChild)).map
        totalObservations = some 1 := by
  have h := (findBottlenecks_one_observation_per_trace exParseFloat [exTraceOneChild]
    (exTraceOrds exOrdOneChild)).1 _ exTraceOneChild_findBottlenecks
  rw [exTraceOneChild_findBottlenecks, Option.map_some', h]
  rfl

/-- C15: `topsis` panics exactly on the empty candidate map: it returns no service name
for the empty map and returns one for every non-empty map. -/
theorem topsis_panics_iff_empty (sqrt : K → K) (data : GoMap (topsisArgs K)) (o : TopsisOrd) :
    (data = [] → topsis sqrt data o = none)
      ∧ (data ≠ [] → ∃ b, topsis sqrt data o = some b) := by
  constructor
  · intro h
    rw [h]
    rfl
  · intro h
    exact topsis_isSome sqrt data o (fun hc => h (List.length_eq_zero.mp hc))

theorem topsis_panics_iff_empty_witness :
    topsis Real.sqrt ([] : GoMap (topsisArgs ℝ)) exOrdAB = none
      ∧ (topsis Real.sqrt (exCandidatesAB ℝ) exOrdAB).isSome = true := by
  refine ⟨(topsis_panics_iff_empty Real.sqrt [] exOrdAB).1 rfl, ?_⟩
  obtain ⟨b, hb⟩ := (topsis_panics_iff_empty Real.sqrt (exCandidatesAB ℝ) exOrdAB).2
    (by simp [exCandidatesAB])
  rw [hb]
  rfl

/-- C18: in the map that `findBottlenecks` returns every URL has a non-empty observation
list, hence a non-empty candidate map, and `aggregateResults` applied to it
never reaches the panic of `topsis`. -/
theorem aggregateResults_of_findBottlenecks_no_panic (parseFloat : String → F64 K × Bool)
    (data : List (JSON K)) (ords : Nat → TraceOrd) (m : GoMap (List (bottleneckInfo K)))
    (h : findBottlenecks parseFloat data ords = some m) :
    (∀ url obs, mget m url = some obs → obs ≠ [] ∧ aggregateUrl obs ≠ [])
      ∧ (∀ (sqrt : K → K) (o : AggOrd), ∃ r, aggregateResults sqrt m o = some r) := by
  have hne := findBottlenecks_nonempty_lists parseFloat ords data m h
  constructor
  · intro url obs hg
    refine ⟨hne url obs hg, fun hc => ?_⟩
    have := aggregateUrl_length_ne_zero obs (hne url obs hg)
    rw [hc] at this
    exact this rfl
  · intro sqrt o
    obtain ⟨r, hr⟩ := forRange_aggregateStep_isSome sqrt m o hne o.outer ([], [])
    unfold aggregateResults aggregateUrls
    rw [hr]
    exact ⟨_, rfl⟩

theorem aggregateResults_of_findBottlenecks_no_panic_witness :
    (aggregateResults (fun x : ℚ => x)
        [("/a", [({ bottleneck := "front", delay := F64.fin 70 } : bottleneckInfo ℚ)])]
        exAggOrdFront).isSome = true := by
  obtain ⟨r, hr⟩ := (aggregateResults_of_findBottlenecks_no_panic exParseFloat
    [exTraceOneChild] (exTraceOrds exOrdOneChild) _ exTraceOneChild_findBottlenecks).2
    (fun x : ℚ => x) exAggOrdFront
  rw [hr]
  rfl

end CountsAndPanic

/-! ## Delays are not negative -/

section DelaysNonNeg

variable {K : Type} [LinearOrderedField K]

/-- C20: every observation that `findBottlenecks` records has a delay that is not
negative; a trace whose spans all have a processing time of at most 0 (or that
has no span) records the delay 0 with the service looked up under the empty
process id; hence every candidate that `aggregateResults` passes to `topsis`
has a frequency of at least 1 and a mean delay that is not negative. -/
theorem findBottlenecks_delays_nonneg (parseFloat : String → F64 K × Bool) :
    (∀ (t : JSON K) (o : TraceOrd) (serviceMap : GoMap String) (spanMap : GoMap (node K))
        (url : String),
        parseTrace parseFloat t o.procs = some (serviceMap, spanMap, url) →
        ∃ info, traceObservation parseFloat t o = some (url, info)
          ∧ (0 : F64 K) ≤ info.delay
          ∧ ((∀ id n, mget (reduceSpans spanMap o.reduce) id = some n →
                n.processingTime ≤ 0) →
              info = { bottleneck := (mget serviceMap "").getD "", delay := 0 }))
      ∧ (∀ (data : List (JSON K)) (ords : Nat → TraceOrd)
          (m : GoMap (List (bottleneckInfo K))),
          findBottlenecks parseFloat data ords = some m →
          ∀ url obs, mget m url = some obs →
            (∀ e ∈ obs, (0 : F64 K) ≤ e.delay)
              ∧ (∀ s c, mget (aggregateUrl obs) s = some c →
                  (1 : F64 K) ≤ c.frequency ∧ (0 : F64 K) ≤ c.delay)) := by
  constructor
  · intro t o serviceMap spanMap url hparse
    refine ⟨_, traceObservation_of_parse parseFloat t o serviceMap spanMap url hparse,
      pickSpan_zero_le _ _, ?_⟩
    intro hall
    rw [pickSpan_of_all_le_zero _ _ hall]
  · intro data ords m h url obs hobs
    have hd := findBottlenecks_delays_zero_le parseFloat ords data m h url obs hobs
    exact ⟨hd, fun s c hc => aggregateUrl_candidate_bounds obs hd s c hc⟩

theorem findBottlenecks_delays_nonneg_witness :
    traceObservation exParseFloat exTraceOneChild exOrdOneChild
        = some ("/a", { bottleneck := "front", delay := F64.fin 70 })
      ∧ (0 : F64 ℚ) ≤ F64.fin 70
      ∧ (1 : F64 ℚ) ≤ F64.fin 1 ∧ (0 : F64 ℚ) ≤ F64.fin 70 := by
  obtain ⟨info, hobs, hnn, _⟩ := (findBottlenecks_delays_nonneg exParseFloat).1
    exTraceOneChild exOrdOneChild _ _ _ exTraceOneChild_parse
  rw [exTraceOneChild_observation] at hobs
  simp only [Option.some.injEq, Prod.mk.injEq, true_and] at hobs
  rw [← hobs] at hnn
  have hmap := (findBottlenecks_delays_nonneg exParseFloat).2 [exTraceOneChild]
    (exTraceOrds exOrdOneChild) _ exTraceOneChild_findBottlenecks "/a"
    [{ bottleneck := "front", delay := F64.fin 70 }] (by decide)
  have hc := hmap.2 "front" { frequency := F64.fin 1, delay := F64.fin 70 }
    (by simp [aggregateUrl, mget, mset])
  exact ⟨exTraceOneChild_observation, hnn, hc.1, hc.2⟩

end DelaysNonNeg

/-! ## The URL of a trace, malformed durations, the visiting order of the reduction -/

section UrlAndDurations

variable {K : Type} [LinearOrderedField K]

/-- C13, counterexample: the trace has the root spans `R1` with the `http.url` tag `/a`
and `R2` with the `http.url` tag `/b`, in this order; the observation is
recorded under `/b`, the URL of the second root span. -/
theorem traceObservation_two_roots :
    (traceSpans exTraceTwoRoots).map (fun s => (isRootSpan s, urlTagValues (spanTags s)))
        = [(true, ["/a"]), (true, ["/b"])]
      ∧ traceObservation exParseFloat exTraceTwoRoots exOrdTwoRoots
        = some ("/b", { bottleneck := "front", delay := F64.fin 100 })
      ∧ findBottlenecks exParseFloat [exTraceTwoRoots] (exTraceOrds exOrdTwoRoots)
        = some [("/b", [{ bottleneck := "front", delay := F64.fin 100 }])] := by
  have hparse : parseTrace exParseFloat exTraceTwoRoots exOrdTwoRoots.procs
      = some ([("p1", "front"), ("p2", "db")],
          [("R1", ⟨"R1", F64.fin 100, [], "p1", F64.fin 100⟩),
            ("R2", ⟨"R2", F64.fin 50, [], "p2", F64.fin 50⟩)], "/b") := by decide
  have hobs : traceObservation exParseFloat exTraceTwoRoots exOrdTwoRoots
      = some ("/b", { bottleneck := "front", delay := F64.fin 100 }) := by
    simp only [traceObservation, hparse, Option.bind_eq_bind, Option.some_bind,
      Option.pure_def]
    simp [reduceSpans, pickSpan, exOrdTwoRoots, forRange_cons, forRange_nil, mget_cons,
      reduceStep, maxStep]
    norm_num
  refine ⟨by decide, hobs, ?_⟩
  simp [findBottlenecks, findBottlenecksFrom, exTraceOrds, hobs, recordObservation, mget, mset]

/-- C13, amended: for every trace that passes the type assertions, the URL under which
`findBottlenecks` records the trace's observation is the value of the last
`http.url` tag of the last root span (a span with no `CHILD_OF` reference) of
the span list that carries such a tag, or the empty string when no root span
carries an `http.url` tag. -/
theorem traceObservation_url_last_root (parseFloat : String → F64 K × Bool) (t : JSON K)
    (o : TraceOrd) (serviceMap : GoMap String) (spanMap : GoMap (node K)) (url : String)
    (hparse : parseTrace parseFloat t o.procs = some (serviceMap, spanMap, url)) :
    ∃ info, traceObservation parseFloat t o = some (lastRootUrl (traceSpans t), info)
      ∧ findBottlenecks parseFloat [t] (fun _ => o)
          = some [(lastRootUrl (traceSpans t), [info])] := by
  have hurl := parseTrace_url parseFloat t o.procs serviceMap spanMap url hparse
  have hobs := traceObservation_of_parse parseFloat t o serviceMap spanMap url hparse
  rw [hurl] at hobs
  refine ⟨_, hobs, ?_⟩
  simp [findBottlenecks, findBottlenecksFrom, hobs, recordObservation, mget, mset]

theorem traceObservation_url_last_root_witness :
    traceObservation exParseFloat exTraceOneChild exOrdOneChild
        = some ("/a", { bottleneck := "front", delay := F64.fin 70 })
      ∧ lastRootUrl (traceSpans exTraceOneChild) = "/a" := by
  obtain ⟨info, hobs, _⟩ := traceObservation_url_last_root exParseFloat exTraceOneChild
    exOrdOneChild _ _ _ exTraceOneChild_parse
  rw [exTraceOneChild_observation] at hobs
  simp only [Option.some.injEq, Prod.mk.injEq] at hobs
  exact ⟨exTraceOneChild_observation, hobs.1.symm⟩

/-- C17, counterexample: the only span of the trace is the root span `R`, whose tags are
`http.url = /a` and `http.url = /b`, in this order; the URL of the trace is
`/b`, the value of the second tag. -/
theorem traceObservation_two_url_tags :
    (traceSpans exTraceTwoUrlTags).map (fun s => (isRootSpan s, urlTagValues (spanTags s)))
        = [(true, ["/a", "/b"])]
      ∧ traceObservation exParseFloat exTraceTwoUrlTags exOrdOneSpan
        = some ("/b", { bottleneck := "front", delay := F64.fin 100 }) := by
  have hparse : parseTrace exParseFloat exTraceTwoUrlTags exOrdOneSpan.procs
      = some ([("p1", "front"), ("p2", "db")],
          [("R", ⟨"R", F64.fin 100, [], "p1", F64.fin 100⟩)], "/b") := by decide
  refine ⟨by decide, ?_⟩
  simp only [traceObservation, hparse, Option.bind_eq_bind, Option.some_bind, Option.pure_def]
  simp [reduceSpans, pickSpan, exOrdOneSpan, forRange_cons, forRange_nil, mget_cons,
    reduceStep, maxStep]

/-- C17, amended: for every trace with exactly one root span, the URL of the trace is
the value of the last tag in that root span's tag list whose key is `http.url`
(the empty string when the list holds no such tag). -/
theorem traceObservation_url_one_root (parseFloat : String → F64 K × Bool) (t : JSON K)
    (o : TraceOrd) (serviceMap : GoMap String) (spanMap : GoMap (node K)) (url : String)
    (pre post : List (JSON K)) (r : JSON K)
    (hparse : parseTrace parseFloat t o.procs = some (serviceMap, spanMap, url))
    (hspans : traceSpans t = pre ++ r :: post)
    (hr : isRootSpan r = true) (hpre : ∀ x ∈ pre, isRootSpan x = false)
    (hpost : ∀ x ∈ post, isRootSpan x = false) :
    ∃ info, traceObservation parseFloat t o
      = some (((urlTagValues (spanTags r)).getLast?).getD "", info) := by
  have hurl := parseTrace_url parseFloat t o.procs serviceMap spanMap url hparse
  rw [hspans, lastRootUrl_of_one_root pre post r hr hpre hpost] at hurl
  have hobs := traceObservation_of_parse parseFloat t o serviceMap spanMap url hparse
  rw [hurl] at hobs
  exact ⟨_, hobs⟩

theorem traceObservation_url_one_root_witness :
    traceObservation exParseFloat exTraceOneChild exOrdOneChild
        = some ("/a", { bottleneck := "front", delay := F64.fin 70 })
      ∧ ((urlTagValues (spanTags (exSpan "R" "p1" 100 none (some "/a")))).getLast?).getD ""
        = "/a" := by
  obtain ⟨info, hobs⟩ := traceObservation_url_one_root exParseFloat exTraceOneChild
    exOrdOneChild _ _ _ [] [exSpan "C" "p2" 30 (some "R") none]
    (exSpan "R" "p1" 100 none (some "/a")) exTraceOneChild_parse rfl (by decide)
    (by simp) (by decide)
  rw [exTraceOneChild_observation] at hobs
  simp only [Option.some.injEq, Prod.mk.injEq] at hobs
  exact ⟨exTraceOneChild_observation, hobs.1.symm⟩

/-- C14: the root span `R` has the duration string `abc`; `getFloat` returns 0 with an
error, the error is dropped, and the observation recorded for the trace is the
one of the same trace with the number 0 as duration of `R`. -/
theorem traceObservation_bad_duration :
    getFloat exParseFloat (JSON.str "abc") = some (F64.fin 0, false)
      ∧ traceObservation exParseFloat exTraceBadDuration exOrdOneChild
        = some ("/a", { bottleneck := "db", delay := F64.fin 30 })
      ∧ traceObservation exParseFloat exTraceZeroDuration exOrdOneChild
        = some ("/a", { bottleneck := "db", delay := F64.fin 30 }) := by
  have hparse1 : parseTrace exParseFloat exTraceBadDuration exOrdOneChild.procs
      = some ([("p1", "front"), ("p2", "db")],
          [("R", ⟨"R", F64.fin 0, [], "p1", F64.fin 0⟩),
            ("C", ⟨"C", F64.fin 30, ["R"], "p2", F64.fin 30⟩)], "/a") := by decide
  have hparse2 : parseTrace exParseFloat exTraceZeroDuration exOrdOneChild.procs
      = some ([("p1", "front"), ("p2", "db")],
          [("R", ⟨"R", F64.fin 0, [], "p1", F64.fin 0⟩),
            ("C", ⟨"C", F64.fin 30, ["R"], "p2", F64.fin 30⟩)], "/a") := by decide
  have hobs : ∀ t, parseTrace exParseFloat t exOrdOneChild.procs
      = some ([("p1", "front"), ("p2", "db")],
          [("R", ⟨"R", F64.fin 0, [], "p1", F64.fin 0⟩),
            ("C", ⟨"C", F64.fin 30, ["R"], "p2", F64.fin 30⟩)], "/a") →
      traceObservation exParseFloat t exOrdOneChild
        = some ("/a", { bottleneck := "db", delay := F64.fin 30 }) := by
    intro t ht
    rw [traceObservation_of_parse exParseFloat t exOrdOneChild _ _ _ ht]
    simp [reduceSpans, pickSpan, exOrdOneChild, forRange_cons, forRange_nil, mget_cons,
      reduceStep, maxStep, mset]
    norm_num
    decide
  exact ⟨rfl, hobs _ hparse1, hobs _ hparse2⟩

/-- C16: for the trace with parent `P` (duration 100) and children `C1` (30) and `C2`
(20), the reduction loop leaves `P` with processing time 80 when it visits
`C2` last and with processing time 70 when it visits `C1` last. -/
theorem reduceSpans_depends_on_order :
    (parseTrace exParseFloat exTraceTwoChildren exOrdTwoChildren.procs).map
        (fun p =>
          ((mget (reduceSpans p.2.1 ["P", "C1", "C2"]) "P").map (fun n => n.processingTime),
            (mget (reduceSpans p.2.1 ["P", "C2", "C1"]) "P").map (fun n => n.processingTime)))
      = some (some (F64.fin 80), some (F64.fin 70)) := by
  have hparse : parseTrace exParseFloat exTraceTwoChildren exOrdTwoChildren.procs
      = some ([("p1", "front"), ("p2", "db")],
          [("P", ⟨"P", F64.fin 100, [], "p1", F64.fin 100⟩),
            ("C1", ⟨"C1", F64.fin 30, ["P"], "p2", F64.fin 30⟩),
            ("C2", ⟨"C2", F64.fin 20, ["P"], "p2", F64.fin 20⟩)], "/a") := by decide
  rw [hparse]
  simp [reduceSpans, forRange_cons, forRange_nil, mget_cons, reduceStep, mset]
  norm_num

end UrlAndDurations

/-! ## A candidate that dominates in frequency and in delay -/

section DominantCandidate

variable {K : Type} [LinearOrderedField K]

/-- C19, counterexample: seven traces of one URL, three of service `A` with the span
duration 3, three of service `B` with the duration 4 and one of `B` whose
duration is the string `Inf`, which `strconv.ParseFloat` reads as +Inf.
`findBottlenecks` records their seven observations and `aggregateResults`
builds the candidates `A` with frequency 3 and delay 3 and `B` with frequency 4
and delay +Inf: both have a frequency of at least 1 and a delay that is not
negative, and `B` is strictly greater in both.  The norm of the delays is
+Inf, the normalised delay of `B` is Inf / Inf = NaN, the score of `B` is NaN
and not 1, the score of `A` is 0, and `topsis` returns the empty service
name. -/
theorem topsis_dominant_infinite_delay :
    findBottlenecks (exParseFloatInf ℝ) (exTracesInfDelay ℝ) (exTraceOrds exOrdOneSpan)
        = some [("/a", exObsInfDelay ℝ)]
      ∧ aggregateUrl (exObsInfDelay ℝ) = exCandidatesInfDelay ℝ
      ∧ ((1 : F64 ℝ) ≤ F64.fin 3 ∧ (0 : F64 ℝ) ≤ F64.fin 3
        ∧ (1 : F64 ℝ) ≤ F64.fin 4 ∧ (0 : F64 ℝ) ≤ F64.pinf)
      ∧ ((F64.fin 3 : F64 ℝ) < F64.fin 4 ∧ (F64.fin 3 : F64 ℝ) < F64.pinf)
      ∧ finalScore Real.sqrt (exCandidatesInfDelay ℝ) exOrdInOrder
        = [("A", F64.fin 0), ("B", F64.nan)]
      ∧ topsis Real.sqrt (exCandidatesInfDelay ℝ) exOrdInOrder = some "" := by
  have h25 : Real.sqrt 25 = 5 := by
    rw [show (25 : ℝ) = 5 * 5 by norm_num]
    exact Real.sqrt_mul_self (by norm_num)
  have hn : topsisNorms Real.sqrt (exCandidatesInfDelay ℝ) exOrdInOrder.norm
      = (F64.fin 5, F64.pinf) := by
    simp [topsisNorms, exCandidatesInfDelay, exOrdInOrder, forRange_cons, forRange_nil,
      mget_cons, F64.sqrtWith_fin]
    norm_num [h25]
  have hw : topsisWeighted (exCandidatesInfDelay ℝ) (F64.fin 5, F64.pinf) exOrdInOrder.best
      = ([("A", ⟨F64.fin (3 / 10), F64.fin 0⟩), ("B", ⟨F64.fin (4 / 10), F64.nan⟩)],
          F64.fin (4 / 10), F64.fin 0) := by
    simp [topsisWeighted, exCandidatesInfDelay, exOrdInOrder, forRange_cons, forRange_nil,
      mget_cons, mset, freqWeight, delayWeight]
    norm_num
  have hworst : topsisWorst
      [("A", (⟨F64.fin (3 / 10), F64.fin 0⟩ : topsisArgs ℝ)),
        ("B", ⟨F64.fin (4 / 10), F64.nan⟩)]
      (F64.fin (4 / 10), F64.fin 0) exOrdInOrder.worst
      = (F64.fin (3 / 10), F64.fin 0) := by
    simp [topsisWorst, exOrdInOrder, forRange_cons, forRange_nil, mget_cons]
    norm_num
  have hlen : (exCandidatesInfDelay ℝ).length ≠ 1 := by simp [exCandidatesInfDelay]
  have hlen0 : (exCandidatesInfDelay ℝ).length ≠ 0 := by simp [exCandidatesInfDelay]
  have hpos : (0 : ℝ) < Real.sqrt ((3 / 10 - 4 / 10) * (3 / 10 - 4 / 10)) :=
    Real.sqrt_pos.mpr (by norm_num)
  have hfs : finalScore Real.sqrt (exCandidatesInfDelay ℝ) exOrdInOrder
      = [("A", F64.fin 0), ("B", F64.nan)] := by
    simp only [finalScore, hlen, if_false, hn, hw, hworst]
    simp [topsisScores, exOrdInOrder, forRange_cons, forRange_nil, mget_cons, mset, closeness,
      F64.sqrtWith_fin]
    have hsq : ¬ ((3 / 10 - 4 / 10 : ℝ) * (3 / 10 - 4 / 10) < 0) := by norm_num
    rw [if_neg hsq, F64.fin_add_fin, add_zero, F64.fin_div_fin_of_ne _ (ne_of_gt hpos),
      zero_div]
  refine ⟨exTracesInfDelay_findBottlenecks, exObsInfDelay_aggregateUrl,
    ⟨?_, ?_, ?_, trivial⟩, ⟨?_, trivial⟩, hfs, ?_⟩
  · rw [F64.one_def, F64.fin_le_fin]; norm_num
  · rw [F64.zero_def, F64.fin_le_fin]; norm_num
  · rw [F64.one_def, F64.fin_le_fin]; norm_num
  · rw [F64.fin_lt_fin]; norm_num
  · simp only [topsis, hlen0, hlen, if_false, hfs]
    simp [exOrdInOrder, forRange_cons, forRange_nil, mget_cons, maxStep]

/-- C19, amended: in exact arithmetic, for a candidate map with at least two
candidates, all with a finite frequency of at least 1 and a finite delay that
is not negative, a candidate whose frequency and delay are both strictly
greater than those of every other candidate has the closeness score 1, every
other candidate has a score strictly below 1, and `topsis` returns the
dominating candidate. -/
theorem topsis_dominant_candidate (sqrt : K → K)
    (hsqrt : ∀ x, 0 ≤ x → 0 ≤ sqrt x ∧ sqrt x * sqrt x = x)
    (data : GoMap (topsisArgs K)) (o : TopsisOrd) (hnd : (mkeys data).Nodup)
    (hlen : 2 ≤ data.length)
    (hnorm : o.norm.Perm (mkeys data)) (hbest : o.best.Perm (mkeys data))
    (hworst : o.worst.Perm (mkeys data)) (hscore : o.score.Perm (mkeys data))
    (hpick : o.pick.Perm (mkeys data))
    (hwf : ∀ k v, mget data k = some v →
      ∃ f d, v = { frequency := F64.fin f, delay := F64.fin d } ∧ 1 ≤ f ∧ 0 ≤ d)
    (s : String) (fs ds : K)
    (hs : mget data s = some { frequency := F64.fin fs, delay := F64.fin ds })
    (hdom : ∀ t f d, t ≠ s →
      mget data t = some { frequency := F64.fin f, delay := F64.fin d } → f < fs ∧ d < ds) :
    mget (finalScore sqrt data o) s = some (F64.fin 1)
      ∧ (∀ t, t ≠ s → t ∈ mkeys data →
          ∃ w, mget (finalScore sqrt data o) t = some (F64.fin w) ∧ w < 1)
      ∧ topsis sqrt data o = some s := by
  have hF := finite_values_of_wellformed data hwf
  have hsmem : s ∈ mkeys data := mem_mkeys_of_mget hs
  have hfs : freqK data s = fs := by simp [freqK, hs, F64.toK]
  have hds : delayK data s = ds := by simp [delayK, hs, F64.toK]
  have hdom' : ∀ t ∈ mkeys data, t ≠ s →
      freqK data t < freqK data s ∧ delayK data t < delayK data s := by
    intro t ht hts
    rw [hfs, hds]
    exact hdom t _ _ hts (hF t ht)
  obtain ⟨t0, ht0, ht0s⟩ := exists_other_key data hnd hlen s
  obtain ⟨f0, d0, hv0, _, hd0⟩ := hwf t0 _ (hF t0 ht0)
  simp only [topsisArgs.mk.injEq, F64.fin.injEq] at hv0
  obtain ⟨f1, d1, hv1, hf1, _⟩ := hwf s _ hs
  simp only [topsisArgs.mk.injEq, F64.fin.injEq] at hv1
  have hFs : 0 < freqK data s := by
    rw [hfs, hv1.1]
    exact lt_of_lt_of_le zero_lt_one hf1
  have hDs : 0 < delayK data s := by
    have := (hdom' t0 ht0 ht0s).2
    rw [hv0.2] at this
    exact lt_of_le_of_lt hd0 this
  obtain ⟨hscore1, hothers⟩ := finalScore_of_dominant sqrt hsqrt data o hnd hlen hnorm hbest
    hworst hscore (freqK data) (delayK data) hF s hsmem hFs hDs hdom'
  refine ⟨hscore1, ?_, ?_⟩
  · intro t hts ht
    obtain ⟨w, hw, _, hw1⟩ := hothers t ht hts
    exact ⟨w, hw, hw1⟩
  · apply topsis_of_strict_max sqrt (fun x hx => (hsqrt x hx).1) data o hnd hlen hscore hpick s
      (F64.fin 1) hscore1
    intro t w hts hw
    have ht := mem_mkeys_of_mget_finalScore sqrt data o hlen hscore t w hw
    obtain ⟨w', hw', _, hw1⟩ := hothers t ht hts
    rw [hw'] at hw
    cases hw
    rw [F64.fin_lt_fin]
    exact hw1

theorem topsis_dominant_candidate_witness :
    mget (finalScore Real.sqrt (exCandidatesAB ℝ) exOrdAB) "B" = some (F64.fin 1)
      ∧ topsis Real.sqrt (exCandidatesAB ℝ) exOrdAB = some "B" := by
  have h := topsis_dominant_candidate Real.sqrt
    (fun x hx => ⟨Real.sqrt_nonneg x, Real.mul_self_sqrt hx⟩) (exCandidatesAB ℝ) exOrdAB
    (by decide) (by decide) (by decide) (by decide) (by decide) (by decide) (by decide)
    (forall_mget_of_forall_mem (exCandidatesAB ℝ)
      (fun _ v => ∃ f d, v = { frequency := F64.fin f, delay := F64.fin d } ∧ 1 ≤ f ∧ 0 ≤ d)
      (by
        intro e he
        simp only [exCandidatesAB, List.mem_cons, List.mem_singleton, List.not_mem_nil,
          or_false] at he
        rcases he with he | he
        · exact ⟨3, 3, by rw [he], by norm_num, by norm_num⟩
        · exact ⟨4, 4, by rw [he], by norm_num, by norm_num⟩))
    "B" 4 4 rfl
    (by
      intro t f d hts hg
      have := mem_of_mget hg
      simp only [exCandidatesAB, List.mem_cons, List.mem_singleton, List.not_mem_nil,
        or_false, Prod.mk.injEq, topsisArgs.mk.injEq, F64.fin.injEq] at this
      rcases this with ⟨_, hf, hd⟩ | ⟨ht, _⟩
      · rw [hf, hd]
        constructor <;> norm_num
      · exact absurd ht hts)
  exact ⟨h.1, h.2.2⟩

end DominantCandidate
